import Mathlib

/-!
# Slideshow (Hash Code 2019): a shallow embedding of `src/main.cc`

The C++ program reads a list of photo records, merges vertical photos two by
two, builds an inverted index from tags to photos and then walks greedily from
slide to slide.  This file embeds the program as pure Lean functions and proves
properties of it.

Conventions of the embedding

* `std::set<int>` is a list of naturals kept in ascending order without
  duplicates (`setInsert`, `setErase`); iteration is list order.
* `std::map<int, β>` is an association list kept in ascending key order
  (`mapFind`, `mapEmplace`, `mapSet`); `begin()` is the head of the list.
* Dereferencing an `end()` iterator is undefined behaviour in C++; the
  embedding makes it an explicit fault (`Fault.endDeref`).
* An exception that nothing catches ends the program; the embedding makes it
  an explicit fault too (`Fault.outOfRange` for `std::out_of_range`).
* Files are outside the embedding: `read_input` works on the records of the
  input file, and `main` gives the name of the output file and what
  `write_output` sends to it.
* `std::sort` is not a stable sort and its result on equal keys is unspecified:
  the functions take the sorting routine as a parameter `StdSort`, of which only
  "the result is a permutation, ordered by the comparison" is known.  Two
  instances are used to run the program: `insertionSort` (stable) and
  `libstdcxxSort`, a model of the routine of libstdc++ (not stable beyond 16
  elements).
-/

namespace Slideshow

/-! ## Ordered containers -/

/-- `std::set<int>::insert`: nothing happens when the element is present, otherwise
it is put at its place in ascending order. -/
def setInsert (x : Nat) (s : List Nat) : List Nat :=
  if x ∈ s then s else List.orderedInsert (fun a b => a ≤ b) x s

/-- `std::set<int>::erase(key)`. -/
def setErase (x : Nat) (s : List Nat) : List Nat :=
  s.filter (fun y => y != x)

/-- `std::map<int, β>::find`: `none` stands for the `end()` iterator. -/
def mapFind {β : Type} : List (Nat × β) → Nat → Option β
  | [], _ => none
  | (k', v) :: rest, k => if k' = k then some v else mapFind rest k

/-- `std::map<int, β>::emplace`: the map is unchanged when the key is present,
otherwise the pair is put at its place in ascending key order. -/
def mapEmplace {β : Type} (m : List (Nat × β)) (k : Nat) (v : β) : List (Nat × β) :=
  match mapFind m k with
  | some _ => m
  | none => List.orderedInsert (fun a b => a.1 ≤ b.1) (k, v) m

/-- Assignment through an iterator obtained by `find`: the value stored under `k`
is replaced. -/
def mapSet {β : Type} (m : List (Nat × β)) (k : Nat) (v : β) : List (Nat × β) :=
  m.map (fun kv => if kv.1 = k then (kv.1, v) else kv)

/-! ## Data model -/

/-- The class `Photo`: `id_`, `input_ids_`, `used_`, `tags_`.  The default
constructor leaves `id_` uninitialised; the embedding gives it the value 0 (the
program always calls `set_id` before reading it). -/
structure Photo where
  id : Nat
  input_ids : List Nat
  used : Bool
  tags : List Nat
  deriving DecidableEq, Repr

/-- The default constructor `Photo()`. -/
def Photo.empty : Photo := { id := 0, input_ids := [], used := false, tags := [] }

/-- The method `Photo::add_tag`. -/
def Photo.add_tag (p : Photo) (t : Nat) : Photo := { p with tags := setInsert t p.tags }

/-- The method `Photo::add_input_ids_`. -/
def Photo.add_input_ids_ (p : Photo) (i : Nat) : Photo :=
  { p with input_ids := p.input_ids ++ [i] }

/-- The method `Photo::set_id`. -/
def Photo.set_id (p : Photo) (i : Nat) : Photo := { p with id := i }

/-- The method `Photo::set_used`. -/
def Photo.set_used (p : Photo) (b : Bool) : Photo := { p with used := b }

/-- The class `Slide`: `photo_id_`, `tags_`. -/
structure Slide where
  photo_id : Nat
  tags : List Nat
  deriving DecidableEq, Repr

/-- The constructor `Slide(Photo)`: copies the id and inserts the tags one by one. -/
def Slide.ofPhoto (p : Photo) : Slide :=
  { photo_id := p.id, tags := p.tags.foldl (fun acc t => setInsert t acc) [] }

/-- One line of the input file: the orientation character and the label tokens
that `read_photo_tags` reads from the rest of the line. -/
structure Record where
  orientation : Char
  labels : List String
  deriving DecidableEq, Repr

/-! ## `read_photo_tags` and `read_input` -/

/-- The local variables of `read_input` together with its two output maps. -/
structure ReadState where
  input_photos : List (Nat × Photo)
  tag_to_photo : List (Nat × List Nat)
  tag_str_to_id : List (String × Nat)
  id_after_merge : Nat
  input_id : Nat
  tag_id : Nat
  tmp_vertical_photo : Photo
  vertical_ready_to_merge : Bool
  deriving DecidableEq, Repr

/-- The state of `read_input` before the first line is read. -/
def ReadState.init : ReadState :=
  { input_photos := [], tag_to_photo := [], tag_str_to_id := [], id_after_merge := 0,
    input_id := 0, tag_id := 0, tmp_vertical_photo := Photo.empty,
    vertical_ready_to_merge := false }

/-- `std::map<std::string, TagID>::find`.  The key order of this map is never
observed by the program, so its pairs are kept in insertion order. -/
def strFind : List (String × Nat) → String → Option Nat
  | [], _ => none
  | (k, v) :: rest, s => if k = s then some v else strFind rest s

/-- The part of the state `read_photo_tags` works on: the photo being read, the
tag counter and the two maps. -/
structure TagState where
  photo : Photo
  tag_id : Nat
  tag_str_to_id : List (String × Nat)
  tag_to_photo : List (Nat × List Nat)
  deriving DecidableEq, Repr

/-- One turn of the loop of `read_photo_tags` (lines 84-111). -/
def read_one_tag (ts : TagState) (tag : String) : TagState :=
  let found := strFind ts.tag_str_to_id tag
  let curr_tag_id := match found with
    | none => ts.tag_id
    | some i => i
  let tag_id := match found with
    | none => ts.tag_id + 1
    | some _ => ts.tag_id
  let tag_str_to_id := match found with
    | none => ts.tag_str_to_id ++ [(tag, ts.tag_id)]
    | some _ => ts.tag_str_to_id
  let photo := ts.photo.add_tag curr_tag_id
  let tag_to_photo := match mapFind ts.tag_to_photo curr_tag_id with
    | none => mapEmplace ts.tag_to_photo curr_tag_id (setInsert photo.id [])
    | some s => mapSet ts.tag_to_photo curr_tag_id (setInsert photo.id s)
  { photo := photo, tag_id := tag_id, tag_str_to_id := tag_str_to_id,
    tag_to_photo := tag_to_photo }

/-- The function `read_photo_tags`: the loop over the label tokens of a line. -/
def read_photo_tags (labels : List String) (ts : TagState) : TagState :=
  labels.foldl read_one_tag ts

/-- The call `read_photo_tags(line_stream, photo, tag_id, tag_str_to_id, tag_to_photo)`
made from `read_input`. -/
def ReadState.readTags (rs : ReadState) (labels : List String) (photo : Photo) : TagState :=
  read_photo_tags labels
    { photo := photo, tag_id := rs.tag_id, tag_str_to_id := rs.tag_str_to_id,
      tag_to_photo := rs.tag_to_photo }

/-- The body of the `while (std::getline ...)` loop of `read_input` (lines 138-173). -/
def read_input_step (rs : ReadState) (r : Record) : ReadState :=
  if r.orientation = 'H' then
    let new_photo := (Photo.empty.set_id rs.id_after_merge).add_input_ids_ rs.input_id
    let ts := rs.readTags r.labels new_photo
    { rs with
      input_photos := mapEmplace rs.input_photos ts.photo.id ts.photo
      tag_to_photo := ts.tag_to_photo
      tag_str_to_id := ts.tag_str_to_id
      tag_id := ts.tag_id
      id_after_merge := rs.id_after_merge + 1
      input_id := rs.input_id + 1 }
  else if rs.vertical_ready_to_merge then
    let tmp := rs.tmp_vertical_photo.add_input_ids_ rs.input_id
    let ts := rs.readTags r.labels tmp
    { rs with
      input_photos := mapEmplace rs.input_photos ts.photo.id ts.photo
      tag_to_photo := ts.tag_to_photo
      tag_str_to_id := ts.tag_str_to_id
      tag_id := ts.tag_id
      tmp_vertical_photo := Photo.empty
      vertical_ready_to_merge := false
      input_id := rs.input_id + 1 }
  else
    let tmp := (rs.tmp_vertical_photo.set_id rs.id_after_merge).add_input_ids_ rs.input_id
    let ts := rs.readTags r.labels tmp
    { rs with
      tag_to_photo := ts.tag_to_photo
      tag_str_to_id := ts.tag_str_to_id
      tag_id := ts.tag_id
      tmp_vertical_photo := ts.photo
      id_after_merge := rs.id_after_merge + 1
      vertical_ready_to_merge := true
      input_id := rs.input_id + 1 }

/-- The function `read_input`, on the list of lines that follow the header line. -/
def read_input (records : List Record) : ReadState :=
  records.foldl read_input_step ReadState.init

/-! ## The greedy walker: `insert_next_slide` and `main` -/

/-- What can go wrong in the C++ program: `endDeref` is the dereference of an
`end()` iterator (undefined behaviour, not an error the program reports),
`outOfRange` is the exception `std::out_of_range` (thrown by `std::map::at` and by
`std::string::substr`; nothing catches it), and `outOfFuel` belongs to the
embedding only (the loop of `main` is run with a bound on its number of turns). -/
inductive Fault where
  | endDeref
  | outOfRange
  | outOfFuel
  deriving DecidableEq, Repr

/-- The call `std::sort(candidates.begin(), candidates.end(), sort_by_second)`:
`std::sort` is not stable, so all that is known of its result is that it is a
rearrangement of the input in which no element is followed by one that
`sort_by_second` puts strictly before it. -/
structure StdSort where
  sort : List (Nat × Int) → List (Nat × Int)
  perm : ∀ l, (sort l).Perm l
  sorted : ∀ l, (sort l).Pairwise (fun a b => ¬ b.2 < a.2)

/-- The variables `insert_next_slide` works on (its five reference parameters). -/
structure WalkerState where
  current_slide : Slide
  input_photos : List (Nat × Photo)
  tag_to_photo : List (Nat × List Nat)
  slideshow : List Slide
  num_photo_left : Int
  deriving DecidableEq, Repr

/-- Lines 236-239: `emplace(*photo_it, 1)` and, when the key was already there,
the increment of the stored counter. -/
def bump (c : List (Nat × Int)) (p : Nat) : List (Nat × Int) :=
  match mapFind c p with
  | none => mapEmplace c p 1
  | some v => mapSet c p (v + 1)

/-- The inner `while` loop of lines 230-242 over one index set, with `n` the number
of samples still allowed. -/
def gather_set (input_photos : List (Nat × Photo)) :
    Nat → List Nat → List (Nat × Int) → List (Nat × Int)
  | _, [], c => c
  | 0, _ :: _, c => c
  | n + 1, p :: rest, c =>
    match mapFind input_photos p with
    | none => gather_set input_photos (n + 1) rest c
    | some ph =>
      if ph.used then gather_set input_photos (n + 1) rest c
      else gather_set input_photos n rest (bump c p)

/-- Lines 216-222: the index sets of the tags of the current slide that have one. -/
def photos_with_all_tags (tag_to_photo : List (Nat × List Nat)) (tags : List Nat) :
    List (List Nat) :=
  tags.filterMap (fun t => mapFind tag_to_photo t)

/-- Lines 225-243: the map `build_num_shared_tag` after candidate gathering. -/
def build_num_shared_tag (st : WalkerState) : List (Nat × Int) :=
  (photos_with_all_tags st.tag_to_photo st.current_slide.tags).foldl
    (fun c s => gather_set st.input_photos 5000 s c) []

/-- Lines 256-259 and 288-291: the photo is erased from the index set of each tag of
the new slide; the iterator returned by `find` is dereferenced unchecked. -/
def prune (id : Nat) : List (Nat × List Nat) → List Nat → Except Fault (List (Nat × List Nat))
  | t2p, [] => .ok t2p
  | t2p, tag :: rest =>
    match mapFind t2p tag with
    | none => .error .endDeref
    | some s => prune id (mapSet t2p tag (setErase id s)) rest

/-- Lines 251-259 and 283-291, the same statements in both branches: the photo found
under `id` is marked used, becomes the current slide, is appended to the slideshow,
`num_photo_left` is decremented and the index is pruned. -/
def commit (st : WalkerState) (id : Nat) (ph : Photo) : Except Fault WalkerState :=
  let next_slide := Slide.ofPhoto (ph.set_used true)
  match prune id st.tag_to_photo next_slide.tags with
  | .error e => .error e
  | .ok t2p =>
    .ok { current_slide := next_slide
          input_photos := mapSet st.input_photos id (ph.set_used true)
          tag_to_photo := t2p
          slideshow := st.slideshow ++ [next_slide]
          num_photo_left := st.num_photo_left - 1 }

/-- The `for` loop of lines 248-262, with `n` the number of ids still to visit and
`id` the value of `random_photo_id`.  The test of line 250 also holds when `find`
returns `end()`, and the body then dereferences that iterator. -/
def fallback_scan (st : WalkerState) : Nat → Nat → Except Fault WalkerState
  | 0, _ => .ok st
  | n + 1, id =>
    match mapFind st.input_photos id with
    | none => .error .endDeref
    | some ph =>
      if !ph.used then commit st id ph
      else fallback_scan st n (id + 1)

/-- Line 272: the score of a candidate with `num_shared_tags` shared tags. -/
def score (num_shared_tags num_tags_candidate num_tag_current_slide : Int) : Int :=
  min num_shared_tags
    (min (num_tags_candidate - num_shared_tags) (num_tag_current_slide - num_shared_tags))

/-- Lines 267-274: the vector `candidates` before it is sorted; `at` throws when the
key is absent. -/
def candidates (input_photos : List (Nat × Photo)) (num_tag_current_slide : Int) :
    List (Nat × Int) → Except Fault (List (Nat × Int))
  | [] => .ok []
  | (id, s) :: rest =>
    match mapFind input_photos id with
    | none => .error .outOfRange
    | some ph =>
      match candidates input_photos num_tag_current_slide rest with
      | .error e => .error e
      | .ok cs => .ok ((id, score s ph.tags.length num_tag_current_slide) :: cs)

/-- The function `insert_next_slide` (it always returns `true`). -/
def insert_next_slide (S : StdSort) (st : WalkerState) : Except Fault WalkerState :=
  let build := build_num_shared_tag st
  if build.isEmpty then
    fallback_scan st st.input_photos.length 0
  else
    match candidates st.input_photos st.current_slide.tags.length build with
    | .error e => .error e
    | .ok cs =>
      match (S.sort cs).getLast? with
      | none => .error .endDeref
      | some good =>
        match mapFind st.input_photos good.1 with
        | none => .error .endDeref
        | some ph => commit st good.1 ph

/-- Lines 308-312 of `main`: the first photo of the catalog is the first slide;
`begin()` of an empty map is `end()` and is dereferenced all the same. -/
def main_seed (rs : ReadState) : Except Fault WalkerState :=
  match rs.input_photos with
  | [] => .error .endDeref
  | (k, ph) :: rest =>
    .ok { current_slide := Slide.ofPhoto ph
          input_photos := (k, ph.set_used true) :: rest
          tag_to_photo := rs.tag_to_photo
          slideshow := [Slide.ofPhoto ph]
          num_photo_left := ((k, ph) :: rest).length - 1 }

/-- The `while (num_photo_left != 0)` loop of `main`, run for at most `fuel` turns. -/
def walker_loop (S : StdSort) : Nat → WalkerState → Except Fault WalkerState
  | 0, st => if st.num_photo_left = 0 then .ok st else .error .outOfFuel
  | fuel + 1, st =>
    if st.num_photo_left = 0 then .ok st
    else
      match insert_next_slide S st with
      | .error e => .error e
      | .ok st' => walker_loop S fuel st'

/-- Lines 303-317 of `main`: `read_input`, the seed and the walker loop. -/
def main_walk (S : StdSort) (fuel : Nat) (records : List Record) : Except Fault WalkerState :=
  match main_seed (read_input records) with
  | .error e => .error e
  | .ok st => walker_loop S fuel st

/-- The function `write_output`: the number of slides, then one line of input ids
for each slide whose photo is found in `input_photos`. -/
def write_output (input_photos : List (Nat × Photo)) (slideshow : List Slide) :
    Nat × List (List Nat) :=
  (slideshow.length,
    slideshow.filterMap (fun sl => (mapFind input_photos sl.photo_id).map Photo.input_ids))

/-- The call `s.find_last_of(c)` of `std::string`, for a set of one character, scanning
from position `i` on: the last position of `c` seen so far is kept in `found`. -/
def find_last_of_from (c : Char) : List Char → Nat → Option Nat → Option Nat
  | [], _, found => found
  | x :: xs, i, found => find_last_of_from c xs (i + 1) (if x = c then some i else found)

/-- The call `s.find_last_of(c)` of `std::string`, for a set of one character: the last
position of `c` in `s`; `none` stands for `std::string::npos`.  A `std::string` is a
sequence of bytes; the embedding takes the characters of the Lean string for them,
which is exact for a name written in ASCII. -/
def find_last_of (s : String) (c : Char) : Option Nat :=
  find_last_of_from c s.data 0 none

/-- The call `s.substr(pos, count)` of `std::string`: it throws `std::out_of_range` when
`pos` is beyond the size of `s`, and gives at most `count` characters from `pos` on
otherwise; the count `none` stands for `std::string::npos`, the rest of the string. -/
def substr (s : String) (pos : Nat) (count : Option Nat) : Except Fault String :=
  if s.length < pos then .error .outOfRange
  else
    match count with
    | none => .ok ⟨s.data.drop pos⟩
    | some n => .ok ⟨(s.data.drop pos).take n⟩

/-- Lines 318-320 of `main`: the name of the output file, from `argv[1]`.  Line 319 takes
`substr(find_last_of("\\"), size() - 1)`: when `argv[1]` holds no backslash the position
is `npos`, which is beyond every size, and `substr` throws.  Line 320 cuts the name at
its last dot, which exists since the name starts with two dots. -/
def output_filename (argv1 : String) : Except Fault String :=
  match find_last_of argv1 (Char.ofNat 92) with
  | none => .error .outOfRange
  | some p =>
    match substr argv1 p (some (argv1.length - 1)) with
    | .error e => .error e
    | .ok tail =>
      match substr ("..\\output" ++ tail) 0 (find_last_of ("..\\output" ++ tail) '.') with
      | .error e => .error e
      | .ok stem => .ok (stem ++ "_submission.txt")

/-- The function `main` from `read_input` on, for the command-line argument `argv1` and
the records of the file it names: the name of the output file and what `write_output`
writes to it.  The walker runs first (lines 303-317), then the name of the output file
is computed (lines 318-320), then `write_output` is called (line 321); a fault of an
earlier part keeps the later ones from running. -/
def main (S : StdSort) (fuel : Nat) (argv1 : String) (records : List Record) :
    Except Fault (String × Nat × List (List Nat)) :=
  match main_walk S fuel records with
  | .error e => .error e
  | .ok st =>
    match output_filename argv1 with
    | .error e => .error e
    | .ok name => .ok (name, write_output (read_input records).input_photos st.slideshow)

/-- Insertion sort by `sort_by_second`: one admissible behaviour of `std::sort`, used
to run the program on concrete inputs. -/
def insertionSort : StdSort where
  sort := List.insertionSort (fun a b => a.2 ≤ b.2)
  perm := List.perm_insertionSort _
  sorted := fun l => by
    haveI : IsTotal (Nat × Int) (fun a b => a.2 ≤ b.2) := ⟨fun a b => le_total a.2 b.2⟩
    haveI : IsTrans (Nat × Int) (fun a b => a.2 ≤ b.2) := ⟨fun _ _ _ h₁ h₂ => le_trans h₁ h₂⟩
    exact (List.sorted_insertionSort (fun a b : Nat × Int => a.2 ≤ b.2) l).imp
      (fun h => not_lt.2 h)

/-! ## Predicates used in the statements -/

/-- The index set of tag `t` (empty when `tag_to_photo` has no entry for `t`). -/
def indexSet (t2p : List (Nat × List Nat)) (t : Nat) : List Nat := (mapFind t2p t).getD []

/-- The tag id `read_photo_tags` gives to the label `tag` (lines 88-99). -/
def currTag (ts : TagState) (tag : String) : Nat := (strFind ts.tag_str_to_id tag).getD ts.tag_id

/-- Invariant of the loop of `read_photo_tags`: the index holds the pairs of `base`
and the tags read so far for the current photo; the ordered containers are ordered. -/
structure TagOK (base : Nat → Nat → Prop) (ts : TagState) : Prop where
  index : ∀ t i, i ∈ indexSet ts.tag_to_photo t ↔
    base t i ∨ (i = ts.photo.id ∧ t ∈ ts.photo.tags)
  sets_sorted : ∀ t s, mapFind ts.tag_to_photo t = some s → s.Sorted (· < ·)
  index_keys_sorted : (ts.tag_to_photo.map Prod.fst).Sorted (· < ·)
  tags_sorted : ts.photo.tags.Sorted (· < ·)

/-- The photo `i` of the catalog, or the pending vertical photo, carries tag `t`. -/
def ReadState.carries (rs : ReadState) (t i : Nat) : Prop :=
  (∃ p, mapFind rs.input_photos i = some p ∧ t ∈ p.tags) ∨
    (rs.vertical_ready_to_merge = true ∧ i = rs.tmp_vertical_photo.id ∧
      t ∈ rs.tmp_vertical_photo.tags)

/-- Invariant of the loop of `read_input`. -/
structure ReadOK (rs : ReadState) : Prop where
  keys_sorted : (rs.input_photos.map Prod.fst).Sorted (· < ·)
  keys_lt : ∀ k p, mapFind rs.input_photos k = some p → k < rs.id_after_merge
  id_eq : ∀ k p, mapFind rs.input_photos k = some p → p.id = k
  unused : ∀ k p, mapFind rs.input_photos k = some p → p.used = false
  tags_sorted : ∀ k p, mapFind rs.input_photos k = some p → p.tags.Sorted (· < ·)
  tmp_lt : rs.vertical_ready_to_merge = true → rs.tmp_vertical_photo.id < rs.id_after_merge
  tmp_fresh : rs.vertical_ready_to_merge = true →
    mapFind rs.input_photos rs.tmp_vertical_photo.id = none
  tmp_idle : rs.vertical_ready_to_merge = false → rs.tmp_vertical_photo = Photo.empty
  tmp_unused : rs.tmp_vertical_photo.used = false
  tags_sorted_tmp : rs.tmp_vertical_photo.tags.Sorted (· < ·)
  dense : ∀ i, i < rs.id_after_merge → (mapFind rs.input_photos i).isSome = true ∨
    (rs.vertical_ready_to_merge = true ∧ i = rs.tmp_vertical_photo.id)
  index : ∀ t i, i ∈ indexSet rs.tag_to_photo t ↔
    (∃ p, mapFind rs.input_photos i = some p ∧ t ∈ p.tags) ∨
    (rs.vertical_ready_to_merge = true ∧ i = rs.tmp_vertical_photo.id ∧
      t ∈ rs.tmp_vertical_photo.tags)
  sets_sorted : ∀ t s, mapFind rs.tag_to_photo t = some s → s.Sorted (· < ·)
  index_keys_sorted : (rs.tag_to_photo.map Prod.fst).Sorted (· < ·)

/-- The photo `i` is in the catalog and not yet used (the test of line 232 fails). -/
def isLive (input_photos : List (Nat × Photo)) (i : Nat) : Bool :=
  match mapFind input_photos i with
  | none => false
  | some ph => !ph.used

/-- The ids that candidate gathering counts, in the order it counts them: for each
index set, its first `cap` live photos. -/
def gathered (ip : List (Nat × Photo)) (cap : Nat) (sets : List (List Nat)) : List Nat :=
  sets.flatMap (fun s => (s.filter (isLive ip)).take cap)

/-- Invariant of the walker loop. -/
structure WalkOK (st : WalkerState) : Prop where
  keys_sorted : (st.input_photos.map Prod.fst).Sorted (· < ·)
  id_eq : ∀ k p, mapFind st.input_photos k = some p → p.id = k
  tags_sorted : ∀ k p, mapFind st.input_photos k = some p → p.tags.Sorted (· < ·)
  cur_sorted : st.current_slide.tags.Sorted (· < ·)
  index_live : ∀ t i p, mapFind st.input_photos i = some p → p.used = false →
    (i ∈ indexSet st.tag_to_photo t ↔ t ∈ p.tags)
  tag_has_set : ∀ k p, mapFind st.input_photos k = some p → ∀ t ∈ p.tags,
    (mapFind st.tag_to_photo t).isSome = true
  sets_sorted : ∀ t s, mapFind st.tag_to_photo t = some s → s.Sorted (· < ·)
  index_keys_sorted : (st.tag_to_photo.map Prod.fst).Sorted (· < ·)

/-- The states the loop of `main` goes through on the input `records`. -/
inductive Reachable (S : StdSort) (records : List Record) : WalkerState → Prop
  | seed {st : WalkerState} : main_seed (read_input records) = .ok st → Reachable S records st
  | step {st st' : WalkerState} : Reachable S records st → st.num_photo_left ≠ 0 →
      insert_next_slide S st = .ok st' → Reachable S records st'

/-- Two horizontal photos with the tags {a,b,c} and {b,c,d}. -/
def scoreExample : List Record := [⟨'H', ["a", "b", "c"]⟩, ⟨'H', ["b", "c", "d"]⟩]

/-- The state of the walker after the seed on `scoreExample`. -/
def scoreExampleSeed : WalkerState :=
  { current_slide := { photo_id := 0, tags := [0, 1, 2] }
    input_photos := [(0, { id := 0, input_ids := [0], used := true, tags := [0, 1, 2] }),
                     (1, { id := 1, input_ids := [1], used := false, tags := [1, 2, 3] })]
    tag_to_photo := [(0, [0]), (1, [0, 1]), (2, [0, 1]), (3, [1])]
    slideshow := [{ photo_id := 0, tags := [0, 1, 2] }]
    num_photo_left := 1 }

/-- A vertical photo that stays unpaired, followed by two horizontal photos. -/
def gapInput : List Record := [⟨'V', ["a"]⟩, ⟨'H', ["b"]⟩, ⟨'H', ["c"]⟩]

/-- The state of the walker after the seed on `gapInput`. -/
def gapSeed : WalkerState :=
  { current_slide := { photo_id := 1, tags := [1] }
    input_photos := [(1, { id := 1, input_ids := [1], used := true, tags := [1] }),
                     (2, { id := 2, input_ids := [2], used := false, tags := [2] })]
    tag_to_photo := [(0, [0]), (1, [1]), (2, [2])]
    slideshow := [{ photo_id := 1, tags := [1] }]
    num_photo_left := 1 }

/-- The horizontal records of the input with their index in the file. -/
def horizontals (records : List Record) : List (Nat × Record) :=
  records.enum.filter (fun ir => decide (ir.2.orientation = 'H'))

/-- The vertical records of the input (every record that is not `H`) with their index
in the file, in file order. -/
def verticals (records : List Record) : List (Nat × Record) :=
  records.enum.filter (fun ir => !decide (ir.2.orientation = 'H'))

/-- The first with the second, the third with the fourth, and so on; a last element
without partner is left out. -/
def pairUp {α : Type} : List α → List (α × α)
  | a :: b :: rest => (a, b) :: pairUp rest
  | _ => []

/-- The set of tag ids of a list of labels under the label map `m`. -/
def labelTags (m : List (String × Nat)) (labels : List String) : Finset Nat :=
  (labels.filterMap (strFind m)).toFinset

/-- The Entries the specification asks for, as pairs of source indices and tag set:
one per horizontal record, one per pair of consecutive vertical records. -/
def mergedEntries (m : List (String × Nat)) (records : List Record) :
    List (List Nat × Finset Nat) :=
  (horizontals records).map (fun ir => ([ir.1], labelTags m ir.2.labels)) ++
  (pairUp (verticals records)).map
    (fun pr => ([pr.1.1, pr.2.1], labelTags m pr.1.2.labels ∪ labelTags m pr.2.2.labels))

/-- The pair of source indices and tag set of a catalog entry. -/
def entryOf (kv : Nat × Photo) : List Nat × Finset Nat := (kv.2.input_ids, kv.2.tags.toFinset)

/-- Relation between the state of `read_input` after the records `pre` and the Entries
the specification asks for. -/
structure ReadSpec (pre : List Record) (rs : ReadState) : Prop where
  input_id : rs.input_id = pre.length
  covers : ∀ r ∈ pre, ∀ l ∈ r.labels, ∃ i, strFind rs.tag_str_to_id l = some i
  entries : (rs.input_photos.map entryOf).Perm (mergedEntries rs.tag_str_to_id pre)
  ready_iff : rs.vertical_ready_to_merge = true ↔ (verticals pre).length % 2 = 1
  pending : rs.vertical_ready_to_merge = true → ∃ ir, (verticals pre).getLast? = some ir ∧
    rs.tmp_vertical_photo.input_ids = [ir.1] ∧
    rs.tmp_vertical_photo.tags.toFinset = labelTags rs.tag_str_to_id ir.2.labels

/-- The example of the specification: `[H{a}, V{b}, V{c}, H{d}, V{e}]`. -/
def mergeExample : List Record :=
  [⟨'H', ["a"]⟩, ⟨'V', ["b"]⟩, ⟨'V', ["c"]⟩, ⟨'H', ["d"]⟩, ⟨'V', ["e"]⟩]

/-- The first source index of a photo (0 when it has none). -/
def firstSource (p : Photo) : Nat := p.input_ids.headD 0

/-- Invariant of `read_input`: ids grow with the first source index. -/
structure ReadOrder (rs : ReadState) : Prop where
  cat_first : ∀ k p, mapFind rs.input_photos k = some p →
    p.input_ids ≠ [] ∧ firstSource p < rs.input_id
  tmp_first : rs.vertical_ready_to_merge = true →
    rs.tmp_vertical_photo.input_ids ≠ [] ∧ firstSource rs.tmp_vertical_photo < rs.input_id
  mono : ∀ k p k' p', mapFind rs.input_photos k = some p →
    mapFind rs.input_photos k' = some p' → k < k' → firstSource p < firstSource p'
  mono_tmp : rs.vertical_ready_to_merge = true → ∀ k p, mapFind rs.input_photos k = some p →
    (rs.tmp_vertical_photo.id < k → firstSource rs.tmp_vertical_photo < firstSource p) ∧
    (k < rs.tmp_vertical_photo.id → firstSource p < firstSource rs.tmp_vertical_photo)

/-- A vertical photo, a horizontal photo, and the second vertical photo of the pair. -/
def orderExample : List Record := [⟨'V', ["b"]⟩, ⟨'H', ["a"]⟩, ⟨'V', ["c"]⟩]

/-- The ids of the photos of the catalog that are marked used, in ascending order. -/
def usedIds (input_photos : List (Nat × Photo)) : List Nat :=
  (input_photos.filter (fun kv => kv.2.used)).map Prod.fst

/-- The number of photos of the catalog that are not marked used. -/
def numUnused (input_photos : List (Nat × Photo)) : Nat :=
  (input_photos.filter (fun kv => !kv.2.used)).length

/-- Invariant of the walker loop on its counters: the slideshow holds the used photos,
each once, and `num_photo_left` counts the photos that are not used. -/
structure WalkCount (st : WalkerState) : Prop where
  shown : (st.slideshow.map Slide.photo_id).Perm (usedIds st.input_photos)
  left : st.num_photo_left = (numUnused st.input_photos : Int)

/-- The ids of the catalog are 0, ..., n-1. -/
def DenseIds (input_photos : List (Nat × Photo)) : Prop :=
  input_photos.map Prod.fst = List.range input_photos.length

/-- The end-to-end scenario of the specification: `H{a,b}`, `H{b,c}`, `H{c,d}`. -/
def scenario : List Record :=
  [⟨'H', ["a", "b"]⟩, ⟨'H', ["b", "c"]⟩, ⟨'H', ["c", "d"]⟩]

/-- The state of the walker after the seed on `scenario`. -/
def scenarioSeed : WalkerState :=
  { current_slide := { photo_id := 0, tags := [0, 1] }
    input_photos := [(0, { id := 0, input_ids := [0], used := true, tags := [0, 1] }),
                     (1, { id := 1, input_ids := [1], used := false, tags := [1, 2] }),
                     (2, { id := 2, input_ids := [2], used := false, tags := [2, 3] })]
    tag_to_photo := [(0, [0]), (1, [0, 1]), (2, [1, 2]), (3, [2])]
    slideshow := [{ photo_id := 0, tags := [0, 1] }]
    num_photo_left := 2 }

/-- The state of the walker after the first step on `scenario`. -/
def scenarioStep1 : WalkerState :=
  { current_slide := { photo_id := 1, tags := [1, 2] }
    input_photos := [(0, { id := 0, input_ids := [0], used := true, tags := [0, 1] }),
                     (1, { id := 1, input_ids := [1], used := true, tags := [1, 2] }),
                     (2, { id := 2, input_ids := [2], used := false, tags := [2, 3] })]
    tag_to_photo := [(0, [0]), (1, [0]), (2, [2]), (3, [2])]
    slideshow := [{ photo_id := 0, tags := [0, 1] }, { photo_id := 1, tags := [1, 2] }]
    num_photo_left := 1 }

/-- The state of the walker after the second step on `scenario`. -/
def scenarioStep2 : WalkerState :=
  { current_slide := { photo_id := 2, tags := [2, 3] }
    input_photos := [(0, { id := 0, input_ids := [0], used := true, tags := [0, 1] }),
                     (1, { id := 1, input_ids := [1], used := true, tags := [1, 2] }),
                     (2, { id := 2, input_ids := [2], used := true, tags := [2, 3] })]
    tag_to_photo := [(0, [0]), (1, [0]), (2, []), (3, [])]
    slideshow := [{ photo_id := 0, tags := [0, 1] }, { photo_id := 1, tags := [1, 2] },
                  { photo_id := 2, tags := [2, 3] }]
    num_photo_left := 0 }

/-- The first 5000 present-and-unused ids of the index set of tag `t`, the ones the
loop of lines 230-242 counts. -/
def firstLive (st : WalkerState) (t : Nat) : List Nat :=
  ((indexSet st.tag_to_photo t).filter (isLive st.input_photos)).take 5000

/-- The distinct labels of a list of label tokens, in the order of their first
occurrence. -/
def firstSeen (labels : List String) : List String :=
  labels.foldl (fun acc l => if l ∈ acc then acc else acc ++ [l]) []

/-- The label map that gives the `k`-th label of `seen` the tag id `k`. -/
def numbered (seen : List String) : List (String × Nat) :=
  seen.enum.map (fun il => (il.2, il.1))

/-- The label map and the tag counter after the label tokens `seen` have been read. -/
structure LabelOK (seen : List String) (m : List (String × Nat)) (tag_id : Nat) : Prop where
  map_eq : m = numbered (firstSeen seen)
  next_id : tag_id = (firstSeen seen).length

/-- An admissible behaviour of `std::sort` that is not stable: insertion sort of the
reversed list, which leaves elements of equal score in reverse order. -/
def reverseTieSort : StdSort where
  sort := fun l => List.insertionSort (fun a b => a.2 ≤ b.2) l.reverse
  perm := fun l => (List.perm_insertionSort _ _).trans (List.reverse_perm l)
  sorted := fun l => by
    haveI : IsTotal (Nat × Int) (fun a b => a.2 ≤ b.2) := ⟨fun a b => le_total a.2 b.2⟩
    haveI : IsTrans (Nat × Int) (fun a b => a.2 ≤ b.2) := ⟨fun _ _ _ h₁ h₂ => le_trans h₁ h₂⟩
    exact (List.sorted_insertionSort (fun a b : Nat × Int => a.2 ≤ b.2) l.reverse).imp
      (fun h => not_lt.2 h)

/-- Three horizontal photos: `{x,y}`, then `{x,p}` and `{y,q}`, which both share one tag
with the first. -/
def tieExample : List Record :=
  [⟨'H', ["x", "y"]⟩, ⟨'H', ["x", "p"]⟩, ⟨'H', ["y", "q"]⟩]

/-- The state of the walker after the seed on `tieExample`. -/
def tieSeed : WalkerState :=
  { current_slide := { photo_id := 0, tags := [0, 1] }
    input_photos := [(0, { id := 0, input_ids := [0], used := true, tags := [0, 1] }),
                     (1, { id := 1, input_ids := [1], used := false, tags := [0, 2] }),
                     (2, { id := 2, input_ids := [2], used := false, tags := [1, 3] })]
    tag_to_photo := [(0, [0, 1]), (1, [0, 2]), (2, [1]), (3, [2])]
    slideshow := [{ photo_id := 0, tags := [0, 1] }]
    num_photo_left := 2 }

/-- The sorted list leaves candidates of equal score in ascending id order, as a stable
sort of a list in ascending id order does. -/
def KeepsTieOrder (sorted : List (Nat × Int)) : Prop :=
  sorted.Pairwise (fun a b => a.2 = b.2 → a.1 < b.1)

/-! ## A model of `std::sort` as libstdc++ implements it -/

/-- The function `sort_by_second` (lines 64-66). -/
def sort_by_second (a b : Nat × Int) : Bool := decide (a.2 < b.2)

/-- `std::iter_swap` on the positions `i` and `j` of a vector. -/
def swapAt (l : List (Nat × Int)) (i j : Nat) : List (Nat × Int) :=
  match l[i]?, l[j]? with
  | some a, some b => (l.set i b).set j a
  | _, _ => l

/-- The test `comp(*i, *j)` on two positions of a vector. -/
def compAt (l : List (Nat × Int)) (i j : Nat) : Bool :=
  match l[i]?, l[j]? with
  | some a, some b => sort_by_second a b
  | _, _ => false

/-- `std::__move_median_to_first` of libstdc++ (`bits/stl_algo.h`). -/
def move_median_to_first (l : List (Nat × Int)) (result a b c : Nat) : List (Nat × Int) :=
  if compAt l a b then
    if compAt l b c then swapAt l result b
    else if compAt l a c then swapAt l result c
    else swapAt l result a
  else if compAt l a c then swapAt l result a
  else if compAt l b c then swapAt l result c
  else swapAt l result b

/-- The loop `while (comp(first, pivot)) ++first` of `std::__unguarded_partition`. -/
def scan_up (l : List (Nat × Int)) (pivot : Nat) : Nat → Nat → Nat
  | 0, first => first
  | fuel + 1, first => if compAt l first pivot then scan_up l pivot fuel (first + 1) else first

/-- The loop `while (comp(pivot, last)) --last` of `std::__unguarded_partition`. -/
def scan_down (l : List (Nat × Int)) (pivot : Nat) : Nat → Nat → Nat
  | 0, last => last
  | fuel + 1, last => if compAt l pivot last then scan_down l pivot fuel (last - 1) else last

/-- `std::__unguarded_partition` of libstdc++: the vector after the swaps and the cut. -/
def unguarded_partition (pivot : Nat) :
    Nat → List (Nat × Int) → Nat → Nat → List (Nat × Int) × Nat
  | 0, l, first, _ => (l, first)
  | fuel + 1, l, first, last =>
    let first' := scan_up l pivot l.length first
    let last' := scan_down l pivot l.length (last - 1)
    if first' < last' then unguarded_partition pivot fuel (swapAt l first' last') (first' + 1) last'
    else (l, first')

/-- `std::__unguarded_partition_pivot` of libstdc++. -/
def unguarded_partition_pivot (l : List (Nat × Int)) (first last : Nat) :
    List (Nat × Int) × Nat :=
  let mid := first + (last - first) / 2
  let l' := move_median_to_first l first (first + 1) mid (last - 1)
  unguarded_partition first l.length l' (first + 1) last

/-- `std::__introsort_loop` of libstdc++ with the threshold 16.  The heap sort it
switches to when the depth limit is used up is not modelled: the result is `none`. -/
def introsort_loop : Nat → List (Nat × Int) → Nat → Nat → Nat → Option (List (Nat × Int))
  | 0, _, _, _, _ => none
  | fuel + 1, l, first, last, depth_limit =>
    if last - first > 16 then
      if depth_limit = 0 then none
      else
        let pc := unguarded_partition_pivot l first last
        match introsort_loop fuel pc.1 pc.2 last (depth_limit - 1) with
        | none => none
        | some l' => introsort_loop fuel l' first pc.2 (depth_limit - 1)
    else some l

/-- `std::__lg(n)` of libstdc++, the position of the highest bit of `n`, computed in at
most `fuel` halvings. -/
def lg : Nat → Nat → Nat
  | 0, _ => 0
  | fuel + 1, n => if n ≤ 1 then 0 else lg fuel (n / 2) + 1

/-- `std::sort` of libstdc++ with `sort_by_second`: `__introsort_loop` with the depth
limit `2 * __lg(n)`, then `__final_insertion_sort`, which moves every element to the
left past the elements that compare greater, as insertion sort does.  When the model of
the first phase gives no vector, insertion sort is applied to the input. -/
def libstdcxx_sort (l : List (Nat × Int)) : List (Nat × Int) :=
  match introsort_loop l.length l 0 l.length (2 * lg l.length l.length) with
  | some l' =>
    if l'.Perm l then List.insertionSort (fun a b => a.2 ≤ b.2) l'
    else List.insertionSort (fun a b => a.2 ≤ b.2) l
  | none => List.insertionSort (fun a b => a.2 ≤ b.2) l

/-- The behaviour of `std::sort` in libstdc++ (GCC), an admissible behaviour of
`std::sort`: `libstdcxx_sort` returns a permutation ordered by `sort_by_second`. -/
def libstdcxxSort : StdSort where
  sort := libstdcxx_sort
  perm := fun l => by
    unfold libstdcxx_sort
    split
    · split
      · rename_i h
        exact (List.perm_insertionSort _ _).trans h
      · exact List.perm_insertionSort _ _
    · exact List.perm_insertionSort _ _
  sorted := fun l => by
    haveI : IsTotal (Nat × Int) (fun a b => a.2 ≤ b.2) := ⟨fun a b => le_total a.2 b.2⟩
    haveI : IsTrans (Nat × Int) (fun a b => a.2 ≤ b.2) := ⟨fun _ _ _ h₁ h₂ => le_trans h₁ h₂⟩
    have key : ∀ l' : List (Nat × Int),
        (List.insertionSort (fun a b => a.2 ≤ b.2) l').Pairwise (fun a b => ¬ b.2 < a.2) :=
      fun l' => (List.sorted_insertionSort (fun a b : Nat × Int => a.2 ≤ b.2) l').imp
        (fun h => not_lt.2 h)
    unfold libstdcxx_sort
    split
    · split
      · exact key _
      · exact key _
    · exact key _

/-- Eighteen horizontal photos with the single tag `x`: after the seed the seventeen
others are candidates with the same score. -/
def eighteen : List Record := List.replicate 18 ⟨'H', ["x"]⟩

/-! # Theorems -/

/-! ## Lemmas on the ordered containers -/

theorem mem_setInsert {x y : Nat} {s : List Nat} : y ∈ setInsert x s ↔ y = x ∨ y ∈ s := by
  unfold setInsert
  by_cases h : x ∈ s
  · simp only [h, if_true]
    constructor
    · exact Or.inr
    · rintro (rfl | h') <;> assumption
  · simp only [h, if_false, List.mem_orderedInsert]

theorem sorted_setInsert {x : Nat} {s : List Nat} (hs : s.Sorted (· < ·)) :
    (setInsert x s).Sorted (· < ·) := by
  unfold setInsert
  by_cases h : x ∈ s
  · simpa only [h, if_true] using hs
  · simp only [h, if_false]
    refine List.Sorted.lt_of_le (hs.le_of_lt.orderedInsert x s) ?_
    exact ((List.perm_orderedInsert _ x s).nodup_iff).2 (List.nodup_cons.2 ⟨h, hs.nodup⟩)

theorem mem_setErase {x y : Nat} {s : List Nat} : y ∈ setErase x s ↔ y ∈ s ∧ y ≠ x := by
  simp [setErase]

theorem sorted_setErase {x : Nat} {s : List Nat} (hs : s.Sorted (· < ·)) :
    (setErase x s).Sorted (· < ·) :=
  List.Pairwise.sublist (List.filter_sublist s) hs

theorem mapFind_orderedInsert {β : Type} (m : List (Nat × β)) (k k' : Nat) (v : β)
    (h : mapFind m k = none) :
    mapFind (List.orderedInsert (fun a b => a.1 ≤ b.1) (k, v) m) k' =
      if k = k' then some v else mapFind m k' := by
  induction m with
  | nil => simp [mapFind]
  | cons kv m ih =>
    obtain ⟨k0, v0⟩ := kv
    simp only [mapFind] at h
    by_cases hk0 : k0 = k
    · simp [hk0] at h
    · simp only [hk0, if_false] at h
      simp only [List.orderedInsert]
      by_cases hle : k ≤ k0
      · simp only [hle, if_true, mapFind]
      · simp only [hle, if_false, mapFind, ih h]
        by_cases h1 : k0 = k'
        · have : ¬ k = k' := fun e => hk0 (h1.trans e.symm)
          simp [h1, this]
        · simp [h1]

theorem mapFind_mapEmplace {β : Type} (m : List (Nat × β)) (k k' : Nat) (v : β)
    (h : mapFind m k = none) :
    mapFind (mapEmplace m k v) k' = if k = k' then some v else mapFind m k' := by
  unfold mapEmplace
  rw [h]
  exact mapFind_orderedInsert m k k' v h

theorem mapEmplace_of_some {β : Type} (m : List (Nat × β)) (k : Nat) (v w : β)
    (h : mapFind m k = some w) : mapEmplace m k v = m := by
  unfold mapEmplace
  rw [h]

theorem mapSet_cons {β : Type} (k0 : Nat) (v0 : β) (m : List (Nat × β)) (k : Nat) (v : β) :
    mapSet ((k0, v0) :: m) k v = (k0, if k0 = k then v else v0) :: mapSet m k v := by
  by_cases h0 : k0 = k <;> simp [mapSet, h0]

theorem mapFind_mapSet {β : Type} (m : List (Nat × β)) (k k' : Nat) (v : β) :
    mapFind (mapSet m k v) k' =
      if k = k' then (mapFind m k').map (fun _ => v) else mapFind m k' := by
  induction m with
  | nil => simp [mapSet, mapFind]
  | cons kv m ih =>
    obtain ⟨k0, v0⟩ := kv
    rw [mapSet_cons]
    simp only [mapFind, ih]
    by_cases h0 : k0 = k
    · by_cases h1 : k = k'
      · simp [h0, h1]
      · simp [h0, h1]
    · by_cases h1 : k0 = k'
      · have h2 : ¬ k = k' := fun e => h0 (h1.trans e.symm)
        have h3 : ¬ k' = k := fun e => h2 e.symm
        subst h1
        simp [h2, h3]
      · simp [h1]

theorem keys_mapSet {β : Type} (m : List (Nat × β)) (k : Nat) (v : β) :
    (mapSet m k v).map Prod.fst = m.map Prod.fst := by
  induction m with
  | nil => rfl
  | cons kv m ih =>
    obtain ⟨k0, v0⟩ := kv
    rw [mapSet_cons]
    simp [ih]

theorem length_mapSet {β : Type} (m : List (Nat × β)) (k : Nat) (v : β) :
    (mapSet m k v).length = m.length := by
  simp [mapSet]

theorem keys_orderedInsert {β : Type} (m : List (Nat × β)) (k : Nat) (v : β) :
    (List.orderedInsert (fun a b => a.1 ≤ b.1) (k, v) m).map Prod.fst =
      List.orderedInsert (fun a b => a ≤ b) k (m.map Prod.fst) := by
  induction m with
  | nil => rfl
  | cons kv m ih =>
    simp only [List.orderedInsert, List.map_cons]
    by_cases hle : k ≤ kv.1
    · simp [hle]
    · simp [hle, ih]

theorem mapFind_eq_none_iff {β : Type} (m : List (Nat × β)) (k : Nat) :
    mapFind m k = none ↔ k ∉ m.map Prod.fst := by
  induction m with
  | nil => simp [mapFind]
  | cons kv m ih =>
    obtain ⟨k0, v0⟩ := kv
    simp only [mapFind, List.map_cons, List.mem_cons, not_or]
    by_cases h0 : k0 = k
    · simp [h0]
    · simp only [h0, if_false, ih]
      constructor
      · intro h; exact ⟨fun e => h0 e.symm, h⟩
      · intro h; exact h.2

theorem mem_of_mapFind {β : Type} (m : List (Nat × β)) (k : Nat) (v : β)
    (h : mapFind m k = some v) : (k, v) ∈ m := by
  induction m with
  | nil => simp [mapFind] at h
  | cons kv m ih =>
    obtain ⟨k0, v0⟩ := kv
    simp only [mapFind] at h
    by_cases h0 : k0 = k
    · simp only [h0, if_true, Option.some.injEq] at h
      simp [h0, h]
    · simp only [h0, if_false] at h
      exact List.mem_cons_of_mem _ (ih h)

theorem mapFind_of_mem {β : Type} (m : List (Nat × β)) (k : Nat) (v : β)
    (hnd : (m.map Prod.fst).Nodup) (h : (k, v) ∈ m) : mapFind m k = some v := by
  induction m with
  | nil => simp at h
  | cons kv m ih =>
    obtain ⟨k0, v0⟩ := kv
    simp only [List.map_cons, List.nodup_cons] at hnd
    simp only [mapFind]
    rcases List.mem_cons.1 h with e | h'
    · simp only [Prod.mk.injEq] at e
      simp [e.1, e.2]
    · have : k0 ≠ k := by
        rintro rfl
        exact hnd.1 (List.mem_map.2 ⟨(k0, v), h', rfl⟩)
      simp only [this, if_false]
      exact ih hnd.2 h'

theorem keys_sorted_mapEmplace {β : Type} (m : List (Nat × β)) (k : Nat) (v : β)
    (hs : (m.map Prod.fst).Sorted (· < ·)) :
    ((mapEmplace m k v).map Prod.fst).Sorted (· < ·) := by
  unfold mapEmplace
  cases h : mapFind m k with
  | some w => simpa using hs
  | none =>
    simp only [keys_orderedInsert]
    have hk : k ∉ m.map Prod.fst := (mapFind_eq_none_iff m k).1 h
    have := sorted_setInsert (x := k) hs
    unfold setInsert at this
    simpa only [hk, if_false] using this

theorem keys_mapEmplace_perm {β : Type} (m : List (Nat × β)) (k : Nat) (v : β)
    (h : mapFind m k = none) : (mapEmplace m k v).Perm ((k, v) :: m) := by
  unfold mapEmplace
  rw [h]
  exact List.perm_orderedInsert _ _ _

/-! ## `read_photo_tags`: the index and the ordered containers -/

theorem read_one_tag_photo (ts : TagState) (tag : String) :
    (read_one_tag ts tag).photo = ts.photo.add_tag (currTag ts tag) := by
  unfold read_one_tag currTag
  cases strFind ts.tag_str_to_id tag <;> rfl

theorem read_one_tag_find (ts : TagState) (tag : String) (t : Nat) :
    mapFind (read_one_tag ts tag).tag_to_photo t =
      if currTag ts tag = t then some (setInsert ts.photo.id (indexSet ts.tag_to_photo t))
      else mapFind ts.tag_to_photo t := by
  have key : (read_one_tag ts tag).tag_to_photo =
      match mapFind ts.tag_to_photo (currTag ts tag) with
      | none => mapEmplace ts.tag_to_photo (currTag ts tag) (setInsert ts.photo.id [])
      | some s => mapSet ts.tag_to_photo (currTag ts tag) (setInsert ts.photo.id s) := by
    unfold read_one_tag currTag
    cases strFind ts.tag_str_to_id tag <;> rfl
  rw [key]
  cases h : mapFind ts.tag_to_photo (currTag ts tag) with
  | none =>
    simp only [mapFind_mapEmplace _ _ _ _ h]
    by_cases hc : currTag ts tag = t
    · subst hc; simp [indexSet, h]
    · simp [hc]
  | some s =>
    simp only [mapFind_mapSet]
    by_cases hc : currTag ts tag = t
    · subst hc; simp [indexSet, h]
    · simp [hc]

theorem read_one_tag_keys_sorted (ts : TagState) (tag : String)
    (h : (ts.tag_to_photo.map Prod.fst).Sorted (· < ·)) :
    ((read_one_tag ts tag).tag_to_photo.map Prod.fst).Sorted (· < ·) := by
  have key : (read_one_tag ts tag).tag_to_photo =
      match mapFind ts.tag_to_photo (currTag ts tag) with
      | none => mapEmplace ts.tag_to_photo (currTag ts tag) (setInsert ts.photo.id [])
      | some s => mapSet ts.tag_to_photo (currTag ts tag) (setInsert ts.photo.id s) := by
    unfold read_one_tag currTag
    cases strFind ts.tag_str_to_id tag <;> rfl
  rw [key]
  cases h' : mapFind ts.tag_to_photo (currTag ts tag) with
  | none => exact keys_sorted_mapEmplace _ _ _ h
  | some s => simpa [keys_mapSet] using h

theorem indexSet_read_one_tag (ts : TagState) (tag : String) (t : Nat) :
    indexSet (read_one_tag ts tag).tag_to_photo t =
      if currTag ts tag = t then setInsert ts.photo.id (indexSet ts.tag_to_photo t)
      else indexSet ts.tag_to_photo t := by
  unfold indexSet
  rw [read_one_tag_find]
  by_cases hc : currTag ts tag = t
  · simp [hc, indexSet]
  · simp [hc]

theorem sorted_indexSet {t2p : List (Nat × List Nat)}
    (h : ∀ t s, mapFind t2p t = some s → s.Sorted (· < ·)) (t : Nat) :
    (indexSet t2p t).Sorted (· < ·) := by
  unfold indexSet
  cases hf : mapFind t2p t with
  | none => exact List.sorted_nil
  | some s => exact h t s hf

theorem TagOK.read_one_tag {base : Nat → Nat → Prop} {ts : TagState} (h : TagOK base ts)
    (tag : String) : TagOK base (read_one_tag ts tag) := by
  constructor
  · intro t i
    rw [indexSet_read_one_tag, read_one_tag_photo]
    have hi := h.index t i
    by_cases hc : currTag ts tag = t
    · simp only [hc, if_true, mem_setInsert, Photo.add_tag, hi]
      subst hc
      tauto
    · simp only [hc, if_false, mem_setInsert, Photo.add_tag, hi]
      have : ¬ t = currTag ts tag := fun e => hc e.symm
      tauto
  · intro t s hs
    rw [read_one_tag_find] at hs
    by_cases hc : currTag ts tag = t
    · simp only [hc, if_true, Option.some.injEq] at hs
      subst hs
      exact sorted_setInsert (sorted_indexSet h.sets_sorted t)
    · simp only [hc, if_false] at hs
      exact h.sets_sorted t s hs
  · exact read_one_tag_keys_sorted ts tag h.index_keys_sorted
  · rw [read_one_tag_photo]
    exact sorted_setInsert h.tags_sorted

theorem read_photo_tags_induction {P : TagState → Prop}
    (hstep : ∀ ts tag, P ts → P (read_one_tag ts tag)) (labels : List String) (ts : TagState)
    (h0 : P ts) : P (read_photo_tags labels ts) := by
  induction labels generalizing ts with
  | nil => exact h0
  | cons tag rest ih => exact ih (read_one_tag ts tag) (hstep ts tag h0)

theorem TagOK.read_photo_tags {base : Nat → Nat → Prop} {ts : TagState} (h : TagOK base ts)
    (labels : List String) : TagOK base (read_photo_tags labels ts) :=
  read_photo_tags_induction (fun _ tag h => h.read_one_tag tag) labels ts h

theorem read_photo_tags_id (labels : List String) (ts : TagState) :
    (read_photo_tags labels ts).photo.id = ts.photo.id ∧
    (read_photo_tags labels ts).photo.input_ids = ts.photo.input_ids ∧
    (read_photo_tags labels ts).photo.used = ts.photo.used := by
  refine read_photo_tags_induction
    (P := fun ts' => ts'.photo.id = ts.photo.id ∧ ts'.photo.input_ids = ts.photo.input_ids ∧
      ts'.photo.used = ts.photo.used) ?_ labels ts ⟨rfl, rfl, rfl⟩
  intro ts' tag h
  rw [read_one_tag_photo]
  exact h

/-! ## The invariant of `read_input` -/

theorem ReadOK.at_init : ReadOK ReadState.init := by
  constructor <;> simp [ReadState.init, mapFind, indexSet, Photo.empty]

theorem ReadOK.fresh {rs : ReadState} (h : ReadOK rs) :
    mapFind rs.input_photos rs.id_after_merge = none := by
  cases hf : mapFind rs.input_photos rs.id_after_merge with
  | none => rfl
  | some p => exact absurd (h.keys_lt _ _ hf) (lt_irrefl _)

theorem ReadOK.readTags {rs : ReadState} (h : ReadOK rs) (labels : List String) (ph : Photo)
    (base : Nat → Nat → Prop) (hs : ph.tags.Sorted (· < ·))
    (hb : ∀ t i, i ∈ indexSet rs.tag_to_photo t ↔ base t i ∨ (i = ph.id ∧ t ∈ ph.tags)) :
    TagOK base (rs.readTags labels ph) ∧ (rs.readTags labels ph).photo.id = ph.id ∧
    (rs.readTags labels ph).photo.input_ids = ph.input_ids ∧
    (rs.readTags labels ph).photo.used = ph.used := by
  refine ⟨?_, read_photo_tags_id labels _⟩
  exact TagOK.read_photo_tags ⟨hb, h.sets_sorted, h.index_keys_sorted, hs⟩ labels

theorem mapFind_mapEmplace_iff {β : Type} (m : List (Nat × β)) (g : Nat) (v : β)
    (h : mapFind m g = none) (k : Nat) (w : β) :
    mapFind (mapEmplace m g v) k = some w ↔ (k = g ∧ w = v) ∨ mapFind m k = some w := by
  rw [mapFind_mapEmplace m g k v h]
  by_cases hk : g = k
  · subst hk
    simp only [if_true, Option.some.injEq, h, true_and]
    constructor
    · intro e; exact Or.inl e.symm
    · rintro (e | e)
      · exact e.symm
      · exact absurd e (by simp)
  · have hk' : ¬ k = g := fun e => hk e.symm
    simp [hk, hk']

theorem ReadOK.add_H {rs : ReadState} (h : ReadOK rs) (ts : TagState)
    (hT : TagOK rs.carries ts) (hid : ts.photo.id = rs.id_after_merge)
    (hu : ts.photo.used = false) :
    ReadOK { rs with
      input_photos := mapEmplace rs.input_photos ts.photo.id ts.photo
      tag_to_photo := ts.tag_to_photo
      tag_str_to_id := ts.tag_str_to_id
      tag_id := ts.tag_id
      id_after_merge := rs.id_after_merge + 1
      input_id := rs.input_id + 1 } := by
  have hiff := mapFind_mapEmplace_iff rs.input_photos ts.photo.id ts.photo (hid ▸ h.fresh)
  constructor
  · exact keys_sorted_mapEmplace _ _ _ h.keys_sorted
  · intro k p hp
    show k < rs.id_after_merge + 1
    rcases (hiff k p).1 hp with ⟨rfl, -⟩ | hp
    · omega
    · have := h.keys_lt k p hp; omega
  · intro k p hp
    rcases (hiff k p).1 hp with ⟨rfl, rfl⟩ | hp
    · rfl
    · exact h.id_eq k p hp
  · intro k p hp
    rcases (hiff k p).1 hp with ⟨rfl, rfl⟩ | hp
    · exact hu
    · exact h.unused k p hp
  · intro k p hp
    rcases (hiff k p).1 hp with ⟨rfl, rfl⟩ | hp
    · exact hT.tags_sorted
    · exact h.tags_sorted k p hp
  · intro hr
    show rs.tmp_vertical_photo.id < rs.id_after_merge + 1
    have := h.tmp_lt hr; omega
  · intro hr
    show mapFind (mapEmplace rs.input_photos ts.photo.id ts.photo) rs.tmp_vertical_photo.id = none
    have h1 := h.tmp_lt hr
    rw [mapFind_mapEmplace _ _ _ _ (hid ▸ h.fresh), if_neg (by omega)]
    exact h.tmp_fresh hr
  · exact h.tmp_idle
  · exact h.tmp_unused
  · exact h.tags_sorted_tmp
  · intro i hi
    show (mapFind (mapEmplace rs.input_photos ts.photo.id ts.photo) i).isSome = true ∨
      (rs.vertical_ready_to_merge = true ∧ i = rs.tmp_vertical_photo.id)
    have hi' : i < rs.id_after_merge + 1 := hi
    by_cases hk : i = rs.id_after_merge
    · left
      rw [(hiff i ts.photo).2 (Or.inl ⟨hk.trans hid.symm, rfl⟩)]
      rfl
    · rcases h.dense i (by omega) with hd | hd
      · left
        obtain ⟨p, hp⟩ := Option.isSome_iff_exists.1 hd
        rw [(hiff i p).2 (Or.inr hp)]
        rfl
      · exact Or.inr hd
  · intro t i
    show i ∈ indexSet ts.tag_to_photo t ↔
      (∃ p, mapFind (mapEmplace rs.input_photos ts.photo.id ts.photo) i = some p ∧ t ∈ p.tags) ∨
      (rs.vertical_ready_to_merge = true ∧ i = rs.tmp_vertical_photo.id ∧
        t ∈ rs.tmp_vertical_photo.tags)
    rw [hT.index t i]
    unfold ReadState.carries
    constructor
    · rintro ((⟨p, hp, ht⟩ | hpend) | ⟨rfl, ht⟩)
      · exact Or.inl ⟨p, (hiff i p).2 (Or.inr hp), ht⟩
      · exact Or.inr hpend
      · exact Or.inl ⟨ts.photo, (hiff _ _).2 (Or.inl ⟨rfl, rfl⟩), ht⟩
    · rintro (⟨p, hp, ht⟩ | hpend)
      · rcases (hiff i p).1 hp with ⟨rfl, rfl⟩ | hp
        · exact Or.inr ⟨rfl, ht⟩
        · exact Or.inl (Or.inl ⟨p, hp, ht⟩)
      · exact Or.inl (Or.inr hpend)
  · exact hT.sets_sorted
  · exact hT.index_keys_sorted

theorem ReadOK.add_merge {rs : ReadState} (h : ReadOK rs) (ts : TagState)
    (hr : rs.vertical_ready_to_merge = true)
    (hT : TagOK (fun t i => ∃ p, mapFind rs.input_photos i = some p ∧ t ∈ p.tags) ts)
    (hid : ts.photo.id = rs.tmp_vertical_photo.id)
    (hu : ts.photo.used = false) :
    ReadOK { rs with
      input_photos := mapEmplace rs.input_photos ts.photo.id ts.photo
      tag_to_photo := ts.tag_to_photo
      tag_str_to_id := ts.tag_str_to_id
      tag_id := ts.tag_id
      tmp_vertical_photo := Photo.empty
      vertical_ready_to_merge := false
      input_id := rs.input_id + 1 } := by
  have hfresh : mapFind rs.input_photos ts.photo.id = none := hid ▸ h.tmp_fresh hr
  have hiff := mapFind_mapEmplace_iff rs.input_photos ts.photo.id ts.photo hfresh
  constructor
  · exact keys_sorted_mapEmplace _ _ _ h.keys_sorted
  · intro k p hp
    show k < rs.id_after_merge
    rcases (hiff k p).1 hp with ⟨rfl, -⟩ | hp
    · rw [hid]; exact h.tmp_lt hr
    · exact h.keys_lt k p hp
  · intro k p hp
    rcases (hiff k p).1 hp with ⟨rfl, rfl⟩ | hp
    · rfl
    · exact h.id_eq k p hp
  · intro k p hp
    rcases (hiff k p).1 hp with ⟨rfl, rfl⟩ | hp
    · exact hu
    · exact h.unused k p hp
  · intro k p hp
    rcases (hiff k p).1 hp with ⟨rfl, rfl⟩ | hp
    · exact hT.tags_sorted
    · exact h.tags_sorted k p hp
  · intro hr'; exact absurd hr' (by simp)
  · intro hr'; exact absurd hr' (by simp)
  · intro _; rfl
  · rfl
  · exact List.sorted_nil
  · intro i hi
    left
    show (mapFind (mapEmplace rs.input_photos ts.photo.id ts.photo) i).isSome = true
    rcases h.dense i hi with hd | ⟨-, hd⟩
    · obtain ⟨p, hp⟩ := Option.isSome_iff_exists.1 hd
      rw [(hiff i p).2 (Or.inr hp)]
      rfl
    · rw [(hiff i ts.photo).2 (Or.inl ⟨hd.trans hid.symm, rfl⟩)]
      rfl
  · intro t i
    show i ∈ indexSet ts.tag_to_photo t ↔
      (∃ p, mapFind (mapEmplace rs.input_photos ts.photo.id ts.photo) i = some p ∧ t ∈ p.tags) ∨
      (false = true ∧ i = Photo.empty.id ∧ t ∈ Photo.empty.tags)
    rw [hT.index t i]
    constructor
    · rintro (⟨p, hp, ht⟩ | ⟨rfl, ht⟩)
      · exact Or.inl ⟨p, (hiff i p).2 (Or.inr hp), ht⟩
      · exact Or.inl ⟨ts.photo, (hiff _ _).2 (Or.inl ⟨rfl, rfl⟩), ht⟩
    · rintro (⟨p, hp, ht⟩ | ⟨hf, -⟩)
      · rcases (hiff i p).1 hp with ⟨rfl, rfl⟩ | hp
        · exact Or.inr ⟨rfl, ht⟩
        · exact Or.inl ⟨p, hp, ht⟩
      · exact absurd hf (by simp)
  · exact hT.sets_sorted
  · exact hT.index_keys_sorted

theorem ReadOK.add_pending {rs : ReadState} (h : ReadOK rs) (ts : TagState)
    (hr : rs.vertical_ready_to_merge = false)
    (hT : TagOK (fun t i => ∃ p, mapFind rs.input_photos i = some p ∧ t ∈ p.tags) ts)
    (hid : ts.photo.id = rs.id_after_merge)
    (hu : ts.photo.used = false) :
    ReadOK { rs with
      tag_to_photo := ts.tag_to_photo
      tag_str_to_id := ts.tag_str_to_id
      tag_id := ts.tag_id
      tmp_vertical_photo := ts.photo
      id_after_merge := rs.id_after_merge + 1
      vertical_ready_to_merge := true
      input_id := rs.input_id + 1 } := by
  constructor
  · exact h.keys_sorted
  · intro k p hp
    show k < rs.id_after_merge + 1
    have := h.keys_lt k p hp; omega
  · exact h.id_eq
  · exact h.unused
  · exact h.tags_sorted
  · intro _
    show ts.photo.id < rs.id_after_merge + 1
    omega
  · intro _
    show mapFind rs.input_photos ts.photo.id = none
    rw [hid]; exact h.fresh
  · intro hr'; exact absurd hr' (by simp)
  · exact hu
  · exact hT.tags_sorted
  · intro i hi
    show (mapFind rs.input_photos i).isSome = true ∨ (true = true ∧ i = ts.photo.id)
    have hi' : i < rs.id_after_merge + 1 := hi
    by_cases hk : i = rs.id_after_merge
    · exact Or.inr ⟨rfl, hk.trans hid.symm⟩
    · rcases h.dense i (by omega) with hd | ⟨hr2, -⟩
      · exact Or.inl hd
      · rw [hr] at hr2; cases hr2
  · intro t i
    show i ∈ indexSet ts.tag_to_photo t ↔
      (∃ p, mapFind rs.input_photos i = some p ∧ t ∈ p.tags) ∨
      (true = true ∧ i = ts.photo.id ∧ t ∈ ts.photo.tags)
    rw [hT.index t i]
    simp
  · exact hT.sets_sorted
  · exact hT.index_keys_sorted

theorem ReadOK.after_step {rs : ReadState} (h : ReadOK rs) (r : Record) :
    ReadOK (read_input_step rs r) := by
  by_cases hH : r.orientation = 'H'
  · obtain ⟨hT, hid, -, hu⟩ := h.readTags r.labels
      ((Photo.empty.set_id rs.id_after_merge).add_input_ids_ rs.input_id) rs.carries
      (by simp [Photo.empty, Photo.set_id, Photo.add_input_ids_])
      (by intro t i; rw [h.index t i]
          simp [ReadState.carries, Photo.empty, Photo.set_id, Photo.add_input_ids_])
    have := h.add_H _ hT hid hu
    simpa only [read_input_step, hH, if_true] using this
  · by_cases hr : rs.vertical_ready_to_merge = true
    · obtain ⟨hT, hid, -, hu⟩ := h.readTags r.labels
        (rs.tmp_vertical_photo.add_input_ids_ rs.input_id)
        (fun t i => ∃ p, mapFind rs.input_photos i = some p ∧ t ∈ p.tags)
        (by simpa [Photo.add_input_ids_] using h.tags_sorted_tmp)
        (by intro t i; rw [h.index t i]; simp [hr, Photo.add_input_ids_])
      have := h.add_merge _ hr hT hid (hu.trans h.tmp_unused)
      simpa only [read_input_step, hH, if_false, hr, if_true] using this
    · have hr' : rs.vertical_ready_to_merge = false := by simpa using hr
      have he := h.tmp_idle hr'
      obtain ⟨hT, hid, -, hu⟩ := h.readTags r.labels
        ((rs.tmp_vertical_photo.set_id rs.id_after_merge).add_input_ids_ rs.input_id)
        (fun t i => ∃ p, mapFind rs.input_photos i = some p ∧ t ∈ p.tags)
        (by simp [he, Photo.empty, Photo.set_id, Photo.add_input_ids_])
        (by intro t i; rw [h.index t i]
            simp [hr', he, Photo.empty, Photo.set_id, Photo.add_input_ids_])
      have := h.add_pending _ hr' hT hid (hu.trans (by simp [he, Photo.empty, Photo.set_id, Photo.add_input_ids_]))
      simpa only [read_input_step, hH, if_false, hr'] using this

theorem ReadOK.of_read_input (records : List Record) : ReadOK (read_input records) := by
  unfold Slideshow.read_input
  have key : ∀ (l : List Record) (rs : ReadState), ReadOK rs →
      ReadOK (l.foldl read_input_step rs) := by
    intro l
    induction l with
    | nil => intro rs h; exact h
    | cons r l ih => intro rs h; exact ih _ (h.after_step r)
  exact key records _ ReadOK.at_init

/-! ## Candidate gathering -/

theorem gather_set_eq (ip : List (Nat × Photo)) (n : Nat) (s : List Nat) (c : List (Nat × Int)) :
    gather_set ip n s c = ((s.filter (isLive ip)).take n).foldl bump c := by
  induction s generalizing n c with
  | nil => cases n <;> simp [gather_set]
  | cons p rest ih =>
    cases n with
    | zero => simp [gather_set]
    | succ n =>
      cases hf : mapFind ip p with
      | none =>
        have hl : isLive ip p = false := by simp [isLive, hf]
        simp only [gather_set, hf, List.filter_cons, hl, ih]
        simp
      | some ph =>
        cases hu : ph.used with
        | true =>
          have hl : isLive ip p = false := by simp [isLive, hf, hu]
          simp only [gather_set, hf, hu, List.filter_cons, hl, ih]
          simp
        | false =>
          have hl : isLive ip p = true := by simp [isLive, hf, hu]
          simp only [gather_set, hf, hu, List.filter_cons, hl, ih]
          simp

theorem mapFind_bump (c : List (Nat × Int)) (q p : Nat) :
    mapFind (bump c q) p =
      if q = p then some ((mapFind c p).getD 0 + 1) else mapFind c p := by
  unfold bump
  cases h : mapFind c q with
  | none =>
    simp only [mapFind_mapEmplace _ _ _ _ h]
    by_cases hq : q = p
    · subst hq; simp [h]
    · simp [hq]
  | some v =>
    simp only [mapFind_mapSet]
    by_cases hq : q = p
    · subst hq; simp [h]
    · simp [hq]

theorem keys_sorted_bump (c : List (Nat × Int)) (q : Nat)
    (h : (c.map Prod.fst).Sorted (· < ·)) : ((bump c q).map Prod.fst).Sorted (· < ·) := by
  unfold bump
  cases h' : mapFind c q with
  | none => exact keys_sorted_mapEmplace _ _ _ h
  | some v => simpa [keys_mapSet] using h

theorem mapFind_foldl_bump (l : List Nat) (c : List (Nat × Int)) (p : Nat) :
    mapFind (l.foldl bump c) p =
      if p ∈ l then some ((mapFind c p).getD 0 + l.count p) else mapFind c p := by
  induction l generalizing c with
  | nil => simp
  | cons q l ih =>
    rw [List.foldl_cons, ih, mapFind_bump]
    by_cases hq : q = p
    · subst hq
      by_cases hl : q ∈ l
      · simp [hl]; ring
      · simp [hl, List.count_eq_zero_of_not_mem hl]
    · have hq' : ¬ p = q := fun e => hq e.symm
      by_cases hl : p ∈ l
      · simp [hl, hq, hq', List.count_cons]
      · simp [hl, hq, hq']

theorem keys_sorted_foldl_bump (l : List Nat) (c : List (Nat × Int))
    (h : (c.map Prod.fst).Sorted (· < ·)) : ((l.foldl bump c).map Prod.fst).Sorted (· < ·) := by
  induction l generalizing c with
  | nil => exact h
  | cons q l ih => exact ih _ (keys_sorted_bump c q h)

theorem foldl_gather_set (ip : List (Nat × Photo)) (cap : Nat) (sets : List (List Nat))
    (c : List (Nat × Int)) :
    sets.foldl (fun c s => gather_set ip cap s c) c = (gathered ip cap sets).foldl bump c := by
  induction sets generalizing c with
  | nil => rfl
  | cons s sets ih =>
    rw [List.foldl_cons, ih, gather_set_eq]
    simp only [gathered, List.flatMap_cons, List.foldl_append]

theorem build_eq (st : WalkerState) :
    build_num_shared_tag st =
      (gathered st.input_photos 5000
        (photos_with_all_tags st.tag_to_photo st.current_slide.tags)).foldl bump [] := by
  unfold build_num_shared_tag
  exact foldl_gather_set _ _ _ _

/-! ## Pruning and commit -/

theorem setErase_setErase (x : Nat) (s : List Nat) : setErase x (setErase x s) = setErase x s := by
  simp [setErase, List.filter_filter]

theorem mem_foldl_setInsert (l acc : List Nat) (t : Nat) :
    t ∈ l.foldl (fun acc t => setInsert t acc) acc ↔ t ∈ acc ∨ t ∈ l := by
  induction l generalizing acc with
  | nil => simp
  | cons a l ih =>
    rw [List.foldl_cons, ih, mem_setInsert, List.mem_cons]
    tauto

theorem sorted_foldl_setInsert (l acc : List Nat) (h : acc.Sorted (· < ·)) :
    (l.foldl (fun acc t => setInsert t acc) acc).Sorted (· < ·) := by
  induction l generalizing acc with
  | nil => exact h
  | cons a l ih => exact ih _ (sorted_setInsert h)

theorem mem_ofPhoto_tags (p : Photo) (t : Nat) : t ∈ (Slide.ofPhoto p).tags ↔ t ∈ p.tags := by
  simp [Slide.ofPhoto, mem_foldl_setInsert]

theorem sorted_ofPhoto_tags (p : Photo) : (Slide.ofPhoto p).tags.Sorted (· < ·) :=
  sorted_foldl_setInsert _ _ List.sorted_nil

theorem prune_find (id : Nat) (tags : List Nat) (t2p t2p' : List (Nat × List Nat))
    (h : prune id t2p tags = .ok t2p') (t : Nat) :
    mapFind t2p' t =
      if t ∈ tags then (mapFind t2p t).map (setErase id) else mapFind t2p t := by
  induction tags generalizing t2p with
  | nil =>
    simp only [prune, Except.ok.injEq] at h
    simp [h]
  | cons tag rest ih =>
    simp only [prune] at h
    cases hf : mapFind t2p tag with
    | none => simp [hf] at h
    | some s =>
      simp only [hf] at h
      rw [ih _ h, mapFind_mapSet]
      by_cases ht : tag = t
      · subst ht
        by_cases hr : tag ∈ rest
        · simp [hr, hf, setErase_setErase]
        · simp [hr, hf]
      · have ht' : ¬ t = tag := fun e => ht e.symm
        simp [ht, ht']

theorem prune_keys (id : Nat) (tags : List Nat) (t2p t2p' : List (Nat × List Nat))
    (h : prune id t2p tags = .ok t2p') : t2p'.map Prod.fst = t2p.map Prod.fst := by
  induction tags generalizing t2p with
  | nil =>
    simp only [prune, Except.ok.injEq] at h
    simp [h]
  | cons tag rest ih =>
    simp only [prune] at h
    cases hf : mapFind t2p tag with
    | none => simp [hf] at h
    | some s =>
      simp only [hf] at h
      rw [ih _ h, keys_mapSet]

theorem prune_ok (id : Nat) (tags : List Nat) (t2p : List (Nat × List Nat))
    (h : ∀ t ∈ tags, (mapFind t2p t).isSome = true) : ∃ t2p', prune id t2p tags = .ok t2p' := by
  induction tags generalizing t2p with
  | nil => exact ⟨t2p, rfl⟩
  | cons tag rest ih =>
    obtain ⟨s, hs⟩ := Option.isSome_iff_exists.1 (h tag (List.mem_cons_self _ _))
    simp only [prune, hs]
    apply ih
    intro t ht
    rw [mapFind_mapSet]
    have := h t (List.mem_cons_of_mem _ ht)
    by_cases hc : tag = t
    · simp [hc, this]
    · simp [hc, this]

theorem indexSet_prune (id : Nat) (tags : List Nat) (t2p t2p' : List (Nat × List Nat))
    (h : prune id t2p tags = .ok t2p') (t : Nat) :
    indexSet t2p' t = if t ∈ tags then setErase id (indexSet t2p t) else indexSet t2p t := by
  unfold indexSet
  rw [prune_find id tags t2p t2p' h t]
  by_cases ht : t ∈ tags
  · cases hf : mapFind t2p t <;> simp [ht, setErase]
  · simp [ht]

theorem commit_ok (st : WalkerState) (id : Nat) (ph : Photo)
    (h : ∀ t ∈ ph.tags, (mapFind st.tag_to_photo t).isSome = true) :
    ∃ st', commit st id ph = .ok st' := by
  obtain ⟨t2p, ht⟩ := prune_ok id (Slide.ofPhoto (ph.set_used true)).tags st.tag_to_photo
    (fun t ht => h t ((mem_ofPhoto_tags _ t).1 ht))
  unfold commit
  simp only [ht]
  exact ⟨_, rfl⟩

theorem commit_eq (st st' : WalkerState) (id : Nat) (ph : Photo)
    (h : commit st id ph = .ok st') :
    ∃ t2p, prune id st.tag_to_photo (Slide.ofPhoto (ph.set_used true)).tags = .ok t2p ∧
      st' = { current_slide := Slide.ofPhoto (ph.set_used true)
              input_photos := mapSet st.input_photos id (ph.set_used true)
              tag_to_photo := t2p
              slideshow := st.slideshow ++ [Slide.ofPhoto (ph.set_used true)]
              num_photo_left := st.num_photo_left - 1 } := by
  unfold commit at h
  cases hp : prune id st.tag_to_photo (Slide.ofPhoto (ph.set_used true)).tags with
  | error e => simp [hp] at h
  | ok t2p =>
    simp only [hp, Except.ok.injEq] at h
    exact ⟨t2p, rfl, h.symm⟩

theorem mapFind_mapSet_iff {β : Type} (m : List (Nat × β)) (id : Nat) (v v0 : β)
    (h : mapFind m id = some v0) (k : Nat) (w : β) :
    mapFind (mapSet m id v) k = some w ↔ (k = id ∧ w = v) ∨ (k ≠ id ∧ mapFind m k = some w) := by
  rw [mapFind_mapSet]
  by_cases hk : id = k
  · subst hk
    simp only [if_true, h, Option.map_some', Option.some.injEq, true_and, ne_eq, not_true,
      false_and, or_false]
    exact eq_comm
  · have hk' : ¬ k = id := fun e => hk e.symm
    simp [hk, hk']

/-! ## The invariant of the walker -/

theorem WalkOK.commit {st st' : WalkerState} (h : WalkOK st) (id : Nat) (ph : Photo)
    (hf : mapFind st.input_photos id = some ph) (hc : commit st id ph = .ok st') :
    WalkOK st' := by
  obtain ⟨t2p, hp, rfl⟩ := commit_eq st st' id ph hc
  have hiff := mapFind_mapSet_iff st.input_photos id (ph.set_used true) ph hf
  have hfind := prune_find id _ _ _ hp
  constructor
  · show ((mapSet st.input_photos id (ph.set_used true)).map Prod.fst).Sorted (· < ·)
    rw [keys_mapSet]; exact h.keys_sorted
  · intro k p hk
    rcases (hiff k p).1 hk with ⟨rfl, rfl⟩ | ⟨-, hk⟩
    · exact h.id_eq _ ph hf
    · exact h.id_eq _ _ hk
  · intro k p hk
    rcases (hiff k p).1 hk with ⟨rfl, rfl⟩ | ⟨-, hk⟩
    · exact h.tags_sorted _ ph hf
    · exact h.tags_sorted _ _ hk
  · exact sorted_ofPhoto_tags _
  · intro t i p hi hu
    show i ∈ indexSet t2p t ↔ t ∈ p.tags
    rcases (hiff i p).1 hi with ⟨rfl, rfl⟩ | ⟨hne, hi⟩
    · simp [Photo.set_used] at hu
    · rw [indexSet_prune id _ _ _ hp t, ← h.index_live t i p hi hu]
      by_cases ht : t ∈ (Slide.ofPhoto (ph.set_used true)).tags
      · simp [ht, mem_setErase, hne]
      · simp [ht]
  · intro k p hk t ht
    show (mapFind t2p t).isSome = true
    have hs : (mapFind st.tag_to_photo t).isSome = true := by
      rcases (hiff k p).1 hk with ⟨rfl, rfl⟩ | ⟨-, hk⟩
      · exact h.tag_has_set _ _ hf t ht
      · exact h.tag_has_set _ _ hk t ht
    rw [hfind t]
    obtain ⟨s, hs⟩ := Option.isSome_iff_exists.1 hs
    by_cases ht' : t ∈ (Slide.ofPhoto (ph.set_used true)).tags <;> simp [ht', hs]
  · intro t s hs
    have hs' : mapFind t2p t = some s := hs
    rw [hfind t] at hs'
    by_cases ht' : t ∈ (Slide.ofPhoto (ph.set_used true)).tags
    · simp only [ht', if_true, Option.map_eq_some'] at hs'
      obtain ⟨s0, hs0, rfl⟩ := hs'
      exact sorted_setErase (h.sets_sorted t s0 hs0)
    · simp only [ht', if_false] at hs'
      exact h.sets_sorted t s hs'
  · show (t2p.map Prod.fst).Sorted (· < ·)
    rw [prune_keys id _ _ _ hp]; exact h.index_keys_sorted

/-- What the loop of lines 248-262 does when it returns: either every id it visited
names a used photo and nothing changes, or it commits the first id whose photo is
not used, all ids before it naming used photos. -/
theorem fallback_scan_eq (st st' : WalkerState) (n id : Nat)
    (h : fallback_scan st n id = .ok st') :
    (st' = st ∧ ∀ j, id ≤ j → j < id + n →
      ∃ q, mapFind st.input_photos j = some q ∧ q.used = true) ∨
    ∃ id' ph, id ≤ id' ∧ id' < id + n ∧ mapFind st.input_photos id' = some ph ∧
      ph.used = false ∧ commit st id' ph = .ok st' ∧
      ∀ j, id ≤ j → j < id' → ∃ q, mapFind st.input_photos j = some q ∧ q.used = true := by
  induction n generalizing id with
  | zero =>
    simp only [fallback_scan, Except.ok.injEq] at h
    exact Or.inl ⟨h.symm, fun j h1 h2 => by omega⟩
  | succ n ih =>
    simp only [fallback_scan] at h
    cases hf : mapFind st.input_photos id with
    | none => simp [hf] at h
    | some ph =>
      simp only [hf] at h
      cases hu : ph.used with
      | false =>
        simp only [hu, Bool.not_false, if_true] at h
        exact Or.inr ⟨id, ph, le_refl _, by omega, hf, hu, h, fun j h1 h2 => by omega⟩
      | true =>
        simp only [hu, Bool.not_true, Bool.false_eq_true, if_false] at h
        rcases ih (id + 1) h with ⟨he, hall⟩ | ⟨id', ph', h1, h2, h3, h4, h5, h6⟩
        · refine Or.inl ⟨he, fun j h1 h2 => ?_⟩
          by_cases hj : j = id
          · subst hj; exact ⟨ph, hf, hu⟩
          · exact hall j (by omega) (by omega)
        · refine Or.inr ⟨id', ph', by omega, by omega, h3, h4, h5, fun j h7 h8 => ?_⟩
          by_cases hj : j = id
          · subst hj; exact ⟨ph, hf, hu⟩
          · exact h6 j (by omega) h8

/-- What `insert_next_slide` does when it returns: nothing (a fallback scan that
found no photo), or the commit of a photo of the catalog that was not used. -/
theorem insert_next_slide_eq (S : StdSort) (st st' : WalkerState)
    (h : insert_next_slide S st = .ok st') :
    st' = st ∨ ∃ id ph, mapFind st.input_photos id = some ph ∧ commit st id ph = .ok st' := by
  unfold insert_next_slide at h
  simp only at h
  by_cases hb : (build_num_shared_tag st).isEmpty = true
  · simp only [hb, if_true] at h
    rcases fallback_scan_eq st st' _ _ h with ⟨he, -⟩ | ⟨id, ph, -, -, hf, -, hc, -⟩
    · exact Or.inl he
    · exact Or.inr ⟨id, ph, hf, hc⟩
  · simp only [hb] at h
    cases hc : candidates st.input_photos st.current_slide.tags.length (build_num_shared_tag st) with
    | error e => simp [hc] at h
    | ok cs =>
      simp only [hc] at h
      cases hg : (S.sort cs).getLast? with
      | none => simp [hg] at h
      | some good =>
        simp only [hg] at h
        cases hf : mapFind st.input_photos good.1 with
        | none => simp [hf] at h
        | some ph =>
          simp only [hf] at h
          exact Or.inr ⟨good.1, ph, hf, h⟩

theorem WalkOK.insert_next_slide {S : StdSort} {st st' : WalkerState} (h : WalkOK st)
    (hs : insert_next_slide S st = .ok st') : WalkOK st' := by
  rcases insert_next_slide_eq S st st' hs with rfl | ⟨id, ph, hf, hc⟩
  · exact h
  · exact h.commit id ph hf hc

theorem WalkOK.seed {rs : ReadState} (h : ReadOK rs) {st : WalkerState}
    (hs : main_seed rs = .ok st) : WalkOK st := by
  unfold main_seed at hs
  cases hip : rs.input_photos with
  | nil => simp [hip] at hs
  | cons kp rest =>
    obtain ⟨k, ph⟩ := kp
    simp only [hip, Except.ok.injEq] at hs
    subst hs
    have hfind : ∀ i p, mapFind ((k, ph.set_used true) :: rest) i = some p →
        ∃ p0, mapFind rs.input_photos i = some p0 ∧ p.id = p0.id ∧ p.tags = p0.tags ∧
          (p.used = false → p = p0) := by
      intro i p hp
      rw [hip]
      simp only [mapFind] at hp ⊢
      by_cases hk : k = i
      · simp only [hk, if_true, Option.some.injEq] at hp ⊢
        subst hp
        exact ⟨ph, rfl, rfl, rfl, fun hu => by simp [Photo.set_used] at hu⟩
      · simp only [hk, if_false] at hp ⊢
        exact ⟨p, hp, rfl, rfl, fun _ => rfl⟩
    constructor
    · have := h.keys_sorted
      rw [hip] at this
      exact this
    · intro i p hp
      obtain ⟨p0, h0, h1, -, -⟩ := hfind i p hp
      rw [h1]; exact h.id_eq i p0 h0
    · intro i p hp
      obtain ⟨p0, h0, -, h2, -⟩ := hfind i p hp
      rw [h2]; exact h.tags_sorted i p0 h0
    · exact sorted_ofPhoto_tags _
    · intro t i p hp hu
      obtain ⟨p0, h0, -, h2, -⟩ := hfind i p hp
      show i ∈ indexSet rs.tag_to_photo t ↔ t ∈ p.tags
      rw [h.index t i, h2]
      constructor
      · rintro (⟨p1, h1, ht⟩ | ⟨hr, rfl, -⟩)
        · rw [h0] at h1; cases h1; exact ht
        · rw [h.tmp_fresh hr] at h0; cases h0
      · intro ht; exact Or.inl ⟨p0, h0, ht⟩
    · intro i p hp t ht
      obtain ⟨p0, h0, -, h2, -⟩ := hfind i p hp
      show (mapFind rs.tag_to_photo t).isSome = true
      have : i ∈ indexSet rs.tag_to_photo t := (h.index t i).2 (Or.inl ⟨p0, h0, h2 ▸ ht⟩)
      unfold indexSet at this
      cases hm : mapFind rs.tag_to_photo t with
      | none => simp [hm] at this
      | some s => rfl
    · exact h.sets_sorted
    · exact h.index_keys_sorted

theorem Reachable.walkOK {S : StdSort} {records : List Record} {st : WalkerState}
    (h : Reachable S records st) : WalkOK st := by
  induction h with
  | seed hs => exact WalkOK.seed (ReadOK.of_read_input records) hs
  | step _ _ hs ih => exact ih.insert_next_slide hs

/-! ## Counters and scores of the candidates -/

theorem isLive_iff (ip : List (Nat × Photo)) (i : Nat) :
    isLive ip i = true ↔ ∃ ph, mapFind ip i = some ph ∧ ph.used = false := by
  unfold isLive
  cases h : mapFind ip i with
  | none => simp
  | some ph => cases hu : ph.used <;> simp [hu]

theorem flatMap_photos_with_all_tags (t2p : List (Nat × List Nat)) (tags : List Nat)
    (f : List Nat → List Nat) (hf : f [] = []) :
    (photos_with_all_tags t2p tags).flatMap f = tags.flatMap (fun t => f (indexSet t2p t)) := by
  unfold photos_with_all_tags
  induction tags with
  | nil => rfl
  | cons t tags ih =>
    cases h : mapFind t2p t with
    | none => simp [List.filterMap_cons, h, indexSet, hf, ih]
    | some s => simp [List.filterMap_cons, h, indexSet, ih]

theorem gathered_eq (ip : List (Nat × Photo)) (cap : Nat) (t2p : List (Nat × List Nat))
    (tags : List Nat) :
    gathered ip cap (photos_with_all_tags t2p tags) =
      tags.flatMap (fun t => ((indexSet t2p t).filter (isLive ip)).take cap) := by
  unfold gathered
  exact flatMap_photos_with_all_tags t2p tags _ (by simp)

theorem mem_gathered_live (ip : List (Nat × Photo)) (cap : Nat) (sets : List (List Nat))
    (i : Nat) (h : i ∈ gathered ip cap sets) : isLive ip i = true := by
  unfold gathered at h
  obtain ⟨s, -, hi⟩ := List.mem_flatMap.1 h
  exact (List.mem_filter.1 (List.mem_of_mem_take hi)).2

theorem count_flatMap_nodup (tags : List Nat) (g : Nat → List Nat) (i : Nat)
    (hg : ∀ t, (g t).Nodup) :
    (tags.flatMap g).count i = (tags.filter (fun t => decide (i ∈ g t))).length := by
  induction tags with
  | nil => rfl
  | cons t tags ih =>
    rw [List.flatMap_cons, List.count_append, ih, List.filter_cons]
    by_cases hi : i ∈ g t
    · simp [hi, List.count_eq_one_of_mem (hg t) hi]; omega
    · simp [hi, List.count_eq_zero_of_not_mem hi]

theorem candidates_ok (ip : List (Nat × Photo)) (ncur : Int) (build : List (Nat × Int))
    (h : ∀ kv ∈ build, ∃ ph, mapFind ip kv.1 = some ph) :
    ∃ cs, candidates ip ncur build = .ok cs := by
  induction build with
  | nil => exact ⟨[], rfl⟩
  | cons kv build ih =>
    obtain ⟨id, s⟩ := kv
    obtain ⟨ph, hph⟩ := h (id, s) (List.mem_cons_self _ _)
    obtain ⟨cs, hcs⟩ := ih (fun kv hkv => h kv (List.mem_cons_of_mem _ hkv))
    have hph' : mapFind ip id = some ph := hph
    exact ⟨(id, score s ph.tags.length ncur) :: cs, by simp only [candidates, hph', hcs]⟩

theorem candidates_forall₂ (ip : List (Nat × Photo)) (ncur : Int) (build cs : List (Nat × Int))
    (h : candidates ip ncur build = .ok cs) :
    List.Forall₂ (fun kv c => c.1 = kv.1 ∧ ∃ ph, mapFind ip kv.1 = some ph ∧
      c.2 = score kv.2 ph.tags.length ncur) build cs := by
  induction build generalizing cs with
  | nil =>
    simp only [candidates, Except.ok.injEq] at h
    subst h
    exact List.Forall₂.nil
  | cons kv build ih =>
    obtain ⟨id, s⟩ := kv
    simp only [candidates] at h
    cases hph : mapFind ip id with
    | none => simp [hph] at h
    | some ph =>
      simp only [hph] at h
      cases hcs : candidates ip ncur build with
      | error e => simp [hcs] at h
      | ok cs' =>
        simp only [hcs, Except.ok.injEq] at h
        subst h
        exact List.Forall₂.cons ⟨rfl, ph, hph, rfl⟩ (ih cs' hcs)

theorem forall₂_keys {R : Nat × Int → Nat × Int → Prop} {l₁ l₂ : List (Nat × Int)}
    (h : List.Forall₂ R l₁ l₂) (hR : ∀ a b, R a b → b.1 = a.1) :
    l₂.map Prod.fst = l₁.map Prod.fst := by
  induction h with
  | nil => rfl
  | cons hab _ ih => simp [hR _ _ hab, ih]

theorem forall₂_mem_right {α β : Type} {R : α → β → Prop} {l₁ : List α} {l₂ : List β}
    (h : List.Forall₂ R l₁ l₂) (b : β) (hb : b ∈ l₂) : ∃ a ∈ l₁, R a b := by
  induction h with
  | nil => simp at hb
  | cons hab _ ih =>
    rcases List.mem_cons.1 hb with rfl | hb
    · exact ⟨_, List.mem_cons_self _ _, hab⟩
    · obtain ⟨a, ha, hr⟩ := ih hb
      exact ⟨a, List.mem_cons_of_mem _ ha, hr⟩

theorem build_keys_sorted (st : WalkerState) :
    ((build_num_shared_tag st).map Prod.fst).Sorted (· < ·) := by
  rw [build_eq]
  exact keys_sorted_foldl_bump _ _ List.sorted_nil

/-- The counter of a gathered photo: it is one of the gathered ids and its counter is
the number of times it was gathered. -/
theorem build_mem (st : WalkerState) (kv : Nat × Int) (h : kv ∈ build_num_shared_tag st) :
    kv.1 ∈ gathered st.input_photos 5000
        (photos_with_all_tags st.tag_to_photo st.current_slide.tags) ∧
    kv.2 = ((gathered st.input_photos 5000
        (photos_with_all_tags st.tag_to_photo st.current_slide.tags)).count kv.1 : Int) := by
  have hf := mapFind_of_mem _ kv.1 kv.2 (build_keys_sorted st).nodup h
  rw [build_eq, mapFind_foldl_bump] at hf
  by_cases hm : kv.1 ∈ gathered st.input_photos 5000
      (photos_with_all_tags st.tag_to_photo st.current_slide.tags)
  · simp only [hm, if_true, mapFind, Option.getD_none, zero_add, Option.some.injEq] at hf
    exact ⟨hm, hf.symm⟩
  · simp [hm, mapFind] at hf

theorem build_ne_nil_iff (st : WalkerState) :
    build_num_shared_tag st ≠ [] ↔ gathered st.input_photos 5000
        (photos_with_all_tags st.tag_to_photo st.current_slide.tags) ≠ [] := by
  rw [build_eq]
  generalize gathered st.input_photos 5000
        (photos_with_all_tags st.tag_to_photo st.current_slide.tags) = G
  constructor
  · intro h hG; subst hG; exact h rfl
  · intro h hb
    cases G with
    | nil => exact h rfl
    | cons q G =>
      have := mapFind_foldl_bump (q :: G) [] q
      rw [hb] at this
      simp [mapFind] at this

theorem flatMap_congr_mem {α β : Type} (l : List α) (f g : α → List β)
    (h : ∀ a ∈ l, f a = g a) : l.flatMap f = l.flatMap g := by
  induction l with
  | nil => rfl
  | cons a l ih =>
    rw [List.flatMap_cons, List.flatMap_cons, h a (List.mem_cons_self _ _),
      ih (fun b hb => h b (List.mem_cons_of_mem _ hb))]

theorem inter_card_eq (A B : List Nat) (hA : A.Nodup) :
    (A.toFinset ∩ B.toFinset).card = (A.filter (fun t => decide (t ∈ B))).length := by
  have h : A.toFinset ∩ B.toFinset = (A.filter (fun t => decide (t ∈ B))).toFinset := by
    ext x
    simp [List.mem_filter]
  rw [h, List.toFinset_card_of_nodup (hA.filter _)]

theorem score_eq_min (A B : Finset Nat) :
    score ((A ∩ B).card : Int) (B.card : Int) (A.card : Int) =
      min ((A ∩ B).card : Int) (min ((A \ B).card : Int) ((B \ A).card : Int)) := by
  have h1 := Finset.card_sdiff_add_card_inter A B
  have h2 := Finset.card_sdiff_add_card_inter B A
  rw [Finset.inter_comm B A] at h2
  unfold score
  have e1 : ((B \ A).card : Int) = (B.card : Int) - ((A ∩ B).card : Int) := by omega
  have e2 : ((A \ B).card : Int) = (A.card : Int) - ((A ∩ B).card : Int) := by omega
  rw [e1, e2, min_comm ((A.card : Int) - _)]

/-- Under the sampling cap, the counter of a gathered photo is the number of tags it
shares with the current slide. -/
theorem shared_count (st : WalkerState) (hW : WalkOK st)
    (hcap : ∀ t ∈ st.current_slide.tags,
      ((indexSet st.tag_to_photo t).filter (isLive st.input_photos)).length ≤ 5000)
    (kv : Nat × Int) (h : kv ∈ build_num_shared_tag st) :
    ∃ ph, mapFind st.input_photos kv.1 = some ph ∧ ph.used = false ∧
      kv.2 = ((st.current_slide.tags.toFinset ∩ ph.tags.toFinset).card : Int) := by
  obtain ⟨hm, hc⟩ := build_mem st kv h
  obtain ⟨ph, hph, hu⟩ := (isLive_iff _ _).1 (mem_gathered_live _ _ _ _ hm)
  refine ⟨ph, hph, hu, ?_⟩
  rw [hc, gathered_eq]
  rw [flatMap_congr_mem _ _ (fun t => (indexSet st.tag_to_photo t).filter
    (isLive st.input_photos)) (fun t ht => List.take_of_length_le (hcap t ht))]
  rw [count_flatMap_nodup _ _ _ (fun t =>
    (sorted_indexSet hW.sets_sorted t).nodup.filter _)]
  rw [inter_card_eq _ _ hW.cur_sorted.nodup]
  congr 2
  apply List.filter_congr
  intro t _
  have hl : isLive st.input_photos kv.1 = true := (isLive_iff _ _).2 ⟨ph, hph, hu⟩
  simp only [List.mem_filter, hl, and_true, hW.index_live t kv.1 ph hph hu]

theorem getLast?_max {l : List (Nat × Int)} (h : l.Pairwise (fun a b => ¬ b.2 < a.2))
    {g : Nat × Int} (hg : l.getLast? = some g) : ∀ c ∈ l, c.2 ≤ g.2 := by
  induction l with
  | nil => simp at hg
  | cons a l ih =>
    rw [List.pairwise_cons] at h
    cases l with
    | nil =>
      simp only [List.getLast?_singleton, Option.some.injEq] at hg
      subst hg
      intro c hc
      simp only [List.mem_singleton] at hc
      subst hc
      exact le_refl _
    | cons b l =>
      rw [List.getLast?_cons_cons] at hg
      intro c hc
      rcases List.mem_cons.1 hc with rfl | hc
      · exact not_lt.1 (h.1 g (List.mem_of_getLast?_eq_some hg))
      · exact ih h.2 hg c hc

/-! ## `read_photo_tags`: the label map -/

theorem strFind_append (m : List (String × Nat)) (k : String) (v : Nat) (l : String) :
    strFind (m ++ [(k, v)]) l =
      match strFind m l with
      | some i => some i
      | none => if k = l then some v else none := by
  induction m with
  | nil => simp [strFind]
  | cons kv m ih =>
    obtain ⟨k0, v0⟩ := kv
    simp only [List.cons_append, strFind]
    by_cases h : k0 = l
    · simp [h]
    · simp [h, ih]

theorem read_one_tag_strmap (ts : TagState) (tag : String) :
    (read_one_tag ts tag).tag_str_to_id =
      match strFind ts.tag_str_to_id tag with
      | none => ts.tag_str_to_id ++ [(tag, ts.tag_id)]
      | some _ => ts.tag_str_to_id := by
  unfold read_one_tag
  cases strFind ts.tag_str_to_id tag <;> rfl

theorem read_one_tag_tag_id (ts : TagState) (tag : String) :
    (read_one_tag ts tag).tag_id =
      match strFind ts.tag_str_to_id tag with
      | none => ts.tag_id + 1
      | some _ => ts.tag_id := by
  unfold read_one_tag
  cases strFind ts.tag_str_to_id tag <;> rfl

theorem read_one_tag_extends (ts : TagState) (tag l : String) (i : Nat)
    (h : strFind ts.tag_str_to_id l = some i) :
    strFind (read_one_tag ts tag).tag_str_to_id l = some i := by
  rw [read_one_tag_strmap]
  cases hf : strFind ts.tag_str_to_id tag with
  | none => simp only [strFind_append, h]
  | some j => exact h

theorem read_one_tag_finds (ts : TagState) (tag : String) :
    strFind (read_one_tag ts tag).tag_str_to_id tag = some (currTag ts tag) := by
  rw [read_one_tag_strmap]
  unfold currTag
  cases hf : strFind ts.tag_str_to_id tag with
  | none => simp [strFind_append, hf]
  | some j => simp [hf]

theorem read_photo_tags_cons (tag : String) (labels : List String) (ts : TagState) :
    read_photo_tags (tag :: labels) ts = read_photo_tags labels (read_one_tag ts tag) := rfl

theorem read_photo_tags_extends (labels : List String) (ts : TagState) (l : String) (i : Nat)
    (h : strFind ts.tag_str_to_id l = some i) :
    strFind (read_photo_tags labels ts).tag_str_to_id l = some i := by
  induction labels generalizing ts with
  | nil => exact h
  | cons tag labels ih =>
    rw [read_photo_tags_cons]
    exact ih _ (read_one_tag_extends ts tag l i h)

theorem read_photo_tags_covers (labels : List String) (ts : TagState) :
    ∀ l ∈ labels, ∃ i, strFind (read_photo_tags labels ts).tag_str_to_id l = some i := by
  induction labels generalizing ts with
  | nil => intro l hl; simp at hl
  | cons tag labels ih =>
    intro l hl
    rw [read_photo_tags_cons]
    rcases List.mem_cons.1 hl with rfl | hl
    · exact ⟨_, read_photo_tags_extends labels _ _ _ (read_one_tag_finds ts l)⟩
    · exact ih _ l hl

theorem read_photo_tags_tags (labels : List String) (ts : TagState) (t : Nat) :
    t ∈ (read_photo_tags labels ts).photo.tags ↔
      t ∈ ts.photo.tags ∨
        ∃ l ∈ labels, strFind (read_photo_tags labels ts).tag_str_to_id l = some t := by
  induction labels generalizing ts with
  | nil => simp [read_photo_tags]
  | cons tag labels ih =>
    rw [read_photo_tags_cons, ih, read_one_tag_photo]
    have hfind := read_photo_tags_extends labels _ _ _ (read_one_tag_finds ts tag)
    simp only [Photo.add_tag, mem_setInsert, List.mem_cons, exists_eq_or_imp, hfind,
      Option.some.injEq]
    constructor
    · rintro ((rfl | h) | h)
      · exact Or.inr (Or.inl rfl)
      · exact Or.inl h
      · exact Or.inr (Or.inr h)
    · rintro (h | h | h)
      · exact Or.inl (Or.inr h)
      · exact Or.inl (Or.inl h.symm)
      · exact Or.inr h

/-! ## The Entries of the specification -/

theorem pairUp_append_even {α : Type} (x : α) :
    ∀ l : List α, l.length % 2 = 0 → pairUp (l ++ [x]) = pairUp l
  | [], _ => rfl
  | [a], h => by simp at h
  | a :: b :: l, h => by
    have hl : l.length % 2 = 0 := by simp only [List.length_cons] at h; omega
    show (a, b) :: pairUp (l ++ [x]) = (a, b) :: pairUp l
    rw [pairUp_append_even x l hl]

theorem pairUp_append_odd {α : Type} (x y : α) :
    ∀ l : List α, l.length % 2 = 1 → l.getLast? = some y →
      pairUp (l ++ [x]) = pairUp l ++ [(y, x)]
  | [], h, _ => by simp at h
  | [a], _, hy => by
    simp only [List.getLast?_singleton, Option.some.injEq] at hy
    subst hy
    rfl
  | a :: b :: l, h, hy => by
    have hl : l.length % 2 = 1 := by simp only [List.length_cons] at h; omega
    have hne : l ≠ [] := by rintro rfl; simp at hl
    obtain ⟨c, l', rfl⟩ := List.exists_cons_of_ne_nil hne
    have hy' : (c :: l').getLast? = some y := by
      simpa [List.getLast?_cons_cons] using hy
    show (a, b) :: pairUp ((c :: l') ++ [x]) = (a, b) :: (pairUp (c :: l') ++ [(y, x)])
    rw [pairUp_append_odd x y (c :: l') hl hy']

theorem mem_pairUp {α : Type} (p : α × α) :
    ∀ l : List α, p ∈ pairUp l → p.1 ∈ l ∧ p.2 ∈ l
  | [], h => by simp [pairUp] at h
  | [a], h => by simp [pairUp] at h
  | a :: b :: l, h => by
    simp only [pairUp, List.mem_cons] at h
    rcases h with rfl | h
    · simp
    · have := mem_pairUp p l h
      exact ⟨List.mem_cons_of_mem _ (List.mem_cons_of_mem _ this.1),
        List.mem_cons_of_mem _ (List.mem_cons_of_mem _ this.2)⟩

theorem horizontals_append (pre : List Record) (r : Record) :
    horizontals (pre ++ [r]) =
      horizontals pre ++ (if r.orientation = 'H' then [(pre.length, r)] else []) := by
  unfold horizontals
  rw [List.enum_append, List.filter_append]
  by_cases h : r.orientation = 'H' <;> simp [h, List.filter_cons]

theorem verticals_append (pre : List Record) (r : Record) :
    verticals (pre ++ [r]) =
      verticals pre ++ (if r.orientation = 'H' then [] else [(pre.length, r)]) := by
  unfold verticals
  rw [List.enum_append, List.filter_append]
  by_cases h : r.orientation = 'H' <;> simp [h, List.filter_cons]

theorem mem_enum_record (records : List Record) (ir : Nat × Record) (h : ir ∈ records.enum) :
    ir.2 ∈ records := by
  obtain ⟨i, r⟩ := ir
  have h2 := (List.mem_enum h).2
  rw [h2]
  exact List.getElem_mem _

theorem labelTags_extends (m m' : List (String × Nat)) (labels : List String)
    (hc : ∀ l ∈ labels, ∃ i, strFind m l = some i)
    (he : ∀ l i, strFind m l = some i → strFind m' l = some i) :
    labelTags m' labels = labelTags m labels := by
  unfold labelTags
  congr 1
  apply List.filterMap_congr
  intro l hl
  obtain ⟨i, hi⟩ := hc l hl
  rw [hi, he l i hi]

theorem mergedEntries_extends (m m' : List (String × Nat)) (pre : List Record)
    (hc : ∀ r ∈ pre, ∀ l ∈ r.labels, ∃ i, strFind m l = some i)
    (he : ∀ l i, strFind m l = some i → strFind m' l = some i) :
    mergedEntries m' pre = mergedEntries m pre := by
  unfold mergedEntries
  congr 1
  · apply List.map_congr_left
    intro ir hir
    have hr : ir.2 ∈ pre := mem_enum_record pre ir (List.mem_of_mem_filter hir)
    rw [labelTags_extends m m' _ (hc _ hr) he]
  · apply List.map_congr_left
    intro pr hpr
    obtain ⟨h1, h2⟩ := mem_pairUp pr _ hpr
    have hr1 : pr.1.2 ∈ pre := mem_enum_record pre _ (List.mem_of_mem_filter h1)
    have hr2 : pr.2.2 ∈ pre := mem_enum_record pre _ (List.mem_of_mem_filter h2)
    rw [labelTags_extends m m' _ (hc _ hr1) he, labelTags_extends m m' _ (hc _ hr2) he]

theorem readTags_tags (rs : ReadState) (labels : List String) (ph : Photo) :
    (rs.readTags labels ph).photo.tags.toFinset =
      ph.tags.toFinset ∪ labelTags (rs.readTags labels ph).tag_str_to_id labels := by
  ext t
  simp only [List.mem_toFinset, Finset.mem_union, labelTags, List.mem_filterMap]
  exact read_photo_tags_tags labels _ t

theorem readTags_facts (rs : ReadState) (labels : List String) (ph : Photo) :
    (rs.readTags labels ph).photo.id = ph.id ∧
    (rs.readTags labels ph).photo.input_ids = ph.input_ids ∧
    (rs.readTags labels ph).photo.tags.toFinset =
      ph.tags.toFinset ∪ labelTags (rs.readTags labels ph).tag_str_to_id labels ∧
    (∀ l i, strFind rs.tag_str_to_id l = some i →
      strFind (rs.readTags labels ph).tag_str_to_id l = some i) ∧
    (∀ l ∈ labels, ∃ i, strFind (rs.readTags labels ph).tag_str_to_id l = some i) :=
  ⟨(read_photo_tags_id labels _).1, (read_photo_tags_id labels _).2.1, readTags_tags rs labels ph,
    fun l i h => read_photo_tags_extends labels _ l i h, read_photo_tags_covers labels _⟩

theorem covers_append {m m' : List (String × Nat)} {pre : List Record} {r : Record}
    (hc : ∀ r ∈ pre, ∀ l ∈ r.labels, ∃ i, strFind m l = some i)
    (he : ∀ l i, strFind m l = some i → strFind m' l = some i)
    (hr : ∀ l ∈ r.labels, ∃ i, strFind m' l = some i) :
    ∀ r' ∈ pre ++ [r], ∀ l ∈ r'.labels, ∃ i, strFind m' l = some i := by
  intro r' hr' l hl
  rcases List.mem_append.1 hr' with h | h
  · obtain ⟨i, hi⟩ := hc r' h l hl
    exact ⟨i, he l i hi⟩
  · simp only [List.mem_singleton] at h
    subst h
    exact hr l hl

theorem mem_verticals_record {pre : List Record} {ir : Nat × Record}
    (h : (verticals pre).getLast? = some ir) : ir.2 ∈ pre :=
  mem_enum_record pre ir (List.mem_of_mem_filter (List.mem_of_getLast?_eq_some h))

/-! ## `read_input` builds the Entries of the specification -/

theorem ReadSpec.spec_at_init : ReadSpec [] ReadState.init := by
  constructor <;> simp [ReadState.init, mergedEntries, horizontals, verticals, pairUp]

theorem ReadSpec.spec_after_step {pre : List Record} {rs : ReadState} (hOK : ReadOK rs)
    (h : ReadSpec pre rs) (r : Record) : ReadSpec (pre ++ [r]) (read_input_step rs r) := by
  by_cases hH : r.orientation = 'H'
  · obtain ⟨hid, hin, htags, hext, hcov⟩ := readTags_facts rs r.labels
      ((Photo.empty.set_id rs.id_after_merge).add_input_ids_ rs.input_id)
    have hme := mergedEntries_extends _ _ pre h.covers hext
    constructor
    · simp only [read_input_step, hH, if_true, List.length_append, List.length_singleton,
        h.input_id]
    · simp only [read_input_step, hH, if_true]
      exact covers_append h.covers hext hcov
    · simp only [read_input_step, hH, if_true]
      refine ((keys_mapEmplace_perm _ _ _ (hid ▸ hOK.fresh)).map entryOf).trans ?_
      rw [List.map_cons]
      unfold mergedEntries
      rw [horizontals_append, verticals_append]
      simp only [hH, if_true, List.append_nil, List.map_append, List.map_cons, List.map_nil]
      have e : entryOf ((rs.readTags r.labels
          ((Photo.empty.set_id rs.id_after_merge).add_input_ids_ rs.input_id)).photo.id,
          (rs.readTags r.labels
          ((Photo.empty.set_id rs.id_after_merge).add_input_ids_ rs.input_id)).photo) =
          ([pre.length], labelTags (rs.readTags r.labels
          ((Photo.empty.set_id rs.id_after_merge).add_input_ids_ rs.input_id)).tag_str_to_id
            r.labels) := by
        simp only [entryOf]
        rw [hin, htags]
        simp only [Photo.empty, Photo.set_id, Photo.add_input_ids_,
          List.nil_append, h.input_id, List.toFinset_nil, Finset.empty_union]
      rw [e]
      have hp := h.entries
      rw [← hme] at hp
      unfold mergedEntries at hp
      refine (List.Perm.cons _ hp).trans ?_
      rw [List.append_assoc]
      exact (List.perm_middle).symm
    · simp only [read_input_step, hH, if_true, verticals_append, List.append_nil]
      exact h.ready_iff
    · simp only [read_input_step, hH, if_true, verticals_append, List.append_nil]
      intro hr
      obtain ⟨ir, h1, h2, h3⟩ := h.pending hr
      refine ⟨ir, h1, h2, ?_⟩
      rw [h3, labelTags_extends _ _ _ (h.covers _ (mem_verticals_record h1)) hext]
  · by_cases hr : rs.vertical_ready_to_merge = true
    · obtain ⟨hid, hin, htags, hext, hcov⟩ := readTags_facts rs r.labels
        (rs.tmp_vertical_photo.add_input_ids_ rs.input_id)
      have hme := mergedEntries_extends _ _ pre h.covers hext
      obtain ⟨ir, h1, h2, h3⟩ := h.pending hr
      have hodd := h.ready_iff.1 hr
      constructor
      · simp only [read_input_step, hH, if_false, hr, if_true, List.length_append,
          List.length_singleton, h.input_id]
      · simp only [read_input_step, hH, if_false, hr, if_true]
        exact covers_append h.covers hext hcov
      · simp only [read_input_step, hH, if_false, hr, if_true]
        refine ((keys_mapEmplace_perm _ _ _ (hid ▸ hOK.tmp_fresh hr)).map entryOf).trans ?_
        rw [List.map_cons]
        unfold mergedEntries
        rw [horizontals_append, verticals_append]
        simp only [hH, if_false, List.append_nil]
        rw [pairUp_append_odd _ ir _ hodd h1]
        simp only [List.map_append, List.map_cons, List.map_nil]
        have e : entryOf ((rs.readTags r.labels
            (rs.tmp_vertical_photo.add_input_ids_ rs.input_id)).photo.id,
            (rs.readTags r.labels
            (rs.tmp_vertical_photo.add_input_ids_ rs.input_id)).photo) =
            ([ir.1, pre.length], labelTags (rs.readTags r.labels
              (rs.tmp_vertical_photo.add_input_ids_ rs.input_id)).tag_str_to_id ir.2.labels ∪
              labelTags (rs.readTags r.labels
              (rs.tmp_vertical_photo.add_input_ids_ rs.input_id)).tag_str_to_id r.labels) := by
          simp only [entryOf]
          rw [hin, htags, labelTags_extends _ _ _ (h.covers _ (mem_verticals_record h1)) hext]
          simp only [Photo.add_input_ids_, h2, h3, h.input_id, List.singleton_append]
        rw [e]
        have hp := h.entries
        rw [← hme] at hp
        unfold mergedEntries at hp
        refine (List.Perm.cons _ hp).trans ?_
        rw [← List.append_assoc]
        exact (List.perm_append_singleton _ _).symm
      · simp only [read_input_step, hH, if_false, hr, if_true, verticals_append,
          List.length_append, List.length_singleton]
        constructor
        · intro hf; cases hf
        · intro h'; omega
      · simp only [read_input_step, hH, if_false, hr, if_true]
        intro hf; cases hf
    · have hr' : rs.vertical_ready_to_merge = false := by simpa using hr
      have he := hOK.tmp_idle hr'
      obtain ⟨hid, hin, htags, hext, hcov⟩ := readTags_facts rs r.labels
        ((rs.tmp_vertical_photo.set_id rs.id_after_merge).add_input_ids_ rs.input_id)
      have hme := mergedEntries_extends _ _ pre h.covers hext
      have heven : (verticals pre).length % 2 = 0 := by
        have := h.ready_iff
        rw [hr'] at this
        simp only [Bool.false_eq_true, false_iff] at this
        omega
      constructor
      · simp only [read_input_step, hH, if_false, hr', Bool.false_eq_true,
          List.length_append, List.length_singleton, h.input_id]
      · simp only [read_input_step, hH, if_false, hr', Bool.false_eq_true]
        exact covers_append h.covers hext hcov
      · simp only [read_input_step, hH, if_false, hr', Bool.false_eq_true]
        have hp := h.entries
        rw [← hme] at hp
        unfold mergedEntries at hp ⊢
        rw [horizontals_append, verticals_append]
        simp only [hH, if_false, List.append_nil]
        rw [pairUp_append_even _ _ heven]
        exact hp
      · simp only [read_input_step, hH, if_false, hr', Bool.false_eq_true, verticals_append,
          List.length_append, List.length_singleton, true_iff]
        omega
      · simp only [read_input_step, hH, if_false, hr', Bool.false_eq_true, verticals_append]
        intro _
        refine ⟨(pre.length, r), by simp, ?_, ?_⟩
        · rw [hin]
          simp only [he, Photo.empty, Photo.set_id, Photo.add_input_ids_, List.nil_append,
            h.input_id]
        · rw [htags]
          simp only [he, Photo.empty, Photo.set_id, Photo.add_input_ids_,
            List.toFinset_nil, Finset.empty_union]

theorem read_input_append (pre : List Record) (r : Record) :
    read_input (pre ++ [r]) = read_input_step (read_input pre) r := by
  simp [read_input, List.foldl_append]

theorem ReadSpec.spec_of_read_input (records : List Record) : ReadSpec records (read_input records) := by
  induction records using List.reverseRecOn with
  | nil => exact ReadSpec.spec_at_init
  | append_singleton pre r ih =>
    rw [read_input_append]
    exact ih.spec_after_step (ReadOK.of_read_input pre) r

theorem pairUp_split {α : Type} :
    ∀ l : List α, ∃ rest, l = (pairUp l).flatMap (fun p => [p.1, p.2]) ++ rest ∧
      rest.length = l.length % 2
  | [] => ⟨[], rfl, rfl⟩
  | [a] => ⟨[a], rfl, rfl⟩
  | a :: b :: l => by
    obtain ⟨rest, h1, h2⟩ := pairUp_split l
    refine ⟨rest, ?_, ?_⟩
    · show a :: b :: l = [a, b] ++ (pairUp l).flatMap (fun p => [p.1, p.2]) ++ rest
      rw [List.append_assoc, ← h1]
      rfl
    · simp only [List.length_cons]
      omega

theorem pairUp_pairwise {α : Type} (R : α → α → Prop) :
    ∀ l : List α, l.Pairwise R → ∀ p ∈ pairUp l, R p.1 p.2
  | [], _, p, hp => by simp [pairUp] at hp
  | [a], _, p, hp => by simp [pairUp] at hp
  | a :: b :: l, h, p, hp => by
    simp only [pairUp, List.mem_cons] at hp
    rcases hp with rfl | hp
    · exact (List.pairwise_cons.1 h).1 b (List.mem_cons_self _ _)
    · exact pairUp_pairwise R l (List.pairwise_cons.1 (List.pairwise_cons.1 h).2).2 p hp

theorem enum_pairwise (records : List Record) :
    records.enum.Pairwise (fun a b => a.1 < b.1) := by
  have h : (records.enum.map Prod.fst).Pairwise (· < ·) := by
    rw [List.enum_map_fst]
    exact List.pairwise_lt_range _
  exact (List.pairwise_map.1 h)

theorem verticals_pairwise (records : List Record) :
    (verticals records).Pairwise (fun a b => a.1 < b.1) :=
  (enum_pairwise records).sublist (List.filter_sublist _)

/-- The source indices of the Entries of the specification, entry after entry. -/
theorem mergedEntries_sources (m : List (String × Nat)) (records : List Record) :
    (mergedEntries m records).flatMap (fun e => e.1) =
      (horizontals records).map Prod.fst ++
        ((pairUp (verticals records)).flatMap (fun p => [p.1, p.2])).map Prod.fst := by
  unfold mergedEntries
  rw [List.flatMap_append]
  congr 1
  · generalize horizontals records = hs
    induction hs with
    | nil => rfl
    | cons a hs ih => simp [List.flatMap_cons, ih]
  · generalize pairUp (verticals records) = ps
    induction ps with
    | nil => rfl
    | cons a ps ih => simp [List.flatMap_cons, ih]

theorem sources_nodup (records : List Record) :
    ∃ rest, verticals records =
        (pairUp (verticals records)).flatMap (fun p => [p.1, p.2]) ++ rest ∧
      rest.length = (verticals records).length % 2 ∧
      ((horizontals records).map Prod.fst ++
        (((pairUp (verticals records)).flatMap (fun p => [p.1, p.2])).map Prod.fst ++
          rest.map Prod.fst)).Nodup := by
  obtain ⟨rest, h1, h2⟩ := pairUp_split (verticals records)
  refine ⟨rest, h1, h2, ?_⟩
  rw [← List.map_append, ← h1, ← List.map_append]
  have hp : (horizontals records ++ verticals records).Perm records.enum :=
    List.filter_append_perm _ _
  refine (hp.map Prod.fst).nodup_iff.2 ?_
  rw [List.enum_map_fst]
  exact List.nodup_range _

theorem catalog_sources_perm (records : List Record) :
    ((read_input records).input_photos.flatMap (fun kv => kv.2.input_ids)).Perm
      ((horizontals records).map Prod.fst ++
        ((pairUp (verticals records)).flatMap (fun p => [p.1, p.2])).map Prod.fst) := by
  have hp := (ReadSpec.spec_of_read_input records).entries
  rw [← mergedEntries_sources (read_input records).tag_str_to_id records]
  have e : (read_input records).input_photos.flatMap (fun kv => kv.2.input_ids) =
      ((read_input records).input_photos.map entryOf).flatMap (fun e => e.1) := by
    generalize (read_input records).input_photos = ip
    induction ip with
    | nil => rfl
    | cons a ip ih => simp [List.flatMap_cons, ih, entryOf]
  rw [e]
  exact hp.flatMap_right _

/-! ## `read_input`: ids and first source indices -/

theorem ReadOrder.order_at_init : ReadOrder ReadState.init := by
  constructor <;> simp [ReadState.init, mapFind]

theorem firstSource_append (p : Photo) (n : Nat) (h : p.input_ids ≠ []) :
    firstSource (p.add_input_ids_ n) = firstSource p := by
  unfold firstSource Photo.add_input_ids_
  obtain ⟨a, l, hl⟩ := List.exists_cons_of_ne_nil h
  simp [hl]

theorem ReadOrder.order_after_step {rs : ReadState} (hOK : ReadOK rs) (h : ReadOrder rs) (r : Record) :
    ReadOrder (read_input_step rs r) := by
  by_cases hH : r.orientation = 'H'
  · obtain ⟨hid, hin, -, -, -⟩ := readTags_facts rs r.labels
      ((Photo.empty.set_id rs.id_after_merge).add_input_ids_ rs.input_id)
    have hfirst : firstSource (rs.readTags r.labels
        ((Photo.empty.set_id rs.id_after_merge).add_input_ids_ rs.input_id)).photo =
        rs.input_id := by
      unfold firstSource; rw [hin]; rfl
    have hne : (rs.readTags r.labels
        ((Photo.empty.set_id rs.id_after_merge).add_input_ids_ rs.input_id)).photo.input_ids
        ≠ [] := by
      rw [hin]; simp [Photo.add_input_ids_]
    have hid' : (rs.readTags r.labels
        ((Photo.empty.set_id rs.id_after_merge).add_input_ids_ rs.input_id)).photo.id =
        rs.id_after_merge := hid
    have hiff := mapFind_mapEmplace_iff rs.input_photos _
      (rs.readTags r.labels
        ((Photo.empty.set_id rs.id_after_merge).add_input_ids_ rs.input_id)).photo
      (hid' ▸ hOK.fresh)
    constructor
    · intro k p hp
      simp only [read_input_step, hH, if_true] at hp ⊢
      rcases (hiff k p).1 hp with ⟨-, rfl⟩ | hp
      · exact ⟨hne, by rw [hfirst]; omega⟩
      · have := h.cat_first k p hp
        exact ⟨this.1, by omega⟩
    · intro hr
      simp only [read_input_step, hH, if_true] at hr ⊢
      have := h.tmp_first hr
      exact ⟨this.1, by omega⟩
    · intro k p k' p' hp hp' hlt
      simp only [read_input_step, hH, if_true] at hp hp'
      rcases (hiff k p).1 hp with ⟨rfl, rfl⟩ | hp
      · rcases (hiff k' p').1 hp' with ⟨rfl, rfl⟩ | hp'
        · omega
        · have := hOK.keys_lt k' p' hp'
          rw [hid'] at hlt; omega
      · rcases (hiff k' p').1 hp' with ⟨rfl, rfl⟩ | hp'
        · rw [hfirst]; exact (h.cat_first k p hp).2
        · exact h.mono k p k' p' hp hp' hlt
    · intro hr k p hp
      simp only [read_input_step, hH, if_true] at hr hp ⊢
      rcases (hiff k p).1 hp with ⟨rfl, rfl⟩ | hp
      · rw [hfirst, hid']
        have := hOK.tmp_lt hr
        exact ⟨fun _ => (h.tmp_first hr).2, fun hlt => by omega⟩
      · exact h.mono_tmp hr k p hp
  · by_cases hr : rs.vertical_ready_to_merge = true
    · obtain ⟨hid, hin, -, -, -⟩ := readTags_facts rs r.labels
        (rs.tmp_vertical_photo.add_input_ids_ rs.input_id)
      have htf := h.tmp_first hr
      have hfirst : firstSource (rs.readTags r.labels
          (rs.tmp_vertical_photo.add_input_ids_ rs.input_id)).photo =
          firstSource rs.tmp_vertical_photo := by
        have := firstSource_append rs.tmp_vertical_photo rs.input_id htf.1
        unfold firstSource at this ⊢
        rw [hin]; exact this
      have hne : (rs.readTags r.labels
          (rs.tmp_vertical_photo.add_input_ids_ rs.input_id)).photo.input_ids ≠ [] := by
        rw [hin]; simp [Photo.add_input_ids_]
      have hid' : (rs.readTags r.labels
          (rs.tmp_vertical_photo.add_input_ids_ rs.input_id)).photo.id =
          rs.tmp_vertical_photo.id := hid
      have hiff := mapFind_mapEmplace_iff rs.input_photos _
        (rs.readTags r.labels (rs.tmp_vertical_photo.add_input_ids_ rs.input_id)).photo
        (hid' ▸ hOK.tmp_fresh hr)
      constructor
      · intro k p hp
        simp only [read_input_step, hH, if_false, hr, if_true] at hp ⊢
        rcases (hiff k p).1 hp with ⟨-, rfl⟩ | hp
        · exact ⟨hne, by rw [hfirst]; omega⟩
        · have := h.cat_first k p hp
          exact ⟨this.1, by omega⟩
      · intro hr'
        simp only [read_input_step, hH, if_false, hr, if_true] at hr'
        cases hr'
      · intro k p k' p' hp hp' hlt
        simp only [read_input_step, hH, if_false, hr, if_true] at hp hp'
        rcases (hiff k p).1 hp with ⟨rfl, rfl⟩ | hp
        · rcases (hiff k' p').1 hp' with ⟨rfl, rfl⟩ | hp'
          · omega
          · rw [hfirst]
            exact (h.mono_tmp hr k' p' hp').1 (hid' ▸ hlt)
        · rcases (hiff k' p').1 hp' with ⟨rfl, rfl⟩ | hp'
          · rw [hfirst]
            exact (h.mono_tmp hr k p hp).2 (hid' ▸ hlt)
          · exact h.mono k p k' p' hp hp' hlt
      · intro hr'
        simp only [read_input_step, hH, if_false, hr, if_true] at hr'
        cases hr'
    · have hr' : rs.vertical_ready_to_merge = false := by simpa using hr
      obtain ⟨hid, hin, -, -, -⟩ := readTags_facts rs r.labels
        ((rs.tmp_vertical_photo.set_id rs.id_after_merge).add_input_ids_ rs.input_id)
      have he := hOK.tmp_idle hr'
      have hfirst : firstSource (rs.readTags r.labels
          ((rs.tmp_vertical_photo.set_id rs.id_after_merge).add_input_ids_
            rs.input_id)).photo = rs.input_id := by
        unfold firstSource; rw [hin, he]; rfl
      have hne : (rs.readTags r.labels
          ((rs.tmp_vertical_photo.set_id rs.id_after_merge).add_input_ids_
            rs.input_id)).photo.input_ids ≠ [] := by
        rw [hin]; simp [Photo.add_input_ids_]
      have hid' : (rs.readTags r.labels
          ((rs.tmp_vertical_photo.set_id rs.id_after_merge).add_input_ids_
            rs.input_id)).photo.id = rs.id_after_merge := hid
      constructor
      · intro k p hp
        simp only [read_input_step, hH, if_false, hr', Bool.false_eq_true] at hp ⊢
        have := h.cat_first k p hp
        exact ⟨this.1, by omega⟩
      · intro _
        simp only [read_input_step, hH, if_false, hr', Bool.false_eq_true]
        exact ⟨hne, by rw [hfirst]; omega⟩
      · intro k p k' p' hp hp' hlt
        simp only [read_input_step, hH, if_false, hr', Bool.false_eq_true] at hp hp'
        exact h.mono k p k' p' hp hp' hlt
      · intro _ k p hp
        simp only [read_input_step, hH, if_false, hr', Bool.false_eq_true] at hp ⊢
        rw [hfirst, hid']
        have := hOK.keys_lt k p hp
        exact ⟨fun hlt => by omega, fun _ => (h.cat_first k p hp).2⟩

theorem ReadOrder.order_of_read_input (records : List Record) : ReadOrder (read_input records) := by
  induction records using List.reverseRecOn with
  | nil => exact ReadOrder.order_at_init
  | append_singleton pre r ih =>
    rw [read_input_append]
    exact ih.order_after_step (ReadOK.of_read_input pre) r

theorem keys_eq_range {β : Type} (m : List (Nat × β)) (n : Nat)
    (hs : (m.map Prod.fst).Sorted (· < ·))
    (hlt : ∀ k v, mapFind m k = some v → k < n)
    (hd : ∀ i, i < n → (mapFind m i).isSome = true) :
    m.map Prod.fst = List.range n := by
  apply List.eq_of_perm_of_sorted (r := (· < ·)) _ hs (List.pairwise_lt_range n)
  apply (List.perm_ext_iff_of_nodup hs.nodup (List.nodup_range n)).2
  intro i
  rw [List.mem_range]
  constructor
  · intro hi
    obtain ⟨kv, hkv, rfl⟩ := List.mem_map.1 hi
    exact hlt kv.1 kv.2 (mapFind_of_mem m kv.1 kv.2 hs.nodup hkv)
  · intro hi
    by_contra hne
    have := (mapFind_eq_none_iff m i).2 hne
    have h2 := hd i hi
    rw [this] at h2
    cases h2

/-! ## The counters of the walker -/

theorem mapSet_absent {β : Type} (m : List (Nat × β)) (k : Nat) (v : β)
    (h : k ∉ m.map Prod.fst) : mapSet m k v = m := by
  induction m with
  | nil => rfl
  | cons kv m ih =>
    obtain ⟨k0, v0⟩ := kv
    simp only [List.map_cons, List.mem_cons, not_or] at h
    rw [mapSet_cons, ih h.2, if_neg (fun e => h.1 e.symm)]

theorem usedIds_mapSet (m : List (Nat × Photo)) (id : Nat) (ph : Photo)
    (hnd : (m.map Prod.fst).Nodup) (hf : mapFind m id = some ph) (hu : ph.used = false) :
    (usedIds (mapSet m id (ph.set_used true))).Perm (id :: usedIds m) ∧
    numUnused (mapSet m id (ph.set_used true)) + 1 = numUnused m := by
  induction m with
  | nil => simp [mapFind] at hf
  | cons kv m ih =>
    obtain ⟨k0, v0⟩ := kv
    simp only [List.map_cons, List.nodup_cons] at hnd
    rw [mapSet_cons]
    simp only [mapFind] at hf
    by_cases hk : k0 = id
    · simp only [hk, if_true, Option.some.injEq] at hf
      subst hf
      subst hk
      rw [mapSet_absent m k0 _ hnd.1]
      simp [usedIds, numUnused, List.filter_cons, hu, Photo.set_used]
    · simp only [hk, if_false] at hf
      obtain ⟨ih1, ih2⟩ := ih hnd.2 hf
      cases hv : v0.used with
      | true =>
        constructor
        · simp only [usedIds, hk, if_false, List.filter_cons, hv, if_true, List.map_cons]
          exact (List.Perm.cons k0 ih1).trans (List.Perm.swap _ _ _)
        · simp only [numUnused, hk, if_false, List.filter_cons, hv, Bool.not_true,
            Bool.false_eq_true]
          exact ih2
      | false =>
        constructor
        · simp only [usedIds, hk, if_false, List.filter_cons, hv, Bool.false_eq_true]
          exact ih1
        · simp only [numUnused, hk, if_false, List.filter_cons, hv, Bool.not_false, if_true,
            List.length_cons]
          have := ih2
          simp only [numUnused] at this
          omega

theorem WalkCount.count_commit {st st' : WalkerState} (hW : WalkOK st) (h : WalkCount st)
    (id : Nat) (ph : Photo) (hf : mapFind st.input_photos id = some ph)
    (hu : ph.used = false) (hc : commit st id ph = .ok st') : WalkCount st' := by
  obtain ⟨t2p, -, rfl⟩ := commit_eq st st' id ph hc
  obtain ⟨h1, h2⟩ := usedIds_mapSet st.input_photos id ph hW.keys_sorted.nodup hf hu
  constructor
  · show ((st.slideshow ++ [Slide.ofPhoto (ph.set_used true)]).map Slide.photo_id).Perm
      (usedIds (mapSet st.input_photos id (ph.set_used true)))
    rw [List.map_append]
    refine List.Perm.trans ?_ h1.symm
    have hid : (Slide.ofPhoto (ph.set_used true)).photo_id = id := hW.id_eq id ph hf
    simp only [List.map_cons, List.map_nil, hid]
    exact (List.perm_append_singleton _ _).trans (List.Perm.cons id h.shown)
  · show st.num_photo_left - 1 = (numUnused (mapSet st.input_photos id (ph.set_used true)) : Int)
    rw [h.left]
    omega

/-- What `insert_next_slide` does when it returns: nothing (a fallback scan that
found no photo), or the commit of a photo of the catalog that was not used. -/
theorem insert_next_slide_commits (S : StdSort) (st st' : WalkerState)
    (h : insert_next_slide S st = .ok st') :
    st' = st ∨ ∃ id ph, mapFind st.input_photos id = some ph ∧ ph.used = false ∧
      commit st id ph = .ok st' := by
  unfold insert_next_slide at h
  simp only at h
  by_cases hb : (build_num_shared_tag st).isEmpty = true
  · simp only [hb, if_true] at h
    rcases fallback_scan_eq st st' _ _ h with ⟨he, -⟩ | ⟨id, ph, -, -, hf, hu, hc, -⟩
    · exact Or.inl he
    · exact Or.inr ⟨id, ph, hf, hu, hc⟩
  · simp only [hb] at h
    cases hc : candidates st.input_photos st.current_slide.tags.length (build_num_shared_tag st) with
    | error e => simp [hc] at h
    | ok cs =>
      simp only [hc] at h
      cases hg : (S.sort cs).getLast? with
      | none => simp [hg] at h
      | some good =>
        simp only [hg] at h
        cases hf : mapFind st.input_photos good.1 with
        | none => simp [hf] at h
        | some ph =>
          simp only [hf] at h
          have hmem : good ∈ cs := (S.perm cs).subset (List.mem_of_getLast?_eq_some hg)
          obtain ⟨kv, hkv, hk1, -⟩ := forall₂_mem_right (candidates_forall₂ _ _ _ _ hc) good hmem
          obtain ⟨ph', hph', hu⟩ := (isLive_iff _ _).1
            (mem_gathered_live _ _ _ _ (build_mem st kv hkv).1)
          rw [← hk1, hf] at hph'
          cases hph'
          exact Or.inr ⟨good.1, ph, hf, hu, h⟩

theorem WalkCount.count_insert_next_slide {S : StdSort} {st st' : WalkerState} (hW : WalkOK st)
    (h : WalkCount st) (hs : insert_next_slide S st = .ok st') : WalkCount st' := by
  rcases insert_next_slide_commits S st st' hs with rfl | ⟨id, ph, hf, hu, hc⟩
  · exact h
  · exact h.count_commit hW id ph hf hu hc

theorem WalkCount.count_seed {rs : ReadState} (h : ReadOK rs) {st : WalkerState}
    (hs : main_seed rs = .ok st) : WalkCount st := by
  unfold main_seed at hs
  cases hip : rs.input_photos with
  | nil => simp [hip] at hs
  | cons kp rest =>
    obtain ⟨k, ph⟩ := kp
    simp only [hip, Except.ok.injEq] at hs
    subst hs
    have hall : ∀ kv ∈ rest, kv.2.used = false := by
      intro kv hkv
      have hnd := h.keys_sorted.nodup
      rw [hip] at hnd
      have hm : (kv.1, kv.2) ∈ rs.input_photos := by rw [hip]; exact List.mem_cons_of_mem _ hkv
      exact h.unused kv.1 kv.2 (mapFind_of_mem _ _ _ (hip ▸ hnd) hm)
    have hk : ph.id = k := h.id_eq k ph (by rw [hip]; simp [mapFind])
    have hf1 : rest.filter (fun kv => kv.2.used) = [] := by
      apply List.filter_eq_nil_iff.2
      intro kv hkv
      simp [hall kv hkv]
    have hf2 : rest.filter (fun kv => !kv.2.used) = rest := by
      apply List.filter_eq_self.2
      intro kv hkv
      simp [hall kv hkv]
    constructor
    · simp [usedIds, List.filter_cons, Photo.set_used, hf1, Slide.ofPhoto, hk]
    · simp [numUnused, List.filter_cons, Photo.set_used, hf2]

theorem Reachable.walkCount {S : StdSort} {records : List Record} {st : WalkerState}
    (h : Reachable S records st) : WalkCount st := by
  induction h with
  | seed hs => exact WalkCount.count_seed (ReadOK.of_read_input records) hs
  | step hr _ hs ih => exact ih.count_insert_next_slide hr.walkOK hs

/-! ## Progress of one step -/

/-- The scored branch of `insert_next_slide` (lines 266-294) in a state that satisfies
the invariant: when a candidate was gathered, the call returns, and what it commits is
the last candidate of the sorted list, whose score no candidate exceeds. -/
theorem scored_step (S : StdSort) (st : WalkerState) (hW : WalkOK st)
    (hne : build_num_shared_tag st ≠ []) :
    ∃ cs good ph st',
      candidates st.input_photos st.current_slide.tags.length
        (build_num_shared_tag st) = .ok cs ∧
      (S.sort cs).getLast? = some good ∧ good ∈ cs ∧ (∀ c ∈ cs, c.2 ≤ good.2) ∧
      mapFind st.input_photos good.1 = some ph ∧ ph.used = false ∧
      commit st good.1 ph = .ok st' ∧ insert_next_slide S st = .ok st' := by
  have hpres : ∀ kv ∈ build_num_shared_tag st, ∃ ph, mapFind st.input_photos kv.1 = some ph := by
    intro kv hkv
    obtain ⟨ph, hph, -⟩ := (isLive_iff _ _).1 (mem_gathered_live _ _ _ _ (build_mem st kv hkv).1)
    exact ⟨ph, hph⟩
  obtain ⟨cs, hcs⟩ := candidates_ok st.input_photos st.current_slide.tags.length _ hpres
  have hF := candidates_forall₂ _ _ _ _ hcs
  have hcs_ne : S.sort cs ≠ [] := by
    intro he
    have h1 : (S.sort cs).length = cs.length := (S.perm cs).length_eq
    have h2 := hF.length_eq
    rw [he] at h1
    have : (build_num_shared_tag st).length = 0 := by simpa [← h1] using h2
    exact hne (List.length_eq_zero.1 this)
  obtain ⟨good, hgood⟩ : ∃ good, (S.sort cs).getLast? = some good := by
    cases hl : (S.sort cs).getLast? with
    | none => exact absurd (List.getLast?_eq_none_iff.1 hl) hcs_ne
    | some g => exact ⟨g, rfl⟩
  have hmem : good ∈ cs := (S.perm cs).subset (List.mem_of_getLast?_eq_some hgood)
  obtain ⟨kv, hkv, hk1, -⟩ := forall₂_mem_right hF good hmem
  obtain ⟨ph, hph, hu⟩ := (isLive_iff _ _).1 (mem_gathered_live _ _ _ _ (build_mem st kv hkv).1)
  have hph' : mapFind st.input_photos good.1 = some ph := by rw [hk1]; exact hph
  obtain ⟨st', hst'⟩ := commit_ok st good.1 ph (hW.tag_has_set _ _ hph')
  have hstep : insert_next_slide S st = .ok st' := by
    unfold insert_next_slide
    have hb : (build_num_shared_tag st).isEmpty = false := by
      cases hbb : build_num_shared_tag st with
      | nil => exact absurd hbb hne
      | cons _ _ => rfl
    simp only [hb, Bool.false_eq_true, if_false, hcs, hgood, hph', hst']
  exact ⟨cs, good, ph, st', hcs, hgood, hmem,
    fun c hc => getLast?_max (S.sorted cs) hgood c ((S.perm cs).symm.subset hc),
    hph', hu, hst', hstep⟩

theorem dense_find {ip : List (Nat × Photo)} (hd : DenseIds ip) (j : Nat) (hj : j < ip.length) :
    ∃ q, mapFind ip j = some q := by
  cases hf : mapFind ip j with
  | some q => exact ⟨q, rfl⟩
  | none =>
    have := (mapFind_eq_none_iff ip j).1 hf
    rw [hd] at this
    exact absurd (List.mem_range.2 hj) this

theorem dense_key_lt {ip : List (Nat × Photo)} (hd : DenseIds ip) (j : Nat) (q : Photo)
    (hf : mapFind ip j = some q) : j < ip.length := by
  have : j ∈ ip.map Prod.fst := List.mem_map.2 ⟨(j, q), mem_of_mapFind ip j q hf, rfl⟩
  rw [hd] at this
  exact List.mem_range.1 this

theorem exists_unused {ip : List (Nat × Photo)} (hnd : (ip.map Prod.fst).Nodup)
    (h : 0 < numUnused ip) : ∃ j q, mapFind ip j = some q ∧ q.used = false := by
  unfold numUnused at h
  obtain ⟨kv, hkv⟩ := List.exists_mem_of_length_pos h
  obtain ⟨hm, hu⟩ := List.mem_filter.1 hkv
  exact ⟨kv.1, kv.2, mapFind_of_mem ip kv.1 kv.2 hnd hm, by simpa using hu⟩

/-- The fallback loop on a stretch of ids that all name photos, one of them unused: it
commits the first unused one. -/
theorem fallback_scan_first_unused (st : WalkerState) (n id : Nat)
    (hall : ∀ j, id ≤ j → j < id + n → ∃ q, mapFind st.input_photos j = some q)
    (hex : ∃ j q, id ≤ j ∧ j < id + n ∧ mapFind st.input_photos j = some q ∧ q.used = false) :
    ∃ j ph, id ≤ j ∧ j < id + n ∧ mapFind st.input_photos j = some ph ∧ ph.used = false ∧
      (∀ i q, mapFind st.input_photos i = some q → q.used = false → id ≤ i → j ≤ i) ∧
      fallback_scan st n id = commit st j ph := by
  induction n generalizing id with
  | zero =>
    obtain ⟨j, q, h1, h2, -⟩ := hex
    omega
  | succ n ih =>
    obtain ⟨ph, hph⟩ := hall id (le_refl _) (by omega)
    cases hu : ph.used with
    | false =>
      refine ⟨id, ph, le_refl _, by omega, hph, hu, fun i q _ _ hi => hi, ?_⟩
      simp only [fallback_scan, hph, hu, Bool.not_false, if_true]
    | true =>
      obtain ⟨j, ph', h1, h2, h3, h4, h5, h6⟩ := ih (id + 1)
        (fun j hj1 hj2 => hall j (by omega) (by omega))
        (by
          obtain ⟨j, q, hj1, hj2, hj3, hj4⟩ := hex
          refine ⟨j, q, ?_, by omega, hj3, hj4⟩
          by_contra hlt
          have : j = id := by omega
          subst this
          rw [hph] at hj3
          cases hj3
          rw [hu] at hj4
          cases hj4)
      refine ⟨j, ph', by omega, by omega, h3, h4, ?_, ?_⟩
      · intro i q hi hq hle
        by_cases he : i = id
        · subst he
          rw [hph] at hi
          cases hi
          rw [hu] at hq
          cases hq
        · exact h5 i q hi hq (by omega)
      · simp only [fallback_scan, hph, hu, Bool.not_true, Bool.false_eq_true, if_false]
        exact h6

/-- One turn of the walker loop when the ids of the catalog are 0, ..., n-1: in a state
with the invariants and a photo left, `insert_next_slide` returns and what it does is
the commit of a photo that was not used; when no candidate was gathered, that photo is
the unused photo with the smallest id. -/
theorem step_commits (S : StdSort) (st : WalkerState) (hW : WalkOK st) (hC : WalkCount st)
    (hd : DenseIds st.input_photos) (hleft : st.num_photo_left ≠ 0) :
    ∃ id ph st', mapFind st.input_photos id = some ph ∧ ph.used = false ∧
      commit st id ph = .ok st' ∧ insert_next_slide S st = .ok st' ∧
      (build_num_shared_tag st = [] →
        ∀ i q, mapFind st.input_photos i = some q → q.used = false → id ≤ i) := by
  by_cases hb : build_num_shared_tag st = []
  · have hpos : 0 < numUnused st.input_photos := by
      have := hC.left
      omega
    obtain ⟨j0, q0, hj0, hq0⟩ := exists_unused hW.keys_sorted.nodup hpos
    obtain ⟨j, ph, -, -, h3, h4, h5, h6⟩ := fallback_scan_first_unused st
      st.input_photos.length 0
      (fun j _ hj => dense_find hd j (by omega))
      ⟨j0, q0, Nat.zero_le _, by have := dense_key_lt hd j0 q0 hj0; omega, hj0, hq0⟩
    obtain ⟨st', hst'⟩ := commit_ok st j ph (hW.tag_has_set _ _ h3)
    refine ⟨j, ph, st', h3, h4, hst', ?_, fun _ i q hi hq => h5 i q hi hq (Nat.zero_le _)⟩
    unfold insert_next_slide
    simp only [hb, List.isEmpty_nil, if_true, h6, hst']
  · obtain ⟨cs, good, ph, st', -, -, -, -, h1, h2, h3, h4⟩ := scored_step S st hW hb
    exact ⟨good.1, ph, st', h1, h2, h3, h4, fun h => absurd h hb⟩

/-! ## The walker loop -/

theorem commit_keys (st st' : WalkerState) (id : Nat) (ph : Photo)
    (hc : commit st id ph = .ok st') :
    st'.input_photos.map Prod.fst = st.input_photos.map Prod.fst ∧
    st'.input_photos.length = st.input_photos.length ∧
    st'.num_photo_left = st.num_photo_left - 1 ∧
    st'.slideshow = st.slideshow ++ [Slide.ofPhoto (ph.set_used true)] := by
  obtain ⟨t2p, -, rfl⟩ := commit_eq st st' id ph hc
  exact ⟨keys_mapSet _ _ _, length_mapSet _ _ _, rfl, rfl⟩

theorem insert_next_slide_keys (S : StdSort) (st st' : WalkerState)
    (h : insert_next_slide S st = .ok st') :
    st'.input_photos.map Prod.fst = st.input_photos.map Prod.fst := by
  rcases insert_next_slide_eq S st st' h with rfl | ⟨id, ph, -, hc⟩
  · rfl
  · exact (commit_keys st st' id ph hc).1

theorem main_seed_keys (rs : ReadState) (st : WalkerState) (h : main_seed rs = .ok st) :
    st.input_photos.map Prod.fst = rs.input_photos.map Prod.fst := by
  unfold main_seed at h
  cases hip : rs.input_photos with
  | nil => simp [hip] at h
  | cons kp rest =>
    obtain ⟨k, ph⟩ := kp
    simp only [hip, Except.ok.injEq] at h
    subst h
    rfl

theorem Reachable.keys {S : StdSort} {records : List Record} {st : WalkerState}
    (h : Reachable S records st) :
    st.input_photos.map Prod.fst = (read_input records).input_photos.map Prod.fst := by
  induction h with
  | seed hs => exact main_seed_keys _ _ hs
  | step _ _ hs ih => rw [insert_next_slide_keys _ _ _ hs, ih]

theorem usedIds_of_numUnused_zero (ip : List (Nat × Photo)) (h : numUnused ip = 0) :
    usedIds ip = ip.map Prod.fst := by
  unfold numUnused at h
  unfold usedIds
  have hnil := List.length_eq_zero.1 h
  rw [List.filter_eq_nil_iff] at hnil
  congr 1
  apply List.filter_eq_self.2
  intro kv hkv
  have := hnil kv hkv
  simpa using this

/-- When the walker loop has stopped in a state it can reach, the slideshow holds every
id of the catalog exactly once. -/
theorem slideshow_perm_of_done {S : StdSort} {records : List Record} {st : WalkerState}
    (h : Reachable S records st) (hdone : st.num_photo_left = 0) :
    (st.slideshow.map Slide.photo_id).Perm ((read_input records).input_photos.map Prod.fst) := by
  have hC := h.walkCount
  have h0 : numUnused st.input_photos = 0 := by
    have := hC.left
    omega
  rw [← h.keys, ← usedIds_of_numUnused_zero _ h0]
  exact hC.shown

/-- The walker loop returns only states the walker can reach in which no photo is
left. -/
theorem walker_loop_reaches (S : StdSort) (records : List Record) (fuel : Nat)
    (st st' : WalkerState) (h : Reachable S records st)
    (hl : walker_loop S fuel st = .ok st') :
    Reachable S records st' ∧ st'.num_photo_left = 0 := by
  induction fuel generalizing st with
  | zero =>
    simp only [walker_loop] at hl
    by_cases h0 : st.num_photo_left = 0
    · simp only [h0, if_true, Except.ok.injEq] at hl
      subst hl
      exact ⟨h, h0⟩
    · simp [h0] at hl
  | succ fuel ih =>
    simp only [walker_loop] at hl
    by_cases h0 : st.num_photo_left = 0
    · simp only [h0, if_true, Except.ok.injEq] at hl
      subst hl
      exact ⟨h, h0⟩
    · simp only [h0, if_false] at hl
      cases hs : insert_next_slide S st with
      | error e => simp [hs] at hl
      | ok st1 =>
        simp only [hs] at hl
        exact ih st1 (Reachable.step h h0 hs) hl

/-- Partial correctness of the walker on every input: if the loop of `main` finishes,
the slideshow is a permutation of the ids of the catalog. -/
theorem main_walk_perm (S : StdSort) (fuel : Nat) (records : List Record) (st : WalkerState)
    (h : main_walk S fuel records = .ok st) :
    st.num_photo_left = 0 ∧
    (st.slideshow.map Slide.photo_id).Perm ((read_input records).input_photos.map Prod.fst) := by
  unfold main_walk at h
  cases hs : main_seed (read_input records) with
  | error e => simp [hs] at h
  | ok st0 =>
    simp only [hs] at h
    obtain ⟨hr, h0⟩ := walker_loop_reaches S records fuel st0 st (Reachable.seed hs) h
    exact ⟨h0, slideshow_perm_of_done hr h0⟩

/-- Termination of the walker loop when the ids of the catalog are 0, ..., n-1: from a
state the walker can reach with `k` photos left, the loop finishes after exactly `k`
calls of `insert_next_slide`: `k` turns of fuel are enough and fewer are not, and each
call appends one slide. -/
theorem walker_loop_terminates (S : StdSort) (records : List Record) (k : Nat) :
    ∀ (st : WalkerState), Reachable S records st → DenseIds st.input_photos →
      st.num_photo_left = (k : Int) →
      (∀ fuel, k ≤ fuel → ∃ st', walker_loop S fuel st = .ok st' ∧
        Reachable S records st' ∧ st'.num_photo_left = 0 ∧
        st'.slideshow.length = st.slideshow.length + k) ∧
      (∀ fuel, fuel < k → walker_loop S fuel st = .error .outOfFuel) := by
  induction k with
  | zero =>
    intro st hr _ hk
    have h0 : st.num_photo_left = 0 := by simpa using hk
    refine ⟨fun fuel _ => ⟨st, ?_, hr, h0, rfl⟩, fun fuel hf => by omega⟩
    cases fuel <;> simp [walker_loop, h0]
  | succ k ih =>
    intro st hr hd hk
    have hne : st.num_photo_left ≠ 0 := by rw [hk]; omega
    obtain ⟨id, ph, st1, -, -, hc, hs, -⟩ := step_commits S st hr.walkOK hr.walkCount hd hne
    obtain ⟨hkeys, hlen, hleft, hshow⟩ := commit_keys st st1 id ph hc
    have hr1 : Reachable S records st1 := Reachable.step hr hne hs
    have hd1 : DenseIds st1.input_photos := by
      unfold DenseIds at hd ⊢
      rw [hkeys, hlen]; exact hd
    have hk1 : st1.num_photo_left = (k : Int) := by rw [hleft, hk]; push_cast; omega
    obtain ⟨ih1, ih2⟩ := ih st1 hr1 hd1 hk1
    constructor
    · intro fuel hf
      obtain ⟨f, rfl⟩ : ∃ f, fuel = f + 1 := ⟨fuel - 1, by omega⟩
      obtain ⟨st', h1, h2, h3, h4⟩ := ih1 f (by omega)
      refine ⟨st', ?_, h2, h3, ?_⟩
      · simp only [walker_loop, hne, if_false, hs, h1]
      · rw [h4, hshow, List.length_append, List.length_singleton]; omega
    · intro fuel hf
      cases fuel with
      | zero => simp only [walker_loop, hne, if_false]
      | succ f =>
        simp only [walker_loop, hne, if_false, hs]
        exact ih2 f (by omega)

/-- When every vertical record is paired, the ids of the catalog are 0, ..., n-1. -/
theorem denseIds_of_paired (records : List Record) (heven : (verticals records).length % 2 = 0) :
    DenseIds (read_input records).input_photos := by
  have hOK := ReadOK.of_read_input records
  have hSp := ReadSpec.spec_of_read_input records
  have hr : (read_input records).vertical_ready_to_merge = false := by
    cases hb : (read_input records).vertical_ready_to_merge with
    | false => rfl
    | true => have := hSp.ready_iff.1 hb; omega
  have hkeys := keys_eq_range (read_input records).input_photos
    (read_input records).id_after_merge hOK.keys_sorted hOK.keys_lt (fun i hi => by
      rcases hOK.dense i hi with h | ⟨h, -⟩
      · exact h
      · rw [hr] at h; cases h)
  have hlen : (read_input records).input_photos.length =
      (read_input records).id_after_merge := by
    have := congrArg List.length hkeys
    simpa using this
  unfold DenseIds
  rw [hlen]
  exact hkeys

theorem main_seed_ok (rs : ReadState) (hne : rs.input_photos ≠ []) :
    ∃ st, main_seed rs = .ok st ∧ st.num_photo_left = (rs.input_photos.length : Int) - 1 ∧
      st.slideshow.length = 1 ∧ st.input_photos.length = rs.input_photos.length := by
  unfold main_seed
  cases hip : rs.input_photos with
  | nil => exact absurd hip hne
  | cons kp rest =>
    obtain ⟨k, ph⟩ := kp
    exact ⟨_, rfl, by simp, rfl, rfl⟩

/-- Total correctness of the walker when the ids of the catalog are 0, ..., n-1 and the
catalog is not empty: the loop of `main` finishes after exactly n-1 calls of
`insert_next_slide` (n-1 turns of fuel are enough, fewer are not), no photo is left, and
the slideshow holds every id of the catalog exactly once. -/
theorem main_walk_of_dense (S : StdSort) (records : List Record)
    (hne : (read_input records).input_photos ≠ [])
    (hd : DenseIds (read_input records).input_photos) :
    (∀ fuel, (read_input records).input_photos.length - 1 ≤ fuel →
      ∃ st, main_walk S fuel records = .ok st ∧ st.num_photo_left = 0 ∧
        (st.slideshow.map Slide.photo_id).Perm
          ((read_input records).input_photos.map Prod.fst) ∧
        st.slideshow.length = (read_input records).input_photos.length) ∧
    (∀ fuel, fuel < (read_input records).input_photos.length - 1 →
      main_walk S fuel records = .error .outOfFuel) := by
  obtain ⟨st0, hs, hleft, hshow, hlen⟩ := main_seed_ok (read_input records) hne
  have hr0 : Reachable S records st0 := Reachable.seed hs
  have hpos : 0 < (read_input records).input_photos.length :=
    List.length_pos.2 hne
  have hd0 : DenseIds st0.input_photos := by
    unfold DenseIds at hd ⊢
    rw [hr0.keys, hlen]; exact hd
  have hk : st0.num_photo_left = (((read_input records).input_photos.length - 1 : Nat) : Int) := by
    rw [hleft]; omega
  obtain ⟨h1, h2⟩ := walker_loop_terminates S records _ st0 hr0 hd0 hk
  constructor
  · intro fuel hf
    obtain ⟨st, hl, hr, h0, hlen'⟩ := h1 fuel hf
    refine ⟨st, ?_, h0, slideshow_perm_of_done hr h0, ?_⟩
    · simp only [main_walk, hs, hl]
    · rw [hlen', hshow]; omega
  · intro fuel hf
    simp only [main_walk, hs]
    exact h2 fuel hf

/-- The hypothesis on the ids cannot be dropped from `main_walk_of_dense`: on `gapInput`
the catalog holds the two photos 1 and 2 (id 0 went to the vertical photo that was
dropped), the first step of the walker loop dereferences `end()`, and the loop finishes
for no amount of fuel. -/
theorem walk_faults_on_gapInput :
    (read_input gapInput).input_photos.map Prod.fst = [1, 2] ∧
    (∀ (S : StdSort) (fuel : Nat), main_walk S (fuel + 1) gapInput = .error .endDeref) ∧
    ∀ (S : StdSort) (fuel : Nat) (st : WalkerState), main_walk S fuel gapInput ≠ .ok st := by
  refine ⟨rfl, fun S fuel => rfl, fun S fuel st => ?_⟩
  cases fuel with
  | zero => intro h; cases h
  | succ n => intro h; cases h

/-! ## `write_output` -/

theorem filterMap_find_keys (cat : List (Nat × Photo)) (hnd : (cat.map Prod.fst).Nodup) :
    (cat.map Prod.fst).filterMap (fun k => (mapFind cat k).map Photo.input_ids) =
      cat.map (fun kv => kv.2.input_ids) := by
  rw [List.filterMap_map]
  have : ∀ kv ∈ cat, ((fun k => (mapFind cat k).map Photo.input_ids) ∘ Prod.fst) kv =
      some kv.2.input_ids := by
    intro kv hkv
    simp [mapFind_of_mem cat kv.1 kv.2 hnd hkv]
  rw [List.filterMap_congr this]
  exact congrFun (List.filterMap_eq_map (fun kv : Nat × Photo => kv.2.input_ids)) cat

/-! ## The name of the output file -/

theorem find_last_of_from_none (c : Char) (l : List Char) (i : Nat) (found : Option Nat) :
    find_last_of_from c l i found = none ↔ found = none ∧ c ∉ l := by
  induction l generalizing i found with
  | nil => simp [find_last_of_from]
  | cons x xs ih =>
    simp only [find_last_of_from, ih, List.mem_cons, not_or]
    by_cases hx : x = c
    · subst hx; simp
    · simp only [hx, if_false]
      constructor
      · rintro ⟨h1, h2⟩; exact ⟨h1, fun h => hx h.symm, h2⟩
      · rintro ⟨h1, -, h2⟩; exact ⟨h1, h2⟩

theorem find_last_of_from_lt (c : Char) (l : List Char) (i : Nat) (found : Option Nat) (p : Nat)
    (hf : ∀ q, found = some q → q < i)
    (h : find_last_of_from c l i found = some p) : p < i + l.length := by
  induction l generalizing i found with
  | nil =>
    simp only [find_last_of_from] at h
    have := hf p h
    simpa using this
  | cons x xs ih =>
    simp only [find_last_of_from] at h
    have := ih (i + 1) _ (fun q hq => by
      by_cases hx : x = c
      · simp only [hx, if_true, Option.some.injEq] at hq; omega
      · simp only [hx, if_false] at hq; have := hf q hq; omega) h
    simp only [List.length_cons]; omega

theorem substr_ok (s : String) (pos : Nat) (count : Option Nat) (h : pos ≤ s.length) :
    ∃ r, substr s pos count = .ok r := by
  unfold substr
  rw [if_neg (by omega)]
  cases count with
  | none => exact ⟨_, rfl⟩
  | some n => exact ⟨_, rfl⟩

/-- Lines 318-320 give a name exactly when `argv[1]` holds a backslash, and throw
`std::out_of_range` otherwise. -/
theorem output_filename_throws_iff (argv1 : String) :
    (output_filename argv1 = .error .outOfRange ↔ Char.ofNat 92 ∉ argv1.data) ∧
    ((∃ name, output_filename argv1 = .ok name) ↔ Char.ofNat 92 ∈ argv1.data) := by
  unfold output_filename
  cases hf : find_last_of argv1 (Char.ofNat 92) with
  | none =>
    have hn := ((find_last_of_from_none _ _ _ _).1 hf).2
    exact ⟨⟨fun _ => hn, fun _ => rfl⟩, ⟨fun h => (by obtain ⟨n, h⟩ := h; cases h),
      fun h => absurd h hn⟩⟩
  | some p =>
    have hmem : Char.ofNat 92 ∈ argv1.data := by
      by_contra hc
      have := (find_last_of_from_none (Char.ofNat 92) argv1.data 0 none).2 ⟨rfl, hc⟩
      unfold find_last_of at hf
      rw [this] at hf; cases hf
    have hlt : p < argv1.length := by
      have h := find_last_of_from_lt _ _ 0 none p (fun q hq => by cases hq) hf
      rw [Nat.zero_add] at h
      exact h
    obtain ⟨tail, ht⟩ := substr_ok argv1 p (some (argv1.length - 1)) (by omega)
    obtain ⟨stem, hs⟩ := substr_ok ("..\\output" ++ tail) 0
      (find_last_of ("..\\output" ++ tail) '.') (Nat.zero_le _)
    simp only [ht, hs]
    exact ⟨⟨fun h => (by cases h), fun h => absurd hmem h⟩, ⟨fun _ => hmem, fun _ => ⟨_, rfl⟩⟩⟩

/-- The name of the output file on five arguments: a path with backslashes, a path whose
file name has no dot (the name is cut at the second of the two leading dots), and three
arguments without a backslash. -/
theorem output_filename_examples :
    output_filename "..\\input\\a_example.txt" = .ok "..\\output\\a_example_submission.txt" ∧
    output_filename "c:\\photos\\b" = .ok "._submission.txt" ∧
    output_filename "../input/a_example.txt" = .error .outOfRange ∧
    output_filename "a_example.txt" = .error .outOfRange ∧
    output_filename "" = .error .outOfRange :=
  ⟨rfl, rfl, rfl, rfl, rfl⟩

/-! ## The output of `main` -/

/-- The output file, whenever `main` writes one: its name is the one lines 318-320
compute, the count is the number of Entries and the indices of the lines, one after the
other, are the index of every horizontal record and of every paired vertical record,
each once. -/
theorem main_output_sources (S : StdSort) (fuel : Nat) (argv1 : String)
    (records : List Record) (out : String × Nat × List (List Nat))
    (h : main S fuel argv1 records = .ok out) :
    output_filename argv1 = .ok out.1 ∧
    out.2.1 = (read_input records).input_photos.length ∧
    out.2.2.flatten.Perm ((horizontals records).map Prod.fst ++
      ((pairUp (verticals records)).flatMap (fun p => [p.1, p.2])).map Prod.fst) := by
  unfold main at h
  cases hw : main_walk S fuel records with
  | error e => simp [hw] at h
  | ok st =>
   cases hn : output_filename argv1 with
   | error e => simp [hw, hn] at h
   | ok name =>
    simp only [hw, hn, Except.ok.injEq] at h
    subst h
    obtain ⟨-, hperm⟩ := main_walk_perm S fuel records st hw
    refine ⟨rfl, ?_⟩
    constructor
    · show st.slideshow.length = _
      have := hperm.length_eq
      simpa using this
    · show (st.slideshow.filterMap (fun sl =>
        (mapFind (read_input records).input_photos sl.photo_id).map Photo.input_ids)).flatten.Perm _
      have e : st.slideshow.filterMap (fun sl =>
          (mapFind (read_input records).input_photos sl.photo_id).map Photo.input_ids) =
          (st.slideshow.map Slide.photo_id).filterMap
            (fun k => (mapFind (read_input records).input_photos k).map Photo.input_ids) := by
        rw [List.filterMap_map]; rfl
      rw [e]
      refine ((hperm.filterMap _).flatten).trans ?_
      rw [filterMap_find_keys _ (ReadOK.of_read_input records).keys_sorted.nodup]
      have e2 : ((read_input records).input_photos.map (fun kv => kv.2.input_ids)).flatten =
          (read_input records).input_photos.flatMap (fun kv => kv.2.input_ids) := by
        rw [List.flatMap_def]
      rw [e2]
      exact catalog_sources_perm records

/-- A step with a single candidate does not depend on the behaviour of `std::sort`. -/
theorem insert_next_slide_single (S : StdSort) (st : WalkerState) (c : Nat × Int)
    (hb : (build_num_shared_tag st).isEmpty = false)
    (hc : candidates st.input_photos st.current_slide.tags.length
      (build_num_shared_tag st) = .ok [c]) :
    insert_next_slide S st =
      match mapFind st.input_photos c.1 with
      | none => .error .endDeref
      | some ph => commit st c.1 ph := by
  have hs : S.sort [c] = [c] := List.perm_singleton.1 (S.perm [c])
  unfold insert_next_slide
  simp only [hb, Bool.false_eq_true, if_false, hc, hs, List.getLast?_singleton]

/-! ## The effect of a step -/

theorem foldl_setInsert_sorted (l : List Nat) (h : l.Sorted (· < ·)) :
    l.foldl (fun acc t => setInsert t acc) [] = l := by
  apply List.eq_of_perm_of_sorted (r := (· < ·)) _ (sorted_foldl_setInsert l [] List.sorted_nil) h
  apply (List.perm_ext_iff_of_nodup (sorted_foldl_setInsert l [] List.sorted_nil).nodup h.nodup).2
  intro t
  rw [mem_foldl_setInsert]
  simp

theorem ofPhoto_tags_eq (p : Photo) (h : p.tags.Sorted (· < ·)) :
    (Slide.ofPhoto p).tags = p.tags :=
  foldl_setInsert_sorted p.tags h

/-- A fallback scan that visits the ids 0, ..., n-1 of a catalog of n photos and finds
them all used leaves no photo unused. -/
theorem numUnused_zero_of_all_used (ip : List (Nat × Photo))
    (hnd : (ip.map Prod.fst).Nodup)
    (hall : ∀ j, j < ip.length → ∃ q, mapFind ip j = some q ∧ q.used = true) :
    numUnused ip = 0 := by
  have hsub : List.range ip.length ⊆ ip.map Prod.fst := by
    intro j hj
    obtain ⟨q, hq, -⟩ := hall j (List.mem_range.1 hj)
    exact List.mem_map.2 ⟨(j, q), mem_of_mapFind ip j q hq, rfl⟩
  have hperm : (List.range ip.length).Perm (ip.map Prod.fst) :=
    (List.subperm_of_subset (List.nodup_range _) hsub).perm_of_length_le (by simp)
  by_contra hne
  obtain ⟨j, q, hj, hq⟩ := exists_unused hnd (Nat.pos_of_ne_zero hne)
  have hjm : j ∈ ip.map Prod.fst := List.mem_map.2 ⟨(j, q), mem_of_mapFind ip j q hj, rfl⟩
  have hlt : j < ip.length := List.mem_range.1 (hperm.symm.subset hjm)
  obtain ⟨q', hq', hu⟩ := hall j hlt
  rw [hj] at hq'
  cases hq'
  rw [hq] at hu
  cases hu

/-- In a state the loop of `main` goes through with a photo left, a call of
`insert_next_slide` that returns has committed a photo of the catalog that was not used. -/
theorem step_selects (S : StdSort) (records : List Record) (st st' : WalkerState)
    (hr : Reachable S records st) (hleft : st.num_photo_left ≠ 0)
    (hs : insert_next_slide S st = .ok st') :
    ∃ id ph, mapFind st.input_photos id = some ph ∧ ph.used = false ∧
      commit st id ph = .ok st' := by
  have hcommits := insert_next_slide_commits S st st' hs
  rcases hcommits with rfl | h
  · exfalso
    have hs0 := hs
    unfold insert_next_slide at hs
    simp only at hs
    by_cases hb : (build_num_shared_tag st').isEmpty = true
    · simp only [hb, if_true] at hs
      rcases fallback_scan_eq st' st' _ _ hs with ⟨-, hall⟩ | ⟨id, ph, -, -, hf, hu, hc, -⟩
      · have h0 := numUnused_zero_of_all_used st'.input_photos hr.walkOK.keys_sorted.nodup
          (fun j hj => hall j (Nat.zero_le _) (by omega))
        have := hr.walkCount.left
        rw [h0] at this
        exact hleft (by simpa using this)
      · have := (commit_keys st' st' id ph hc).2.2.1
        omega
    · have hne : build_num_shared_tag st' ≠ [] := by
        intro he; rw [he] at hb; exact hb rfl
      obtain ⟨cs, good, ph, st2, -, -, -, -, -, -, hc, hstep⟩ := scored_step S st' hr.walkOK hne
      rw [hstep] at hs0
      cases hs0
      have := (commit_keys st' st' good.1 ph hc).2.2.1
      omega
  · exact h

/-- The effect of a commit on the walker state. -/
theorem commit_frame (st st' : WalkerState) (hW : WalkOK st) (c : Nat) (ph : Photo)
    (hf : mapFind st.input_photos c = some ph) (hc : commit st c ph = .ok st') :
    (∀ t, t ∈ ph.tags → c ∉ indexSet st'.tag_to_photo t) ∧
    (∀ t i, i ≠ c → (i ∈ indexSet st'.tag_to_photo t ↔ i ∈ indexSet st.tag_to_photo t)) ∧
    (∀ t, t ∉ ph.tags → mapFind st'.tag_to_photo t = mapFind st.tag_to_photo t) ∧
    st'.input_photos.map Prod.fst = st.input_photos.map Prod.fst ∧
    (∀ k p, mapFind st.input_photos k = some p →
      ∃ p', mapFind st'.input_photos k = some p' ∧ p'.id = p.id ∧ p'.tags = p.tags ∧
        p'.input_ids = p.input_ids ∧ (k ≠ c → p'.used = p.used) ∧ (k = c → p'.used = true)) ∧
    st'.slideshow = st.slideshow ++ [st'.current_slide] ∧
    st'.current_slide.photo_id = c ∧
    st'.current_slide.tags = ph.tags ∧
    st'.num_photo_left = st.num_photo_left - 1 := by
  obtain ⟨t2p, hp, rfl⟩ := commit_eq st st' c ph hc
  have hidx := indexSet_prune c _ _ _ hp
  have hfind := prune_find c _ _ _ hp
  refine ⟨?_, ?_, ?_, keys_mapSet _ _ _, ?_, rfl, hW.id_eq c ph hf,
    ofPhoto_tags_eq _ (hW.tags_sorted c ph hf), rfl⟩
  · intro t ht
    show c ∉ indexSet t2p t
    rw [hidx t, if_pos ((mem_ofPhoto_tags (ph.set_used true) t).2 ht)]
    simp [mem_setErase]
  · intro t i hi
    show i ∈ indexSet t2p t ↔ _
    rw [hidx t]
    by_cases ht : t ∈ (Slide.ofPhoto (ph.set_used true)).tags
    · simp [ht, mem_setErase, hi]
    · simp [ht]
  · intro t ht
    show mapFind t2p t = _
    rw [hfind t, if_neg (fun h => ht ((mem_ofPhoto_tags (ph.set_used true) t).1 h))]
  · intro k p hk
    show ∃ p', mapFind (mapSet st.input_photos c (ph.set_used true)) k = some p' ∧ _
    rw [mapFind_mapSet]
    by_cases hkc : c = k
    · subst hkc
      rw [hf] at hk
      cases hk
      exact ⟨ph.set_used true, by simp [hf], rfl, rfl, rfl, fun h => absurd rfl h, fun _ => rfl⟩
    · exact ⟨p, by simp [hkc, hk], rfl, rfl, rfl, fun _ => rfl, fun h => absurd h.symm hkc⟩

theorem usedIds_nodup (ip : List (Nat × Photo)) (h : (ip.map Prod.fst).Nodup) :
    (usedIds ip).Nodup :=
  h.sublist ((List.filter_sublist _).map Prod.fst)

theorem length_used_add_unused (ip : List (Nat × Photo)) :
    (usedIds ip).length + numUnused ip = ip.length := by
  unfold usedIds numUnused
  rw [List.length_map]
  exact (List.length_eq_length_filter_add (fun kv : Nat × Photo => kv.2.used)).symm

/-! ## The counters of candidate gathering -/

theorem firstLive_nodup (st : WalkerState) (hW : WalkOK st) (t : Nat) :
    (firstLive st t).Nodup :=
  ((sorted_indexSet hW.sets_sorted t).nodup.filter _).sublist (List.take_sublist _ _)

theorem build_gathered (st : WalkerState) :
    build_num_shared_tag st = (st.current_slide.tags.flatMap (firstLive st)).foldl bump [] := by
  rw [build_eq, gathered_eq]
  rfl

/-- The counter candidate gathering leaves for the id `p`: the number of tags of the
current slide whose first 5000 live ids hold `p`, and no counter when there is none. -/
theorem build_find (st : WalkerState) (hW : WalkOK st) (p : Nat) :
    mapFind (build_num_shared_tag st) p =
      if (st.current_slide.tags.filter (fun t => decide (p ∈ firstLive st t))).length = 0
      then none
      else some ((st.current_slide.tags.filter
        (fun t => decide (p ∈ firstLive st t))).length : Int) := by
  rw [build_gathered, mapFind_foldl_bump]
  have hcount := count_flatMap_nodup st.current_slide.tags (firstLive st) p
    (firstLive_nodup st hW)
  by_cases hm : p ∈ st.current_slide.tags.flatMap (firstLive st)
  · have hpos : 0 < (st.current_slide.tags.flatMap (firstLive st)).count p :=
      List.count_pos_iff.2 hm
    rw [hcount] at hpos
    rw [if_pos hm, if_neg (by omega), hcount]
    simp [mapFind]
  · have hzero : (st.current_slide.tags.flatMap (firstLive st)).count p = 0 :=
      List.count_eq_zero_of_not_mem hm
    rw [hcount] at hzero
    rw [if_neg hm, if_pos hzero]
    rfl

theorem mem_firstLive (st : WalkerState) (t p : Nat) (h : p ∈ firstLive st t) :
    p ∈ indexSet st.tag_to_photo t ∧ isLive st.input_photos p = true :=
  List.mem_filter.1 (List.mem_of_mem_take h)

theorem score_bounds (s nc ncur : Int) (h1 : 1 ≤ s) (h2 : s ≤ nc) (h3 : s ≤ ncur) :
    0 ≤ score s nc ncur ∧ score s nc ncur ≤ min nc ncur / 2 := by
  unfold score
  constructor
  · omega
  · omega

/-! ## The label map in first-seen order -/

theorem firstSeen_append_singleton (labels : List String) (l : String) :
    firstSeen (labels ++ [l]) =
      if l ∈ firstSeen labels then firstSeen labels else firstSeen labels ++ [l] := by
  simp [firstSeen, List.foldl_append]

theorem numbered_append_singleton (seen : List String) (l : String) :
    numbered (seen ++ [l]) = numbered seen ++ [(l, seen.length)] := by
  simp [numbered, List.enum_append, List.enumFrom_singleton]

theorem numbered_length (seen : List String) : (numbered seen).length = seen.length := by
  simp [numbered]

theorem numbered_keys (seen : List String) : (numbered seen).map Prod.fst = seen := by
  unfold numbered
  rw [List.map_map]
  have : (Prod.fst ∘ fun il : Nat × String => (il.2, il.1)) = Prod.snd := rfl
  rw [this, List.enum_map_snd]

theorem strFind_eq_none_iff (m : List (String × Nat)) (l : String) :
    strFind m l = none ↔ l ∉ m.map Prod.fst := by
  induction m with
  | nil => simp [strFind]
  | cons kv m ih =>
    obtain ⟨k, v⟩ := kv
    simp only [strFind, List.map_cons, List.mem_cons, not_or]
    by_cases h : k = l
    · simp [h]
    · simp only [h, if_false, ih]
      constructor
      · intro h'; exact ⟨fun e => h e.symm, h'⟩
      · intro h'; exact h'.2

theorem LabelOK.label_one_tag {seen : List String} {ts : TagState}
    (h : LabelOK seen ts.tag_str_to_id ts.tag_id) (tag : String) :
    LabelOK (seen ++ [tag]) (read_one_tag ts tag).tag_str_to_id (read_one_tag ts tag).tag_id := by
  rw [read_one_tag_strmap, read_one_tag_tag_id]
  cases hf : strFind ts.tag_str_to_id tag with
  | none =>
    have hnot : tag ∉ firstSeen seen := by
      have := (strFind_eq_none_iff _ _).1 hf
      rwa [h.map_eq, numbered_keys] at this
    constructor
    · simp only [firstSeen_append_singleton, hnot, if_false, numbered_append_singleton]
      rw [← h.map_eq, h.next_id]
    · simp only [firstSeen_append_singleton, hnot, if_false, List.length_append,
        List.length_singleton, h.next_id]
  | some i =>
    have hin : tag ∈ firstSeen seen := by
      by_contra hnot
      have : strFind ts.tag_str_to_id tag = none := by
        rw [strFind_eq_none_iff, h.map_eq, numbered_keys]; exact hnot
      rw [this] at hf
      cases hf
    constructor
    · simp only [firstSeen_append_singleton, hin, if_true]
      exact h.map_eq
    · simp only [firstSeen_append_singleton, hin, if_true]
      exact h.next_id

theorem LabelOK.label_photo_tags {seen : List String} (labels : List String) {ts : TagState}
    (h : LabelOK seen ts.tag_str_to_id ts.tag_id) :
    LabelOK (seen ++ labels) (read_photo_tags labels ts).tag_str_to_id
      (read_photo_tags labels ts).tag_id := by
  induction labels generalizing seen ts with
  | nil => simpa [read_photo_tags] using h
  | cons tag labels ih =>
    rw [read_photo_tags_cons]
    have := ih (h.label_one_tag tag)
    simpa [List.append_assoc] using this

theorem LabelOK.label_input_step {seen : List String} {rs : ReadState}
    (h : LabelOK seen rs.tag_str_to_id rs.tag_id) (r : Record) :
    LabelOK (seen ++ r.labels) (read_input_step rs r).tag_str_to_id
      (read_input_step rs r).tag_id := by
  by_cases hH : r.orientation = 'H'
  · simp only [read_input_step, hH, if_true]
    exact LabelOK.label_photo_tags r.labels h
  · by_cases hr : rs.vertical_ready_to_merge = true
    · simp only [read_input_step, hH, if_false, hr, if_true]
      exact LabelOK.label_photo_tags r.labels h
    · have hr' : rs.vertical_ready_to_merge = false := by simpa using hr
      simp only [read_input_step, hH, if_false, hr', Bool.false_eq_true]
      exact LabelOK.label_photo_tags r.labels h

theorem LabelOK.label_read_input (records : List Record) :
    LabelOK (records.flatMap Record.labels) (read_input records).tag_str_to_id
      (read_input records).tag_id := by
  induction records using List.reverseRecOn with
  | nil => exact ⟨rfl, rfl⟩
  | append_singleton pre r ih =>
    rw [read_input_append, List.flatMap_append]
    simpa using ih.label_input_step r

theorem firstSeen_nodup (labels : List String) : (firstSeen labels).Nodup := by
  induction labels using List.reverseRecOn with
  | nil => exact List.nodup_nil
  | append_singleton pre l ih =>
    rw [firstSeen_append_singleton]
    by_cases h : l ∈ firstSeen pre
    · simpa [h] using ih
    · simp only [h, if_false]
      exact List.nodup_append.2 ⟨ih, List.nodup_singleton l, by
        intro a ha hb
        simp only [List.mem_singleton] at hb
        subst hb
        exact h ha⟩

theorem mem_firstSeen (labels : List String) (l : String) :
    l ∈ firstSeen labels ↔ l ∈ labels := by
  induction labels using List.reverseRecOn with
  | nil => simp [firstSeen]
  | append_singleton pre x ih =>
    rw [firstSeen_append_singleton]
    by_cases h : x ∈ firstSeen pre
    · simp only [h, if_true, List.mem_append, List.mem_singleton, ih]
      constructor
      · exact Or.inl
      · rintro (h' | rfl)
        · exact h'
        · exact ih.1 h
    · simp only [h, if_false, List.mem_append, List.mem_singleton, ih]

/-- Lookup in a numbered list of distinct labels: a label is found under `k` exactly when
it is the `k`-th label of the list. -/
theorem strFind_numbered (seen : List String) (hnd : seen.Nodup) (l : String) (k : Nat) :
    strFind (numbered seen) l = some k ↔ seen[k]? = some l := by
  induction seen using List.reverseRecOn generalizing k with
  | nil => simp [numbered, strFind]
  | append_singleton pre x ih =>
    rw [numbered_append_singleton, strFind_append]
    have hnd' := List.nodup_append.1 hnd
    have hx : x ∉ pre := fun hx => hnd'.2.2 hx (List.mem_singleton_self x)
    cases hf : strFind (numbered pre) l with
    | some i =>
      have hi := (ih hnd'.1 i).1 hf
      have hlt : i < pre.length := (List.getElem?_eq_some_iff.1 hi).1
      simp only [Option.some.injEq]
      constructor
      · rintro rfl
        rw [List.getElem?_append_left hlt]; exact hi
      · intro hk
        by_cases hklt : k < pre.length
        · rw [List.getElem?_append_left hklt] at hk
          have hk' := (ih hnd'.1 k).2 hk
          rw [hf] at hk'
          exact Option.some.inj hk'
        · rw [List.getElem?_append_right (by omega)] at hk
          have hkeq : k - pre.length = 0 := by
            by_contra hne
            rw [List.getElem?_eq_none (by simp; omega)] at hk
            cases hk
          rw [hkeq] at hk
          simp only [List.getElem?_cons_zero, Option.some.injEq] at hk
          subst hk
          exact absurd (List.getElem?_mem hi) hx
    | none =>
      have hl : l ∉ pre := by
        have := (strFind_eq_none_iff _ _).1 hf
        rwa [numbered_keys] at this
      simp only
      constructor
      · intro h
        by_cases hxl : x = l
        · simp only [hxl, if_true, Option.some.injEq] at h
          subst h
          rw [List.getElem?_append_right (le_refl _)]
          simp [hxl]
        · simp [hxl] at h
      · intro hk
        by_cases hklt : k < pre.length
        · rw [List.getElem?_append_left hklt] at hk
          exact absurd (List.getElem?_mem hk) hl
        · rw [List.getElem?_append_right (by omega)] at hk
          have hkeq : k - pre.length = 0 := by
            by_contra hne
            rw [List.getElem?_eq_none (by simp; omega)] at hk
            cases hk
          rw [hkeq] at hk
          simp only [List.getElem?_cons_zero, Option.some.injEq] at hk
          subst hk
          simp only [if_true, Option.some.injEq]
          omega

/-! ## Order among equal scores -/

theorem orderedInsert_keeps_tie_order (a : Nat × Int) (s : List (Nat × Int))
    (hs : KeepsTieOrder s) (ha : ∀ b ∈ s, a.1 < b.1) :
    KeepsTieOrder (List.orderedInsert (fun a b => a.2 ≤ b.2) a s) := by
  unfold KeepsTieOrder at hs ⊢
  induction s with
  | nil => simp
  | cons b s ih =>
    rw [List.pairwise_cons] at hs
    simp only [List.orderedInsert]
    by_cases hab : a.2 ≤ b.2
    · rw [if_pos hab]
      exact List.pairwise_cons.2 ⟨fun x hx _ => ha x hx, List.pairwise_cons.2 hs⟩
    · rw [if_neg hab]
      refine List.pairwise_cons.2 ⟨?_, ih hs.2 (fun x hx => ha x (List.mem_cons_of_mem _ hx))⟩
      intro x hx heq
      rcases (List.mem_orderedInsert _).1 hx with rfl | hx
      · omega
      · exact hs.1 x hx heq

/-- Insertion sort is stable: on a list in ascending id order it leaves candidates of
equal score in ascending id order. -/
theorem insertionSort_keeps_tie_order (l : List (Nat × Int))
    (h : l.Pairwise (fun a b => a.1 < b.1)) :
    KeepsTieOrder (List.insertionSort (fun a b => a.2 ≤ b.2) l) := by
  induction l with
  | nil => exact List.Pairwise.nil
  | cons a l ih =>
    rw [List.pairwise_cons] at h
    simp only [List.insertionSort]
    apply orderedInsert_keeps_tie_order a _ (ih h.2)
    intro b hb
    exact h.1 b ((List.perm_insertionSort _ l).subset hb)

theorem getLast?_tie_order {l : List (Nat × Int)} (h : KeepsTieOrder l)
    {g : Nat × Int} (hg : l.getLast? = some g) :
    ∀ c ∈ l, c.2 = g.2 → c.1 ≤ g.1 := by
  unfold KeepsTieOrder at h
  induction l with
  | nil => simp at hg
  | cons a l ih =>
    rw [List.pairwise_cons] at h
    cases l with
    | nil =>
      simp only [List.getLast?_singleton, Option.some.injEq] at hg
      subst hg
      intro c hc _
      simp only [List.mem_singleton] at hc
      subst hc
      exact le_refl _
    | cons b l =>
      rw [List.getLast?_cons_cons] at hg
      intro c hc heq
      rcases List.mem_cons.1 hc with rfl | hc
      · exact Nat.le_of_lt (h.1 g (List.mem_of_getLast?_eq_some hg) heq)
      · exact ih h.2 hg c hc heq

theorem candidates_ids_ascending (st : WalkerState) (cs : List (Nat × Int))
    (h : candidates st.input_photos st.current_slide.tags.length
      (build_num_shared_tag st) = .ok cs) :
    cs.Pairwise (fun a b => a.1 < b.1) := by
  have hk := forall₂_keys (candidates_forall₂ _ _ _ _ h) (fun a b h => h.1)
  have hs := build_keys_sorted st
  rw [← hk] at hs
  exact List.pairwise_map.1 hs

theorem read_input_step_extends (rs : ReadState) (r : Record) (l : String) (k : Nat)
    (h : strFind rs.tag_str_to_id l = some k) :
    strFind (Slideshow.read_input_step rs r).tag_str_to_id l = some k := by
  by_cases hH : r.orientation = 'H'
  · simp only [Slideshow.read_input_step, hH, if_true]
    exact (readTags_facts rs r.labels _).2.2.2.1 l k h
  · by_cases hr : rs.vertical_ready_to_merge = true
    · simp only [Slideshow.read_input_step, hH, if_false, hr, if_true]
      exact (readTags_facts rs r.labels _).2.2.2.1 l k h
    · have hr' : rs.vertical_ready_to_merge = false := by simpa using hr
      simp only [Slideshow.read_input_step, hH, if_false, hr', Bool.false_eq_true]
      exact (readTags_facts rs r.labels _).2.2.2.1 l k h

/-- A tag id, once given to a label, is never changed by the records that follow. -/
theorem read_input_extends (pre suf : List Record) (l : String) (k : Nat)
    (h : strFind (read_input pre).tag_str_to_id l = some k) :
    strFind (read_input (pre ++ suf)).tag_str_to_id l = some k := by
  induction suf using List.reverseRecOn with
  | nil => simpa using h
  | append_singleton suf r ih =>
    rw [← List.append_assoc, read_input_append]
    exact read_input_step_extends _ r l k ih

/-! # The properties of the specification -/

/-! ## C1: the slideshow is a permutation of the catalog ids -/

/-- C1: for every list of records and every behaviour of `std::sort`, when the walker
loop of `main` finishes, the catalog is not empty, no photo is left, and the ids of the
slideshow, in order, are a permutation of the ids of the catalog: the slideshow is as
long as the catalog and every id of the catalog occurs in it exactly once.  The loop
does finish, within n-1 turns, when the catalog is not empty and its ids are
0, ..., n-1. -/
theorem slideshow_is_permutation (S : StdSort) (records : List Record) :
    (∀ (fuel : Nat) (st : WalkerState), main_walk S fuel records = .ok st →
      (read_input records).input_photos ≠ [] ∧ st.num_photo_left = 0 ∧
      (st.slideshow.map Slide.photo_id).Perm ((read_input records).input_photos.map Prod.fst) ∧
      st.slideshow.length = (read_input records).input_photos.length ∧
      ∀ k, k ∈ (read_input records).input_photos.map Prod.fst →
        (st.slideshow.map Slide.photo_id).count k = 1) ∧
    ((read_input records).input_photos ≠ [] → DenseIds (read_input records).input_photos →
      ∀ fuel, (read_input records).input_photos.length - 1 ≤ fuel →
        ∃ st, main_walk S fuel records = .ok st) := by
  constructor
  · intro fuel st h
    obtain ⟨h0, hperm⟩ := main_walk_perm S fuel records st h
    have hne : (read_input records).input_photos ≠ [] := by
      intro he
      unfold main_walk main_seed at h
      rw [he] at h
      cases h
    refine ⟨hne, h0, hperm, ?_, ?_⟩
    · have := hperm.length_eq
      simpa using this
    · intro k hk
      have hnd : (st.slideshow.map Slide.photo_id).Nodup :=
        hperm.nodup_iff.2 (ReadOK.of_read_input records).keys_sorted.nodup
      exact List.count_eq_one_of_mem hnd (hperm.mem_iff.2 hk)
  · intro hne hd fuel hf
    obtain ⟨st, h, -⟩ := (main_walk_of_dense S records hne hd).1 fuel hf
    exact ⟨st, h⟩

/-- C1, witness: the statement of `slideshow_is_permutation` on `scenario`, where the
loop finishes after two turns with the slideshow 0, 1, 2. -/
theorem slideshow_is_permutation_witness :
    main_walk insertionSort 2 scenario = .ok scenarioStep2 ∧
    (read_input scenario).input_photos.map Prod.fst = [0, 1, 2] ∧
    scenarioStep2.slideshow.map Slide.photo_id = [0, 1, 2] ∧
    ((read_input scenario).input_photos ≠ [] ∧ scenarioStep2.num_photo_left = 0 ∧
      (scenarioStep2.slideshow.map Slide.photo_id).Perm
        ((read_input scenario).input_photos.map Prod.fst) ∧
      scenarioStep2.slideshow.length = (read_input scenario).input_photos.length ∧
      ∀ k, k ∈ (read_input scenario).input_photos.map Prod.fst →
        (scenarioStep2.slideshow.map Slide.photo_id).count k = 1) ∧
    DenseIds (read_input scenario).input_photos ∧
    ∃ st, main_walk insertionSort 2 scenario = .ok st :=
  ⟨rfl, rfl, rfl,
    (slideshow_is_permutation insertionSort scenario).1 2 scenarioStep2 rfl,
    rfl,
    (slideshow_is_permutation insertionSort scenario).2 (by decide) rfl 2 (by decide)⟩

/-! ## C2: number of calls of `insert_next_slide` -/

/-- C2, at an input the program mishandles: on `gapInput` the catalog holds two photos,
so one call of `insert_next_slide` is due after the seed; that call takes the fallback
branch and dereferences `end()` instead of appending a photo.  When the ids are
0, ..., n-1 the loop makes exactly n-1 calls (`walker_loop_terminates`). -/
theorem first_call_faults_on_gapInput :
    main_seed (read_input gapInput) = .ok gapSeed ∧ gapSeed.input_photos.length = 2 ∧
    gapSeed.num_photo_left = 1 ∧
    ∀ S : StdSort, insert_next_slide S gapSeed = .error .endDeref :=
  ⟨rfl, rfl, rfl, fun _ => rfl⟩

/-! ## C3: the output file -/

/-- C3, at an input the program mishandles: on `gapInput` the program writes no output,
whatever the name of the input file: the walker dereferences `end()` before
`write_output` is reached.  Whenever an output
is written it is the expected one (`main_output_sources`). -/
theorem main_faults_on_gapInput :
    ∀ (S : StdSort) (fuel : Nat) (argv1 : String),
      main S (fuel + 1) argv1 gapInput = .error .endDeref :=
  fun _ _ _ => rfl

/-! ## C4: the score of a candidate -/

/-- C4: in a state the walker reaches, on a step where the sampling cap does not cut any
index set of a tag of the current slide, every gathered candidate gets the score
`min(|A ∩ B|, |A \ B|, |B \ A|)`, with `A` the tags of the current slide and `B` the tags
of the candidate. -/
theorem score_is_interest (S : StdSort) (records : List Record) (st : WalkerState)
    (hr : Reachable S records st)
    (hcap : ∀ t ∈ st.current_slide.tags,
      ((indexSet st.tag_to_photo t).filter (isLive st.input_photos)).length ≤ 5000) :
    ∃ cs, candidates st.input_photos st.current_slide.tags.length
        (build_num_shared_tag st) = .ok cs ∧
      cs.map Prod.fst = (build_num_shared_tag st).map Prod.fst ∧
      ∀ c ∈ cs, ∃ ph, mapFind st.input_photos c.1 = some ph ∧
        c.2 = min ((st.current_slide.tags.toFinset ∩ ph.tags.toFinset).card : Int)
          (min ((st.current_slide.tags.toFinset \ ph.tags.toFinset).card : Int)
            ((ph.tags.toFinset \ st.current_slide.tags.toFinset).card : Int)) := by
  have hW := hr.walkOK
  obtain ⟨cs, hcs⟩ := candidates_ok st.input_photos st.current_slide.tags.length
    (build_num_shared_tag st) (fun kv hkv => by
      obtain ⟨ph, hph, -, -⟩ := shared_count st hW hcap kv hkv
      exact ⟨ph, hph⟩)
  have hF := candidates_forall₂ _ _ _ _ hcs
  refine ⟨cs, hcs, forall₂_keys hF (fun a b h => h.1), ?_⟩
  intro c hc
  obtain ⟨kv, hkv, hk1, ph, hph, hsc⟩ := forall₂_mem_right hF c hc
  obtain ⟨ph', hph', -, hcount⟩ := shared_count st hW hcap kv hkv
  rw [hph] at hph'
  cases hph'
  refine ⟨ph, by rw [hk1]; exact hph, ?_⟩
  rw [hsc, hcount, ← score_eq_min,
    List.toFinset_card_of_nodup (hW.tags_sorted _ _ hph).nodup,
    List.toFinset_card_of_nodup hW.cur_sorted.nodup]

/-- C4, witness: the statement of `score_is_interest` on `scoreExample` after the seed:
the only candidate, photo 1 with tags {b,c,d}, shares two tags with the slide {a,b,c}. -/
theorem score_is_interest_witness :
    (∀ t ∈ scoreExampleSeed.current_slide.tags,
      ((indexSet scoreExampleSeed.tag_to_photo t).filter
        (isLive scoreExampleSeed.input_photos)).length ≤ 5000) ∧
    ∃ cs, candidates scoreExampleSeed.input_photos scoreExampleSeed.current_slide.tags.length
        (build_num_shared_tag scoreExampleSeed) = .ok cs ∧
      cs.map Prod.fst = (build_num_shared_tag scoreExampleSeed).map Prod.fst ∧
      ∀ c ∈ cs, ∃ ph, mapFind scoreExampleSeed.input_photos c.1 = some ph ∧
        c.2 = min ((scoreExampleSeed.current_slide.tags.toFinset ∩ ph.tags.toFinset).card : Int)
          (min ((scoreExampleSeed.current_slide.tags.toFinset \ ph.tags.toFinset).card : Int)
            ((ph.tags.toFinset \ scoreExampleSeed.current_slide.tags.toFinset).card : Int)) :=
  ⟨by decide, score_is_interest insertionSort scoreExample scoreExampleSeed
    (Reachable.seed rfl) (by decide)⟩

/-- C4, the example of the specification: A = {a,b,c} and B = {b,c,d} give the score 1. -/
theorem score_example :
    candidates scoreExampleSeed.input_photos scoreExampleSeed.current_slide.tags.length
      (build_num_shared_tag scoreExampleSeed) = .ok [(1, 1)] := rfl

/-! ## C5: the selected candidate has the best score -/

/-- C5: in a state the walker reaches, on a step where at least one candidate was
gathered, `insert_next_slide` returns, and the slide it appends is the photo of a
candidate whose score is at least the score of every candidate of the step. -/
theorem selected_has_max_score (S : StdSort) (records : List Record) (st : WalkerState)
    (hr : Reachable S records st) (hne : build_num_shared_tag st ≠ []) :
    ∃ cs good ph st',
      candidates st.input_photos st.current_slide.tags.length
        (build_num_shared_tag st) = .ok cs ∧
      good ∈ cs ∧ (∀ c ∈ cs, c.2 ≤ good.2) ∧
      mapFind st.input_photos good.1 = some ph ∧
      insert_next_slide S st = .ok st' ∧
      st'.slideshow = st.slideshow ++ [Slide.ofPhoto (ph.set_used true)] ∧
      (Slide.ofPhoto (ph.set_used true)).photo_id = good.1 := by
  have hW := hr.walkOK
  obtain ⟨cs, good, ph, st', hcs, -, hmem, hmax, hph, -, hc, hstep⟩ := scored_step S st hW hne
  obtain ⟨-, -, -, hshow⟩ := commit_keys st st' good.1 ph hc
  exact ⟨cs, good, ph, st', hcs, hmem, hmax, hph, hstep, hshow, hW.id_eq _ ph hph⟩

/-- C5, witness: the statement of `selected_has_max_score` on `scoreExample` after the
seed. -/
theorem selected_has_max_score_witness :
    build_num_shared_tag scoreExampleSeed ≠ [] ∧
    ∃ cs good ph st',
      candidates scoreExampleSeed.input_photos scoreExampleSeed.current_slide.tags.length
        (build_num_shared_tag scoreExampleSeed) = .ok cs ∧
      good ∈ cs ∧ (∀ c ∈ cs, c.2 ≤ good.2) ∧
      mapFind scoreExampleSeed.input_photos good.1 = some ph ∧
      insert_next_slide insertionSort scoreExampleSeed = .ok st' ∧
      st'.slideshow = scoreExampleSeed.slideshow ++ [Slide.ofPhoto (ph.set_used true)] ∧
      (Slide.ofPhoto (ph.set_used true)).photo_id = good.1 :=
  ⟨by decide, selected_has_max_score insertionSort scoreExample scoreExampleSeed
    (Reachable.seed rfl) (by decide)⟩

/-! ## C6: the catalog built by `read_input` -/

/-- C6: the catalog `read_input` builds is, up to order, the list of Entries of the
specification (`mergedEntries`): one per horizontal record with its index and tag set,
one per pair of consecutive vertical records with both indices and the union of their
tag sets.  No source index occurs twice in the catalog, every entry has either the index
of one horizontal record or the indices `i < j` of two vertical records, and the index
of a last vertical record left unpaired occurs in no entry.  On
`[H{a}, V{b}, V{c}, H{d}, V{e}]` the catalog is `{a}` from [0], `{b,c}` from [1,2] and
`{d}` from [3]. -/
theorem read_input_merges (records : List Record) :
    ((read_input records).input_photos.map entryOf).Perm
        (mergedEntries (read_input records).tag_str_to_id records) ∧
    ((read_input records).input_photos.flatMap (fun kv => kv.2.input_ids)).Nodup ∧
    (∀ kv ∈ (read_input records).input_photos,
      (∃ ir ∈ horizontals records, kv.2.input_ids = [ir.1]) ∨
      (∃ ir jr, ir ∈ verticals records ∧ jr ∈ verticals records ∧ ir.1 < jr.1 ∧
        kv.2.input_ids = [ir.1, jr.1])) ∧
    (∀ ir, (verticals records).length % 2 = 1 → (verticals records).getLast? = some ir →
      ∀ kv ∈ (read_input records).input_photos, ir.1 ∉ kv.2.input_ids) ∧
    (read_input mergeExample).input_photos =
      [(0, { id := 0, input_ids := [0], used := false, tags := [0] }),
       (1, { id := 1, input_ids := [1, 2], used := false, tags := [1, 2] }),
       (2, { id := 2, input_ids := [3], used := false, tags := [3] })] ∧
    (read_input mergeExample).tag_str_to_id =
      [("a", 0), ("b", 1), ("c", 2), ("d", 3), ("e", 4)] := by
  have hp := (ReadSpec.spec_of_read_input records).entries
  obtain ⟨rest, h1, h2, h3⟩ := sources_nodup records
  have hsrc := catalog_sources_perm records
  refine ⟨hp, ?_, ?_, ?_, rfl, rfl⟩
  · rw [hsrc.nodup_iff]
    rw [← List.append_assoc] at h3
    exact (List.nodup_append.1 h3).1
  · intro kv hkv
    have hm : entryOf kv ∈ mergedEntries (read_input records).tag_str_to_id records :=
      hp.subset (List.mem_map_of_mem _ hkv)
    unfold mergedEntries at hm
    rcases List.mem_append.1 hm with hm | hm
    · obtain ⟨ir, hir, he⟩ := List.mem_map.1 hm
      left
      refine ⟨ir, hir, ?_⟩
      have := congrArg Prod.fst he
      exact this.symm
    · obtain ⟨pr, hpr, he⟩ := List.mem_map.1 hm
      right
      obtain ⟨m1, m2⟩ := mem_pairUp pr _ hpr
      refine ⟨pr.1, pr.2, m1, m2, pairUp_pairwise _ _ (verticals_pairwise records) pr hpr, ?_⟩
      have := congrArg Prod.fst he
      exact this.symm
  · intro ir hodd hlast kv hkv hmem
    have hrest : rest = [ir] := by
      rw [hodd] at h2
      obtain ⟨x, rfl⟩ := List.length_eq_one.1 h2
      rw [h1, List.getLast?_append] at hlast
      simp only [List.getLast?_singleton, Option.or_some, Option.some.injEq] at hlast
      rw [hlast]
    subst hrest
    have hin : ir.1 ∈ (horizontals records).map Prod.fst ++
        ((pairUp (verticals records)).flatMap (fun p => [p.1, p.2])).map Prod.fst :=
      hsrc.subset (List.mem_flatMap.2 ⟨kv, hkv, hmem⟩)
    rw [← List.append_assoc] at h3
    have hd := (List.nodup_append.1 h3).2.2
    exact hd hin (by simp)

/-! ## C7: the ids given by `read_input` -/

/-- C7 is false as stated: on `[V{b}, H{a}, V{c}]` the first Entry emitted is the
horizontal photo, with id 1 (after two records the catalog holds only that entry, and
its ids are not 0, ..., n-1), and the second Entry emitted, the vertical pair, has
id 0. -/
theorem ids_not_in_emission_order :
    (read_input (orderExample.take 1)).input_photos = [] ∧
    (read_input (orderExample.take 2)).input_photos =
      [(1, { id := 1, input_ids := [1], used := false, tags := [1] })] ∧
    (read_input orderExample).input_photos =
      [(0, { id := 0, input_ids := [0, 2], used := false, tags := [0, 2] }),
       (1, { id := 1, input_ids := [1], used := false, tags := [1] })] ∧
    (read_input (orderExample.take 2)).input_photos.map Prod.fst ≠
      List.range (read_input (orderExample.take 2)).input_photos.length ∧
    ¬ (∀ kv ∈ (read_input (orderExample.take 2)).input_photos,
      kv ∉ (read_input (orderExample.take 1)).input_photos →
        kv.1 = (read_input (orderExample.take 1)).input_photos.length) :=
  ⟨rfl, rfl, rfl, by decide, by decide⟩

/-- C7 as amended: ids follow the order in which Entries are started, not emitted.  The
key of a catalog entry is its id, the keys are distinct and ascending, of two entries
the one with the smaller id is the one whose first source record comes first, and when
every vertical record is paired the ids are exactly 0, ..., n-1. -/
theorem ids_follow_first_source (records : List Record) :
    (∀ k p, mapFind (read_input records).input_photos k = some p → p.id = k) ∧
    ((read_input records).input_photos.map Prod.fst).Sorted (· < ·) ∧
    (∀ k p k' p', mapFind (read_input records).input_photos k = some p →
      mapFind (read_input records).input_photos k' = some p' →
      p.input_ids ≠ [] ∧ p'.input_ids ≠ [] ∧ (k < k' ↔ firstSource p < firstSource p')) ∧
    ((verticals records).length % 2 = 0 →
      (read_input records).input_photos.map Prod.fst =
        List.range (read_input records).input_photos.length) := by
  have hOK := ReadOK.of_read_input records
  have hOrd := ReadOrder.order_of_read_input records
  refine ⟨hOK.id_eq, hOK.keys_sorted, ?_, ?_⟩
  · intro k p k' p' hp hp'
    refine ⟨(hOrd.cat_first k p hp).1, (hOrd.cat_first k' p' hp').1, hOrd.mono k p k' p' hp hp', ?_⟩
    intro hlt
    rcases Nat.lt_trichotomy k k' with h | h | h
    · exact h
    · subst h
      rw [hp] at hp'
      cases hp'
      exact absurd hlt (lt_irrefl _)
    · have := hOrd.mono k' p' k p hp' hp h
      omega
  · exact denseIds_of_paired records

/-- C7, witness: the statement of `ids_follow_first_source` on `orderExample`, whose ids
are 0 and 1. -/
theorem ids_follow_first_source_witness :
    (verticals orderExample).length % 2 = 0 ∧
    (read_input orderExample).input_photos.map Prod.fst =
      List.range (read_input orderExample).input_photos.length :=
  ⟨by decide, (ids_follow_first_source orderExample).2.2.2 (by decide)⟩

/-! ## C8: the fallback selection -/

/-- C8, at a state the program mishandles: after the seed on `gapInput` no candidate is
gathered and photo 2 is the unused photo with the smallest id, but the fallback scan
starts at id 0, which names no photo, and dereferences `end()`.  When the ids are
0, ..., n-1 the fallback commits the unused photo with the smallest id (`step_commits`). -/
theorem fallback_faults_on_gapSeed :
    Reachable insertionSort gapInput gapSeed ∧
    build_num_shared_tag gapSeed = [] ∧
    mapFind gapSeed.input_photos 2 =
      some { id := 2, input_ids := [2], used := false, tags := [2] } ∧
    mapFind gapSeed.input_photos 0 = none ∧
    fallback_scan gapSeed gapSeed.input_photos.length 0 = .error .endDeref :=
  ⟨Reachable.seed rfl, rfl, rfl, rfl, rfl⟩

/-! ## C9: the index built by `read_input` -/

/-- C9 is false as stated: on the single record `V{a}` the catalog is empty and the
index set of tag 0 holds the id 0, which names no catalog entry. -/
theorem index_holds_dropped_vertical :
    (read_input [⟨'V', ["a"]⟩]).input_photos = [] ∧
    indexSet (read_input [⟨'V', ["a"]⟩]).tag_to_photo 0 = [0] ∧
    ¬ (∀ t i, i ∈ indexSet (read_input [⟨'V', ["a"]⟩]).tag_to_photo t →
      ∃ p, mapFind (read_input [⟨'V', ["a"]⟩]).input_photos i = some p ∧ t ∈ p.tags) := by
  refine ⟨rfl, rfl, ?_⟩
  intro h
  obtain ⟨p, hp, -⟩ := h 0 0 (by decide)
  cases hp

/-- C9 as amended: every catalog entry is in the index set of each of its tags; an id
in the index set of a tag is the id of a catalog entry carrying the tag, or else it is
the id given to the last vertical record, left unpaired, which carries the tag and
names no catalog entry; when every vertical record is paired the index set of a tag is
exactly the set of ids of the catalog entries carrying it. -/
theorem index_after_read_input (records : List Record) :
    (∀ k p, mapFind (read_input records).input_photos k = some p → ∀ t ∈ p.tags,
      k ∈ indexSet (read_input records).tag_to_photo t) ∧
    (∀ t i, i ∈ indexSet (read_input records).tag_to_photo t →
      (∃ p, mapFind (read_input records).input_photos i = some p ∧ t ∈ p.tags) ∨
      (mapFind (read_input records).input_photos i = none ∧
        i = (read_input records).tmp_vertical_photo.id ∧
        t ∈ (read_input records).tmp_vertical_photo.tags ∧
        ∃ ir, (verticals records).length % 2 = 1 ∧ (verticals records).getLast? = some ir ∧
          (read_input records).tmp_vertical_photo.input_ids = [ir.1] ∧
          (read_input records).tmp_vertical_photo.tags.toFinset =
            labelTags (read_input records).tag_str_to_id ir.2.labels)) ∧
    ((verticals records).length % 2 = 0 → ∀ t i,
      i ∈ indexSet (read_input records).tag_to_photo t ↔
        ∃ p, mapFind (read_input records).input_photos i = some p ∧ t ∈ p.tags) := by
  have hOK := ReadOK.of_read_input records
  have hSp := ReadSpec.spec_of_read_input records
  refine ⟨?_, ?_, ?_⟩
  · intro k p hp t ht
    exact (hOK.index t k).2 (Or.inl ⟨p, hp, ht⟩)
  · intro t i hi
    rcases (hOK.index t i).1 hi with h | ⟨hr, rfl, ht⟩
    · exact Or.inl h
    · obtain ⟨ir, h1, h2, h3⟩ := hSp.pending hr
      exact Or.inr ⟨hOK.tmp_fresh hr, rfl, ht, ir, hSp.ready_iff.1 hr, h1, h2, h3⟩
  · intro heven t i
    rw [hOK.index t i]
    constructor
    · rintro (h | ⟨hr, -⟩)
      · exact h
      · have := hSp.ready_iff.1 hr; omega
    · exact Or.inl

/-- C9, witness: the statement of `index_after_read_input` on `orderExample`, where the
two vertical records are paired. -/
theorem index_after_read_input_witness :
    (verticals orderExample).length % 2 = 0 ∧
    ∀ t i, i ∈ indexSet (read_input orderExample).tag_to_photo t ↔
      ∃ p, mapFind (read_input orderExample).input_photos i = some p ∧ t ∈ p.tags :=
  ⟨by decide, (index_after_read_input orderExample).2.2 (by decide)⟩

/-! ## C10: the empty catalog -/

/-- C10, at the inputs the program mishandles: with no record, or a single vertical
record, the catalog is empty and `main` dereferences `begin()` of the empty map
(undefined behaviour) instead of reporting an error. -/
theorem main_faults_on_empty_catalog :
    (read_input []).input_photos = [] ∧
    (read_input [⟨'V', ["a"]⟩]).input_photos = [] ∧
    ∀ (S : StdSort) (fuel : Nat) (argv1 : String),
      main S fuel argv1 [] = .error .endDeref ∧
      main S fuel argv1 [⟨'V', ["a"]⟩] = .error .endDeref :=
  ⟨rfl, rfl, fun _ _ _ => ⟨rfl, rfl⟩⟩

/-! ## C11: the end-to-end scenario -/

/-- C11: the end-to-end scenario.  On `H{a,b}`, `H{b,c}`, `H{c,d}` the catalog holds the
entries 0, 1, 2 with these tag sets, the seed is entry 0, the first step has entry 1 as
its only candidate, with score 1, and selects it, the second step has entry 2 as its
only candidate, with score 1, and selects it, and the walker loop of `main` (lines
303-317) finishes with the slideshow [0, 1, 2], whatever `std::sort` does with equal
scores.  What `main` does after the loop depends on `argv[1]` alone: when lines 318-320
give a name for the output file, as for `..\input\a_example.txt`, the file holds the
count 3 and the lines 0, 1, 2 in this order; when they throw (no backslash in
`argv[1]`, see `output_filename_throws_iff`), nothing is written. -/
theorem end_to_end_scenario :
    (read_input scenario).input_photos =
      [(0, { id := 0, input_ids := [0], used := false, tags := [0, 1] }),
       (1, { id := 1, input_ids := [1], used := false, tags := [1, 2] }),
       (2, { id := 2, input_ids := [2], used := false, tags := [2, 3] })] ∧
    (read_input scenario).tag_str_to_id = [("a", 0), ("b", 1), ("c", 2), ("d", 3)] ∧
    main_seed (read_input scenario) = .ok scenarioSeed ∧
    scenarioSeed.current_slide.photo_id = 0 ∧
    candidates scenarioSeed.input_photos scenarioSeed.current_slide.tags.length
      (build_num_shared_tag scenarioSeed) = .ok [(1, 1)] ∧
    candidates scenarioStep1.input_photos scenarioStep1.current_slide.tags.length
      (build_num_shared_tag scenarioStep1) = .ok [(2, 1)] ∧
    ∀ S : StdSort,
      insert_next_slide S scenarioSeed = .ok scenarioStep1 ∧
      insert_next_slide S scenarioStep1 = .ok scenarioStep2 ∧
      scenarioStep2.slideshow.map Slide.photo_id = [0, 1, 2] ∧
      ∀ fuel, main_walk S (fuel + 2) scenario = .ok scenarioStep2 ∧
        (∀ argv1 : String, main S (fuel + 2) argv1 scenario =
          (output_filename argv1).map (fun name => (name, 3, [[0], [1], [2]]))) ∧
        main S (fuel + 2) "..\\input\\a_example.txt" scenario =
          .ok ("..\\output\\a_example_submission.txt", 3, [[0], [1], [2]]) := by
  refine ⟨rfl, rfl, rfl, rfl, rfl, rfl, fun S => ?_⟩
  have h1 : insert_next_slide S scenarioSeed = .ok scenarioStep1 := by
    rw [insert_next_slide_single S scenarioSeed (1, 1) rfl rfl]; rfl
  have h2 : insert_next_slide S scenarioStep1 = .ok scenarioStep2 := by
    rw [insert_next_slide_single S scenarioStep1 (2, 1) rfl rfl]; rfl
  have hw : ∀ fuel, main_walk S (fuel + 2) scenario = .ok scenarioStep2 := by
    intro fuel
    have hseed : main_seed (read_input scenario) = .ok scenarioSeed := rfl
    have e1 : walker_loop S (fuel + 2) scenarioSeed = walker_loop S (fuel + 1) scenarioStep1 := by
      show (if scenarioSeed.num_photo_left = 0 then _ else _) = _
      rw [if_neg (by decide)]
      simp only [h1]
    have e2 : walker_loop S (fuel + 1) scenarioStep1 = walker_loop S fuel scenarioStep2 := by
      show (if scenarioStep1.num_photo_left = 0 then _ else _) = _
      rw [if_neg (by decide)]
      simp only [h2]
    have e3 : walker_loop S fuel scenarioStep2 = .ok scenarioStep2 := by
      cases fuel <;> rfl
    simp only [main_walk, hseed, e1, e2, e3]
  have hm : ∀ (fuel : Nat) (argv1 : String), main S (fuel + 2) argv1 scenario =
      (output_filename argv1).map (fun name => (name, 3, [[0], [1], [2]])) := by
    intro fuel argv1
    simp only [main, hw fuel]
    cases output_filename argv1 <;> rfl
  refine ⟨h1, h2, rfl, fun fuel => ⟨hw fuel, hm fuel, ?_⟩⟩
  rw [hm fuel]
  rfl

/-! ## C12: the lookups of a step -/

/-- C12, at a state the program mishandles: after the seed on `gapInput` no candidate is
gathered, the fallback scan looks up id 0, which names no photo, and dereferences the
`end()` iterator it gets.  The other lookups of a step are safe in every state the
walker reaches: a commit finds the index set of every tag it prunes, and every gathered
candidate is found in the catalog. -/
theorem fallback_lookup_dereferenced :
    Reachable insertionSort gapInput gapSeed ∧ gapSeed.num_photo_left ≠ 0 ∧
    build_num_shared_tag gapSeed = [] ∧
    mapFind gapSeed.input_photos 0 = none ∧
    (∀ S : StdSort, insert_next_slide S gapSeed = .error .endDeref) ∧
    (∀ (S : StdSort) (records : List Record) (st : WalkerState), Reachable S records st →
      (∀ id ph, mapFind st.input_photos id = some ph → ∃ st', commit st id ph = .ok st') ∧
      (∀ kv ∈ build_num_shared_tag st, ∃ ph, mapFind st.input_photos kv.1 = some ph)) := by
  refine ⟨Reachable.seed rfl, by decide, rfl, rfl, fun _ => rfl, ?_⟩
  intro S records st hr
  refine ⟨fun id ph hf => commit_ok st id ph (hr.walkOK.tag_has_set id ph hf), ?_⟩
  intro kv hkv
  obtain ⟨ph, hph, -⟩ := (isLive_iff _ _).1 (mem_gathered_live _ _ _ _ (build_mem st kv hkv).1)
  exact ⟨ph, hph⟩

/-! ## C13: the effect of a step -/

/-- C13: the effect of a step that selects the entry `c`.  The id `c` leaves the index
set of every tag of `c`; for every other id, membership in every index set is
unchanged; the index sets of the tags that `c` does not carry are unchanged; the
catalog keeps its keys and every entry keeps its id, tags and source indices; only the
used flag of `c` changes, to true; the new current slide is `c` with the tag set of
`c`, it is appended to the slideshow, and `num_photo_left` decreases by one. -/
theorem step_frame (S : StdSort) (records : List Record) (st st' : WalkerState)
    (hr : Reachable S records st) (hleft : st.num_photo_left ≠ 0)
    (hs : insert_next_slide S st = .ok st') :
    ∃ c ph, mapFind st.input_photos c = some ph ∧ ph.id = c ∧ ph.used = false ∧
      (∀ t, t ∈ ph.tags → c ∉ indexSet st'.tag_to_photo t) ∧
      (∀ t i, i ≠ c → (i ∈ indexSet st'.tag_to_photo t ↔ i ∈ indexSet st.tag_to_photo t)) ∧
      (∀ t, t ∉ ph.tags → mapFind st'.tag_to_photo t = mapFind st.tag_to_photo t) ∧
      st'.input_photos.map Prod.fst = st.input_photos.map Prod.fst ∧
      (∀ k p, mapFind st.input_photos k = some p →
        ∃ p', mapFind st'.input_photos k = some p' ∧ p'.id = p.id ∧ p'.tags = p.tags ∧
          p'.input_ids = p.input_ids ∧ (k ≠ c → p'.used = p.used) ∧
          (k = c → p'.used = true)) ∧
      st'.slideshow = st.slideshow ++ [st'.current_slide] ∧
      st'.current_slide.photo_id = c ∧
      st'.current_slide.tags = ph.tags ∧
      st'.num_photo_left = st.num_photo_left - 1 := by
  obtain ⟨c, ph, hf, hu, hc⟩ := step_selects S records st st' hr hleft hs
  exact ⟨c, ph, hf, hr.walkOK.id_eq c ph hf, hu, commit_frame st st' hr.walkOK c ph hf hc⟩

/-- C13, witness: the statement of `step_frame` on the first step of `scenario`. -/
theorem step_frame_witness :
    Reachable insertionSort scenario scenarioSeed ∧ scenarioSeed.num_photo_left ≠ 0 ∧
    insert_next_slide insertionSort scenarioSeed = .ok scenarioStep1 ∧
    ∃ c ph, mapFind scenarioSeed.input_photos c = some ph ∧ ph.id = c ∧ ph.used = false ∧
      (∀ t, t ∈ ph.tags → c ∉ indexSet scenarioStep1.tag_to_photo t) ∧
      (∀ t i, i ≠ c →
        (i ∈ indexSet scenarioStep1.tag_to_photo t ↔ i ∈ indexSet scenarioSeed.tag_to_photo t)) ∧
      (∀ t, t ∉ ph.tags →
        mapFind scenarioStep1.tag_to_photo t = mapFind scenarioSeed.tag_to_photo t) ∧
      scenarioStep1.input_photos.map Prod.fst = scenarioSeed.input_photos.map Prod.fst ∧
      (∀ k p, mapFind scenarioSeed.input_photos k = some p →
        ∃ p', mapFind scenarioStep1.input_photos k = some p' ∧ p'.id = p.id ∧
          p'.tags = p.tags ∧ p'.input_ids = p.input_ids ∧ (k ≠ c → p'.used = p.used) ∧
          (k = c → p'.used = true)) ∧
      scenarioStep1.slideshow = scenarioSeed.slideshow ++ [scenarioStep1.current_slide] ∧
      scenarioStep1.current_slide.photo_id = c ∧
      scenarioStep1.current_slide.tags = ph.tags ∧
      scenarioStep1.num_photo_left = scenarioSeed.num_photo_left - 1 :=
  ⟨Reachable.seed rfl, by decide, rfl,
    step_frame insertionSort scenario scenarioSeed scenarioStep1 (Reachable.seed rfl)
      (by decide) rfl⟩

/-! ## C14: used flags -/

/-- C14: in every state the walker reaches no id occurs twice in the slideshow, and a
step appends an entry whose used flag was false and leaves every used flag that was
true at true. -/
theorem used_flags_only_rise (S : StdSort) (records : List Record) (st : WalkerState)
    (hr : Reachable S records st) :
    (st.slideshow.map Slide.photo_id).Nodup ∧
    ∀ st', st.num_photo_left ≠ 0 → insert_next_slide S st = .ok st' →
      (∃ c ph, mapFind st.input_photos c = some ph ∧ ph.used = false ∧
        st'.slideshow = st.slideshow ++ [st'.current_slide] ∧
        st'.current_slide.photo_id = c) ∧
      (∀ k p, mapFind st.input_photos k = some p → p.used = true →
        ∃ p', mapFind st'.input_photos k = some p' ∧ p'.used = true) := by
  refine ⟨(hr.walkCount.shown.nodup_iff).2 (usedIds_nodup _ hr.walkOK.keys_sorted.nodup), ?_⟩
  intro st' hleft hs
  obtain ⟨c, ph, hf, hu, hc⟩ := step_selects S records st st' hr hleft hs
  obtain ⟨-, -, -, -, hcat, hshow, hid, -, -⟩ := commit_frame st st' hr.walkOK c ph hf hc
  refine ⟨⟨c, ph, hf, hu, hshow, hid⟩, ?_⟩
  intro k p hk hpu
  obtain ⟨p', hp', -, -, -, h1, h2⟩ := hcat k p hk
  refine ⟨p', hp', ?_⟩
  by_cases hkc : k = c
  · exact h2 hkc
  · rw [h1 hkc]; exact hpu

/-- C14, witness: the statement of `used_flags_only_rise` after the first step of
`scenario`. -/
theorem used_flags_only_rise_witness :
    Reachable insertionSort scenario scenarioStep1 ∧
    (scenarioStep1.slideshow.map Slide.photo_id).Nodup ∧
    ∀ st', scenarioStep1.num_photo_left ≠ 0 →
      insert_next_slide insertionSort scenarioStep1 = .ok st' →
      (∃ c ph, mapFind scenarioStep1.input_photos c = some ph ∧ ph.used = false ∧
        st'.slideshow = scenarioStep1.slideshow ++ [st'.current_slide] ∧
        st'.current_slide.photo_id = c) ∧
      (∀ k p, mapFind scenarioStep1.input_photos k = some p → p.used = true →
        ∃ p', mapFind st'.input_photos k = some p' ∧ p'.used = true) :=
  ⟨Reachable.step (Reachable.seed rfl) (by decide) rfl,
    used_flags_only_rise insertionSort scenario scenarioStep1
      (Reachable.step (Reachable.seed rfl) (by decide) rfl)⟩

/-! ## C15: the shared-tag counters -/

/-- C15: in every state the walker reaches the index sets are in ascending id order,
and after candidate gathering the counter of an id `p` is the number of tags `t` of the
current slide such that `p` is among the first 5000 present-and-unused ids of the index
set of `t` (`firstLive`: used and absent ids are filtered out before the 5000 are
taken); an id with no such tag has no counter, in particular an id that is absent or
used. -/
theorem shared_tag_counter (S : StdSort) (records : List Record) (st : WalkerState)
    (hr : Reachable S records st) (p : Nat) :
    (∀ t, (indexSet st.tag_to_photo t).Sorted (· < ·)) ∧
    (mapFind (build_num_shared_tag st) p =
      if (st.current_slide.tags.filter (fun t => decide (p ∈ firstLive st t))).length = 0
      then none
      else some ((st.current_slide.tags.filter
        (fun t => decide (p ∈ firstLive st t))).length : Int)) ∧
    (isLive st.input_photos p = false → mapFind (build_num_shared_tag st) p = none) := by
  have hW := hr.walkOK
  refine ⟨sorted_indexSet hW.sets_sorted, build_find st hW p, ?_⟩
  intro hl
  rw [build_find st hW p, if_pos]
  apply List.length_eq_zero.2
  apply List.filter_eq_nil_iff.2
  intro t _
  simp only [decide_eq_true_eq]
  intro hm
  rw [(mem_firstLive st t p hm).2] at hl
  cases hl

/-- C15, witness: the statement of `shared_tag_counter` for photo 1 after the seed of
`scenario`. -/
theorem shared_tag_counter_witness :
    Reachable insertionSort scenario scenarioSeed ∧
    (∀ t, (indexSet scenarioSeed.tag_to_photo t).Sorted (· < ·)) ∧
    (mapFind (build_num_shared_tag scenarioSeed) 1 =
      if (scenarioSeed.current_slide.tags.filter
        (fun t => decide (1 ∈ firstLive scenarioSeed t))).length = 0
      then none
      else some ((scenarioSeed.current_slide.tags.filter
        (fun t => decide (1 ∈ firstLive scenarioSeed t))).length : Int)) ∧
    (isLive scenarioSeed.input_photos 1 = false →
      mapFind (build_num_shared_tag scenarioSeed) 1 = none) :=
  ⟨Reachable.seed rfl,
    shared_tag_counter insertionSort scenario scenarioSeed (Reachable.seed rfl) 1⟩

/-! ## C16: the choice among equal scores -/

/-- C16 is false as stated: `std::sort` is not stable.  On `eighteen` the seventeen
candidates 1, ..., 17 of the first step all have the score 0; libstdc++'s `std::sort`
swaps the middle element to the front and then the elements at the positions 1 and 16,
2 and 15, ..., which leaves candidate 2 last, and the step selects photo 2, not
photo 17.  On `tieExample` the candidates 1 and 2 both have the maximum score 1, and
with `reverseTieSort`, another admissible behaviour of `std::sort`, the step selects
photo 1. -/
theorem tie_break_not_fixed :
    (∃ st₀ st₁, main_seed (read_input eighteen) = .ok st₀ ∧
      candidates st₀.input_photos st₀.current_slide.tags.length
        (build_num_shared_tag st₀) = .ok ((List.range 17).map (fun i => (i + 1, 0))) ∧
      (libstdcxxSort.sort ((List.range 17).map (fun i => (i + 1, 0)))).getLast? =
        some (2, 0) ∧
      insert_next_slide libstdcxxSort st₀ = .ok st₁ ∧ st₁.current_slide.photo_id = 2) ∧
    Reachable reverseTieSort tieExample tieSeed ∧
    candidates tieSeed.input_photos tieSeed.current_slide.tags.length
      (build_num_shared_tag tieSeed) = .ok [(1, 1), (2, 1)] ∧
    ∃ st', insert_next_slide reverseTieSort tieSeed = .ok st' ∧
      st'.current_slide.photo_id = 1 ∧ st'.slideshow.map Slide.photo_id = [0, 1] :=
  ⟨⟨_, _, rfl, rfl, rfl, rfl, rfl⟩, Reachable.seed rfl, rfl, _, rfl, rfl, rfl⟩

/-- C16 as amended: on a step with at least one candidate, the candidates are generated
in ascending id order, and the one chosen is the last element of the list `std::sort`
returns, a candidate of maximum score; which of several candidates of maximum score
that is, is left to `std::sort`.  When the sorted list keeps candidates of equal score
in ascending id order, as after a stable sort, the one chosen is the candidate of
maximum score with the largest id. -/
theorem tie_break_follows_sort (S : StdSort) (records : List Record) (st : WalkerState)
    (hr : Reachable S records st) (hne : build_num_shared_tag st ≠ []) :
    ∃ cs good st',
      candidates st.input_photos st.current_slide.tags.length
        (build_num_shared_tag st) = .ok cs ∧
      cs.Pairwise (fun a b => a.1 < b.1) ∧
      (S.sort cs).getLast? = some good ∧ good ∈ cs ∧ (∀ c ∈ cs, c.2 ≤ good.2) ∧
      insert_next_slide S st = .ok st' ∧ st'.current_slide.photo_id = good.1 ∧
      (KeepsTieOrder (S.sort cs) → ∀ c ∈ cs, c.2 = good.2 → c.1 ≤ good.1) := by
  have hW := hr.walkOK
  obtain ⟨cs, good, ph, st', hcs, hlast, hmem, hmax, hph, -, hc, hstep⟩ :=
    scored_step S st hW hne
  obtain ⟨-, -, -, -, -, -, hid, -, -⟩ := commit_frame st st' hW good.1 ph hph hc
  refine ⟨cs, good, st', hcs, candidates_ids_ascending st cs hcs, hlast, hmem, hmax, hstep,
    hid, ?_⟩
  intro hk c hc' heq
  exact getLast?_tie_order hk hlast c ((S.perm cs).symm.subset hc') heq

/-- C16, witness: the statement of `tie_break_follows_sort` on `tieExample` with the
stable insertion sort. -/
theorem tie_break_follows_sort_witness :
    Reachable insertionSort tieExample tieSeed ∧ build_num_shared_tag tieSeed ≠ [] ∧
    ∃ cs good st',
      candidates tieSeed.input_photos tieSeed.current_slide.tags.length
        (build_num_shared_tag tieSeed) = .ok cs ∧
      cs.Pairwise (fun a b => a.1 < b.1) ∧
      (insertionSort.sort cs).getLast? = some good ∧ good ∈ cs ∧ (∀ c ∈ cs, c.2 ≤ good.2) ∧
      insert_next_slide insertionSort tieSeed = .ok st' ∧
      st'.current_slide.photo_id = good.1 ∧
      (KeepsTieOrder (insertionSort.sort cs) → ∀ c ∈ cs, c.2 = good.2 → c.1 ≤ good.1) :=
  ⟨Reachable.seed rfl, by decide,
    tie_break_follows_sort insertionSort tieExample tieSeed (Reachable.seed rfl) (by decide)⟩

/-- C16, example: with the stable insertion sort the step on `tieExample` selects
photo 2, the candidate of maximum score with the largest id. -/
theorem tie_break_stable_example :
    ∃ st', insert_next_slide insertionSort tieSeed = .ok st' ∧
      st'.current_slide.photo_id = 2 :=
  ⟨_, rfl, rfl⟩

/-! ## C17: the label map -/

/-- C17: the label map of a run gives the `k`-th distinct label read, in first-seen
order over all records (dropped vertical records included), the tag id `k`: the map is
the numbered list of the distinct labels, a label has the id `k` exactly when it is the
`k`-th distinct label, every label read has an id, two labels have the same id exactly
when they are equal strings, and an id once given is not changed by later records.  On
`gapInput` the label `a` of the dropped vertical record has id 0. -/
theorem label_map_first_seen (records : List Record) :
    (read_input records).tag_str_to_id =
      numbered (firstSeen (records.flatMap Record.labels)) ∧
    (read_input records).tag_id = (firstSeen (records.flatMap Record.labels)).length ∧
    (∀ l k, strFind (read_input records).tag_str_to_id l = some k ↔
      (firstSeen (records.flatMap Record.labels))[k]? = some l) ∧
    (∀ l, l ∈ records.flatMap Record.labels →
      ∃ k, strFind (read_input records).tag_str_to_id l = some k) ∧
    (∀ l₁ l₂ k₁ k₂, strFind (read_input records).tag_str_to_id l₁ = some k₁ →
      strFind (read_input records).tag_str_to_id l₂ = some k₂ → (k₁ = k₂ ↔ l₁ = l₂)) ∧
    (∀ pre suf, records = pre ++ suf → ∀ l k,
      strFind (read_input pre).tag_str_to_id l = some k →
        strFind (read_input records).tag_str_to_id l = some k) ∧
    (read_input gapInput).tag_str_to_id = [("a", 0), ("b", 1), ("c", 2)] := by
  have hL := LabelOK.label_read_input records
  have hnd := firstSeen_nodup (records.flatMap Record.labels)
  have hfind : ∀ l k, strFind (read_input records).tag_str_to_id l = some k ↔
      (firstSeen (records.flatMap Record.labels))[k]? = some l := by
    intro l k
    rw [hL.map_eq]
    exact strFind_numbered _ hnd l k
  refine ⟨hL.map_eq, hL.next_id, hfind, ?_, ?_, ?_, rfl⟩
  · intro l hl
    obtain ⟨k, hk⟩ := List.mem_iff_getElem?.1 ((mem_firstSeen _ l).2 hl)
    exact ⟨k, (hfind l k).2 hk⟩
  · intro l₁ l₂ k₁ k₂ h₁ h₂
    have e₁ := (hfind l₁ k₁).1 h₁
    have e₂ := (hfind l₂ k₂).1 h₂
    constructor
    · rintro rfl
      rw [e₁] at e₂
      exact Option.some.inj e₂
    · rintro rfl
      rw [h₁] at h₂
      exact Option.some.inj h₂
  · rintro pre suf rfl l k h
    exact read_input_extends pre suf l k h

/-! ## C18: unused entries stay in the index -/

/-- C18: in every state the walker reaches, an entry of the catalog that is not used is
in the index set of a tag exactly when it carries the tag, and when it shares a tag with
the current slide whose index set has at most 5000 live ids, candidate gathering gives
it a counter. -/
theorem unused_entries_indexed (S : StdSort) (records : List Record) (st : WalkerState)
    (hr : Reachable S records st) (i : Nat) (ph : Photo)
    (hf : mapFind st.input_photos i = some ph) (hu : ph.used = false) :
    (∀ t, i ∈ indexSet st.tag_to_photo t ↔ t ∈ ph.tags) ∧
    (∀ t, t ∈ st.current_slide.tags → t ∈ ph.tags →
      ((indexSet st.tag_to_photo t).filter (isLive st.input_photos)).length ≤ 5000 →
      ∃ s, mapFind (build_num_shared_tag st) i = some s) := by
  have hW := hr.walkOK
  refine ⟨fun t => hW.index_live t i ph hf hu, ?_⟩
  intro t htc htp hcap
  have hm : i ∈ firstLive st t := by
    unfold firstLive
    rw [List.take_of_length_le hcap]
    exact List.mem_filter.2 ⟨(hW.index_live t i ph hf hu).2 htp, (isLive_iff _ _).2 ⟨ph, hf, hu⟩⟩
  rw [build_find st hW i, if_neg]
  · exact ⟨_, rfl⟩
  · intro h0
    have := List.length_eq_zero.1 h0
    have hmem : t ∈ st.current_slide.tags.filter (fun t => decide (i ∈ firstLive st t)) :=
      List.mem_filter.2 ⟨htc, by simpa using hm⟩
    rw [this] at hmem
    cases hmem

/-- C18, witness: the statement of `unused_entries_indexed` for photo 1 after the seed
of `scenario`. -/
theorem unused_entries_indexed_witness :
    Reachable insertionSort scenario scenarioSeed ∧
    mapFind scenarioSeed.input_photos 1 =
      some { id := 1, input_ids := [1], used := false, tags := [1, 2] } ∧
    (∀ t, 1 ∈ indexSet scenarioSeed.tag_to_photo t ↔ t ∈ [1, 2]) ∧
    (∀ t, t ∈ scenarioSeed.current_slide.tags → t ∈ [1, 2] →
      ((indexSet scenarioSeed.tag_to_photo t).filter
        (isLive scenarioSeed.input_photos)).length ≤ 5000 →
      ∃ s, mapFind (build_num_shared_tag scenarioSeed) 1 = some s) :=
  ⟨Reachable.seed rfl, rfl,
    unused_entries_indexed insertionSort scenario scenarioSeed (Reachable.seed rfl) 1
      { id := 1, input_ids := [1], used := false, tags := [1, 2] } rfl rfl⟩

/-! ## C19: the counters of the loop -/

/-- C19: in every state the walker reaches, `num_photo_left` is the number of entries
of the catalog whose used flag is false, and the size of the slideshow plus
`num_photo_left` is the size of the catalog, which is the one `read_input` built. -/
theorem counters_agree (S : StdSort) (records : List Record) (st : WalkerState)
    (hr : Reachable S records st) :
    st.num_photo_left = (numUnused st.input_photos : Int) ∧
    (st.slideshow.length : Int) + st.num_photo_left = (st.input_photos.length : Int) ∧
    st.input_photos.length = (read_input records).input_photos.length := by
  have hC := hr.walkCount
  refine ⟨hC.left, ?_, ?_⟩
  · have h1 := hC.shown.length_eq
    have h2 := length_used_add_unused st.input_photos
    rw [List.length_map] at h1
    rw [hC.left]
    omega
  · have := congrArg List.length hr.keys
    simpa using this

/-- C19, witness: the statement of `counters_agree` after the first step of `scenario`. -/
theorem counters_agree_witness :
    Reachable insertionSort scenario scenarioStep1 ∧
    scenarioStep1.num_photo_left = (numUnused scenarioStep1.input_photos : Int) ∧
    (scenarioStep1.slideshow.length : Int) + scenarioStep1.num_photo_left =
      (scenarioStep1.input_photos.length : Int) ∧
    scenarioStep1.input_photos.length = (read_input scenario).input_photos.length :=
  ⟨Reachable.step (Reachable.seed rfl) (by decide) rfl,
    counters_agree insertionSort scenario scenarioStep1
      (Reachable.step (Reachable.seed rfl) (by decide) rfl)⟩

/-! ## C20: bounds on counters and scores -/

/-- C20: in every state the walker reaches, the counter `s` of a gathered candidate
with `nc` tags, for a current slide with `ncur` tags, satisfies `1 ≤ s ≤ min nc ncur`,
and the score `min(s, nc - s, ncur - s)` is not negative and at most `min nc ncur / 2`
rounded down. -/
theorem counter_bounds (S : StdSort) (records : List Record) (st : WalkerState)
    (hr : Reachable S records st) (kv : Nat × Int) (hkv : kv ∈ build_num_shared_tag st) :
    ∃ ph, mapFind st.input_photos kv.1 = some ph ∧
      1 ≤ kv.2 ∧ kv.2 ≤ min (ph.tags.length : Int) (st.current_slide.tags.length : Int) ∧
      0 ≤ score kv.2 ph.tags.length st.current_slide.tags.length ∧
      score kv.2 ph.tags.length st.current_slide.tags.length ≤
        min (ph.tags.length : Int) (st.current_slide.tags.length : Int) / 2 := by
  have hW := hr.walkOK
  obtain ⟨hm, -⟩ := build_mem st kv hkv
  obtain ⟨ph, hph, hu⟩ := (isLive_iff _ _).1 (mem_gathered_live _ _ _ _ hm)
  have hfind := mapFind_of_mem _ kv.1 kv.2 (build_keys_sorted st).nodup hkv
  rw [build_find st hW kv.1] at hfind
  by_cases h0 : (st.current_slide.tags.filter
      (fun t => decide (kv.1 ∈ firstLive st t))).length = 0
  · rw [if_pos h0] at hfind; cases hfind
  rw [if_neg h0, Option.some.injEq] at hfind
  have hle1 : (st.current_slide.tags.filter
      (fun t => decide (kv.1 ∈ firstLive st t))).length ≤ st.current_slide.tags.length :=
    List.length_filter_le _ _
  have hsub : (st.current_slide.tags.filter
      (fun t => decide (kv.1 ∈ firstLive st t))).length ≤
      (st.current_slide.tags.filter (fun t => decide (t ∈ ph.tags))).length := by
    apply List.Sublist.length_le
    apply List.monotone_filter_right
    intro t ht
    simp only [decide_eq_true_eq] at ht ⊢
    exact (hW.index_live t kv.1 ph hph hu).1 (mem_firstLive st t kv.1 ht).1
  have hle2 : (st.current_slide.tags.filter (fun t => decide (t ∈ ph.tags))).length ≤
      ph.tags.length := by
    rw [← inter_card_eq _ _ hW.cur_sorted.nodup,
      ← List.toFinset_card_of_nodup (hW.tags_sorted _ _ hph).nodup]
    exact Finset.card_le_card Finset.inter_subset_right
  have b1 : 1 ≤ kv.2 := by rw [← hfind]; omega
  have b2 : kv.2 ≤ (ph.tags.length : Int) := by rw [← hfind]; omega
  have b3 : kv.2 ≤ (st.current_slide.tags.length : Int) := by rw [← hfind]; omega
  obtain ⟨s1, s2⟩ := score_bounds kv.2 ph.tags.length st.current_slide.tags.length b1 b2 b3
  exact ⟨ph, hph, b1, le_min b2 b3, s1, s2⟩

/-- C20, witness: the statement of `counter_bounds` for the candidate of the first step
of `scenario`. -/
theorem counter_bounds_witness :
    Reachable insertionSort scenario scenarioSeed ∧
    ((1, 1) : Nat × Int) ∈ build_num_shared_tag scenarioSeed ∧
    ∃ ph, mapFind scenarioSeed.input_photos 1 = some ph ∧
      1 ≤ (1 : Int) ∧
      (1 : Int) ≤ min (ph.tags.length : Int) (scenarioSeed.current_slide.tags.length : Int) ∧
      0 ≤ score 1 ph.tags.length scenarioSeed.current_slide.tags.length ∧
      score 1 ph.tags.length scenarioSeed.current_slide.tags.length ≤
        min (ph.tags.length : Int) (scenarioSeed.current_slide.tags.length : Int) / 2 :=
  ⟨Reachable.seed rfl, by decide,
    counter_bounds insertionSort scenario scenarioSeed (Reachable.seed rfl) (1, 1) (by decide)⟩

end Slideshow
